import Mathlib

/-!
# Telnet echo servers: shallow embedding and verified properties

Embedding of `src/char_mode_server.c` (namespace `CharMode`) and
`src/line_mode_binary_server.c` (namespace `LineBinary`).

Conventions of the embedding
* a byte (`unsigned char`) is a `Nat`; theorems that depend on the value being a byte
  carry the bound `< 256` as a hypothesis;
* the connection's write half is the list `sent` of the messages passed to `send`,
  one list element per `send` call, in call order;
* `goto cleanup` sets `closed`; a closed session processes nothing further;
* console logging (`printf`) and the timestamp thread are not modelled; the use the reader
  makes of `socket_mutex` is described apart from the sessions, by the `*_actions` functions.
-/

set_option maxRecDepth 100000

/-! ## Telnet protocol codes (shared by both servers) -/

def BUFFER_SIZE : Nat := 1024
def IAC : Nat := 255
def DONT : Nat := 254
def DO : Nat := 253
def WONT : Nat := 252
def WILL : Nat := 251
def SB : Nat := 250
def SE : Nat := 240
def BINARY : Nat := 0
def ECHO : Nat := 1
def SUPPRESS_GO_AHEAD : Nat := 3
def LINEMODE : Nat := 34
def LM_MODE : Nat := 1
def MODE_EDIT : Nat := 1
def CTRL_C : Nat := 3
def CTRL_D : Nat := 4
def BACKSPACE : Nat := 8
def DEL : Nat := 127

/-- The bytes of a C string literal. -/
def bytes (s : String) : List Nat := s.toList.map Char.toNat

/-- The C string stored at the start of a `char` array: the bytes before the first NUL. -/
def cstr (a : List Nat) : List Nat := a.takeWhile (fun b => b != 0)

/-- The model of `snprintf(dst, size, "<pre>%s<post>", str)` followed by reading `dst` back as a
C string: the formatted text cut to `size - 1` bytes. -/
def snprintf (size : Nat) (pre : List Nat) (str : List Nat) (post : List Nat) : List Nat :=
  (pre ++ cstr str ++ post).take (size - 1)

namespace CharMode

/-- The struct `telnet_negotiation_t` of the character-mode server (C `int` flags). -/
structure telnet_negotiation_t where
  echo_acked : Nat
  sga_acked : Nat
  ready_sent : Nat
deriving DecidableEq, Repr

/-- The locals of `handle_client` that live across loop iterations, the messages written to the
socket so far, and whether `cleanup` was reached. -/
structure Session where
  input_line : List Nat
  input_pos : Nat
  negotiation : telnet_negotiation_t
  sent : List (List Nat)
  closed : Bool
deriving DecidableEq, Repr

/-- One `send(client_fd, msg, len, 0)` call. -/
def send (s : Session) (msg : List Nat) : Session :=
  { s with sent := s.sent ++ [msg] }

/-- The function `send_telnet_option`: one 3-byte write `IAC command option`. -/
def send_telnet_option (s : Session) (command option : Nat) : Session :=
  send s [IAC, command, option]

/-- The function `setup_charmode`. -/
def setup_charmode (s : Session) : Session :=
  let s := send_telnet_option s DONT LINEMODE
  let s := send_telnet_option s WILL ECHO
  let s := { s with negotiation := { s.negotiation with echo_acked := 1 } }
  let s := send_telnet_option s WILL SUPPRESS_GO_AHEAD
  send_telnet_option s DO SUPPRESS_GO_AHEAD

/-- The ready banner of the character-mode server. -/
def ready_msg : List Nat := bytes "\r\n*** READY! ***\r\n\r\n"

/-- The reply part of the option handling in `handle_client` (the `if (cmd == DO) ...` chain). -/
def respond (cmd opt : Nat) (s : Session) : Session :=
  if cmd = DO then
    if opt = ECHO then
      let s := send_telnet_option s WILL opt
      { s with negotiation := { s.negotiation with echo_acked := 1 } }
    else if opt = SUPPRESS_GO_AHEAD then
      let s := send_telnet_option s WILL opt
      { s with negotiation := { s.negotiation with sga_acked := 1 } }
    else
      send_telnet_option s WONT opt
  else if cmd = DONT then
    send_telnet_option s WONT opt
  else if cmd = WILL then
    if opt = SUPPRESS_GO_AHEAD then
      let s := send_telnet_option s DO opt
      { s with negotiation := { s.negotiation with sga_acked := 1 } }
    else
      send_telnet_option s DONT opt
  else if cmd = WONT then
    send_telnet_option s DONT opt
  else s

/-- The ready check that follows every option reply in `handle_client`. -/
def check_ready (s : Session) : Session :=
  if s.negotiation.ready_sent = 0 ∧ s.negotiation.echo_acked ≠ 0 ∧ s.negotiation.sga_acked ≠ 0 then
    let s := send s ready_msg
    { s with negotiation := { s.negotiation with ready_sent := 1 } }
  else s

/-- The handling of one complete option triple `IAC cmd opt`. -/
def negotiate (cmd opt : Nat) (s : Session) : Session :=
  check_ready (respond cmd opt s)

/-- The control-character and printable-character handling of `handle_client` for the byte
`ch` (the code after the `if (ch == IAC)` block). `closed` is set where the code jumps to
`cleanup`. -/
def handle_char (ch : Nat) (s : Session) : Session :=
  if ch = CTRL_D then
    { send s (bytes "\r\nGoodbye!\r\n") with closed := true }
  else if ch = CTRL_C then
    let s := send s (bytes "\r\n")
    { s with input_pos := 0, input_line := List.replicate BUFFER_SIZE 0 }
  else if ch = BACKSPACE ∨ ch = DEL then
    if s.input_pos > 0 then
      let s := { s with input_pos := s.input_pos - 1 }
      let s := { s with input_line := s.input_line.set s.input_pos 0 }
      send s (bytes "\x08 \x08")
    else s
  else if ch = 13 ∨ ch = 10 then
    let s := if ch = 13 then send s (bytes "\r\n") else s
    if s.input_pos > 0 ∧ cstr s.input_line = bytes "quit" then
      { send s (bytes "Goodbye!\r\n") with closed := true }
    else
      let s := if s.input_pos > 0 then
          send s (snprintf (BUFFER_SIZE + 20) (bytes "ECHO: ") s.input_line (bytes "\r\n"))
        else s
      { s with input_pos := 0, input_line := List.replicate BUFFER_SIZE 0 }
  else if ch ≥ 32 then
    if s.input_pos < BUFFER_SIZE - 1 then
      let s := { s with input_line := s.input_line.set s.input_pos ch, input_pos := s.input_pos + 1 }
      let s := { s with input_line := s.input_line.set s.input_pos 0 }
      send s [ch]
    else s
  else s

/-- The `for (i = 0; i < bytes_read; i++)` loop of `handle_client`; the argument is
`buffer[i .. bytes_read)`. The first two patterns are the iterations with `i + 1 = bytes_read`
(an `IAC` there has no command byte and is skipped by `continue`), the third those with
`i + 1 < bytes_read`. -/
def process_buffer : List Nat → Session → Session
  | [], s => s
  | [ch], s =>
    if ch = IAC then s
    else
      let s := handle_char ch s
      if s.closed then s else process_buffer [] s
  | ch :: cmd :: rest1, s =>
    if ch = IAC then
      if cmd = DO ∨ cmd = DONT ∨ cmd = WILL ∨ cmd = WONT then
        match rest1 with
        | opt :: rest2 => process_buffer rest2 (negotiate cmd opt s)
        | [] =>
          -- no option byte: control falls out of the IAC block with `ch` still IAC
          let s := handle_char IAC s
          if s.closed then s else process_buffer [cmd] s
      else if cmd = IAC then
        let s := handle_char IAC s
        if s.closed then s else process_buffer rest1 s
      else
        process_buffer rest1 s
    else
      let s := handle_char ch s
      if s.closed then s else process_buffer (cmd :: rest1) s

/-- One iteration of the `while (running)` loop: a `recv` that returned `buffer`
(`bytes_read = buffer.length`); an empty read is a disconnect. -/
def handle_read (buffer : List Nat) (s : Session) : Session :=
  if s.closed then s
  else if buffer = [] then { s with closed := true }
  else process_buffer buffer s

/-- The welcome messages sent after `setup_charmode`. -/
def welcome : List (List Nat) :=
  [bytes "Welcome to Character Mode Echo Server (Port 9092)\r\n",
   bytes "Each character is echoed immediately as you type.\r\n",
   bytes "Press Ctrl+D or type 'quit' and Enter to disconnect.\r\n",
   bytes "A timestamp will be sent every 10 seconds.\r\n",
   bytes "Negotiating telnet options...\r\n\r\n"]

/-- The session state when `handle_client` enters its read loop. -/
def start : Session :=
  let s : Session :=
    { input_line := List.replicate BUFFER_SIZE 0, input_pos := 0,
      negotiation := { echo_acked := 0, sga_acked := 0, ready_sent := 0 },
      sent := [], closed := false }
  let s := setup_charmode s
  { s with sent := s.sent ++ welcome }

/-- The function `handle_client` on the sequence of reads `reads`. -/
def handle_client (reads : List (List Nat)) : Session :=
  reads.foldl (fun s buffer => handle_read buffer s) start

end CharMode

namespace LineBinary

/-- The struct `telnet_negotiation_t` of the line-binary server (C `int` flags). -/
structure telnet_negotiation_t where
  binary_acked : Nat
  linemode_acked : Nat
  echo_acked : Nat
  sga_acked : Nat
  ready_sent : Nat
deriving DecidableEq, Repr

/-- The locals of `handle_client` that live across reads: `line_buf` holds the `line_len`
accumulated bytes `line_buf[0 .. line_len)` (so `line_len` is its length), then the negotiation
flags, the messages written to the socket so far, and whether `cleanup` was reached. -/
structure Session where
  line_buf : List Nat
  negotiation : telnet_negotiation_t
  sent : List (List Nat)
  closed : Bool
deriving DecidableEq, Repr

/-- The variable `line_len`. -/
def Session.line_len (s : Session) : Nat := s.line_buf.length

/-- One `send(client_fd, msg, len, 0)` call. -/
def send (s : Session) (msg : List Nat) : Session :=
  { s with sent := s.sent ++ [msg] }

/-- The function `send_telnet_option`: one 3-byte write `IAC command option`. -/
def send_telnet_option (s : Session) (command option : Nat) : Session :=
  send s [IAC, command, option]

/-- The function `utf8_sequence_length`. -/
def utf8_sequence_length (lead_byte : Nat) : Nat :=
  if lead_byte < 0x80 then 1
  else if lead_byte &&& 0xE0 = 0xC0 then 2
  else if lead_byte &&& 0xF0 = 0xE0 then 3
  else if lead_byte &&& 0xF8 = 0xF0 then 4
  else 0

/-- The `for (i = 1; i <= 4 && i <= len; i++)` loop of `check_incomplete_utf8`; the first
argument counts the iterations that the bound `i <= 4` still allows. -/
def check_incomplete_utf8_loop (buf : List Nat) (len : Nat) : Nat → Nat → Nat
  | 0, _ => 0
  | n + 1, i =>
    if i ≤ 4 ∧ i ≤ len then
      let pos := len - i
      let byte := buf.getD pos 0
      let expected_len := utf8_sequence_length byte
      if expected_len > 0 then
        let actual_len := len - pos
        if actual_len < expected_len then actual_len else 0
      else if byte &&& 0xC0 ≠ 0x80 then 0
      else check_incomplete_utf8_loop buf len n (i + 1)
    else 0

/-- The function `check_incomplete_utf8`. -/
def check_incomplete_utf8 (buf : List Nat) (len : Nat) : Nat :=
  if len = 0 then 0 else check_incomplete_utf8_loop buf len 4 1

/-- The `for (i = 0; i < len; i++)` loop of `find_line_ending`; the first argument is
`buf[i .. len)`. -/
def find_line_ending_loop : List Nat → Nat → Int
  | [], _ => -1
  | b :: rest, i =>
    if b = 13 then
      match rest with
      | [] => -1
      | next :: _ => if next = 10 ∨ next = 0 then (i : Int) + 2 else (i : Int) + 1
    else if b = 10 then (i : Int) + 1
    else find_line_ending_loop rest (i + 1)

/-- The function `find_line_ending`. -/
def find_line_ending (buf : List Nat) (len : Nat) : Int :=
  find_line_ending_loop (buf.take len) 0

/-- The function `setup_linemode`. -/
def setup_linemode (s : Session) : Session :=
  let s := send_telnet_option s DO BINARY
  let s := send_telnet_option s WILL BINARY
  let s := { s with negotiation := { s.negotiation with binary_acked := 1 } }
  let s := send_telnet_option s DO LINEMODE
  let s := send_telnet_option s WONT ECHO
  let s := { s with negotiation := { s.negotiation with echo_acked := 1 } }
  let s := send_telnet_option s WILL SUPPRESS_GO_AHEAD
  let s := send_telnet_option s DO SUPPRESS_GO_AHEAD
  send s [IAC, SB, LINEMODE, LM_MODE, MODE_EDIT, IAC, SE]

/-- The ready banner of the line-binary server. -/
def ready_msg : List Nat := bytes "\r\n*** READY! (BINARY mode active) ***\r\n\r\n"

/-- The reply part of the option handling in `handle_client` (the `if (cmd == DO) ...` chain). -/
def respond (cmd opt : Nat) (s : Session) : Session :=
  if cmd = DO then
    if opt = BINARY then
      let s := send_telnet_option s WILL opt
      { s with negotiation := { s.negotiation with binary_acked := 1 } }
    else if opt = SUPPRESS_GO_AHEAD then
      let s := send_telnet_option s WILL opt
      { s with negotiation := { s.negotiation with sga_acked := 1 } }
    else if opt = ECHO then
      let s := send_telnet_option s WONT opt
      { s with negotiation := { s.negotiation with echo_acked := 1 } }
    else
      send_telnet_option s WONT opt
  else if cmd = DONT then
    let s := send_telnet_option s WONT opt
    if opt = ECHO then
      { s with negotiation := { s.negotiation with echo_acked := 1 } }
    else if opt = BINARY then
      { s with negotiation := { s.negotiation with binary_acked := 1 } }
    else s
  else if cmd = WILL then
    if opt = BINARY then
      let s := send_telnet_option s DO opt
      { s with negotiation := { s.negotiation with binary_acked := 1 } }
    else if opt = LINEMODE then
      let s := send_telnet_option s DO opt
      { s with negotiation := { s.negotiation with linemode_acked := 1 } }
    else if opt = SUPPRESS_GO_AHEAD then
      let s := send_telnet_option s DO opt
      { s with negotiation := { s.negotiation with sga_acked := 1 } }
    else if opt = ECHO then
      let s := send_telnet_option s DO opt
      { s with negotiation := { s.negotiation with echo_acked := 1 } }
    else
      send_telnet_option s DONT opt
  else if cmd = WONT then
    let s := send_telnet_option s DONT opt
    if opt = LINEMODE then
      { s with negotiation := { s.negotiation with linemode_acked := 1 } }
    else if opt = BINARY then
      { s with negotiation := { s.negotiation with binary_acked := 1 } }
    else s
  else s

/-- The ready check that follows every option reply in `handle_client`. -/
def check_ready (s : Session) : Session :=
  if s.negotiation.ready_sent = 0 ∧ s.negotiation.binary_acked ≠ 0 ∧
      s.negotiation.linemode_acked ≠ 0 ∧ s.negotiation.echo_acked ≠ 0 ∧
      s.negotiation.sga_acked ≠ 0 then
    let s := send s ready_msg
    { s with negotiation := { s.negotiation with ready_sent := 1 } }
  else s

/-- The handling of one complete option triple `IAC cmd opt`. -/
def negotiate (cmd opt : Nat) (s : Session) : Session :=
  check_ready (respond cmd opt s)

mutual
/-- The `while (i < bytes_read)` loop of `handle_client` that extracts the data bytes; the
first argument is `buffer[i .. bytes_read)`, the second the bytes `data[0 .. data_len)`.
A `break` returns the data extracted so far. -/
def decode : List Nat → List Nat → Session → List Nat × Session
  | [], data, s => (data, s)
  | [b], data, s =>
    if b = IAC then (data, s)            -- IAC at end of buffer
    else decode [] (data ++ [b]) s
  | b :: cmd :: rest1, data, s =>
    if b = IAC then
      if cmd = IAC then decode rest1 (data ++ [IAC]) s
      else if cmd = DO ∨ cmd = DONT ∨ cmd = WILL ∨ cmd = WONT then
        match rest1 with
        | opt :: rest2 => decode rest2 data (negotiate cmd opt s)
        | [] => (data, s)                -- incomplete sequence, skip rest
      else if cmd = SB then subneg rest1 data s
      else decode rest1 data s           -- skip other IAC commands
    else decode (cmd :: rest1) (data ++ [b]) s
/-- The inner `while (j < bytes_read - 1)` loop that looks for `IAC SE`; the first argument is
`buffer[j .. bytes_read)`. When the loop ends without finding it the outer loop is left. -/
def subneg : List Nat → List Nat → Session → List Nat × Session
  | [], data, s => (data, s)
  | [_], data, s => (data, s)
  | b :: c :: rest, data, s =>
    if b = IAC ∧ c = SE then decode rest data s
    else subneg (c :: rest) data s
end

/-- The append of the extracted data to `line_buf`, with the overflow reset. -/
def append_data (data : List Nat) (s : Session) : Session :=
  if data.length > 0 then
    if s.line_len + data.length > 2 * BUFFER_SIZE then
      { s with line_buf := data }
    else
      { s with line_buf := s.line_buf ++ data }
  else s

/-- The removal of the line ending characters: the `while (line_content_len > 0 && ...)` loop,
applied to `line_buf[0 .. line_end_pos)`. -/
def strip_line (line : List Nat) : List Nat :=
  line.rdropWhile (fun b => b == 13 || b == 10 || b == 0)

/-- The body of the extraction loop up to the echo, for the line `line_buf[0 .. line_end_pos)`:
strip the line ending, compare with `quit`, echo. -/
def process_line (line : List Nat) (s : Session) : Session :=
  let content := strip_line line
  if content.length > 0 then
    -- `line_content` is the content followed by a NUL
    let line_content := content ++ [0]
    if cstr line_content = bytes "quit" then
      { send s (bytes "Goodbye!\r\n") with closed := true }
    else
      send s (snprintf (2 * BUFFER_SIZE + 20) (bytes "ECHO: ") line_content (bytes "\r\n"))
  else s

/-- The `while (line_end_pos > 0)` loop of `handle_client`, together with the computation of
`line_end_pos` that precedes each test. -/
def extract_lines (s : Session) : Session :=
  let incomplete_bytes := check_incomplete_utf8 s.line_buf s.line_len
  let process_len := s.line_len - incomplete_bytes
  let line_end_pos := find_line_ending s.line_buf process_len
  if h : line_end_pos > 0 then
    let s1 := process_line (s.line_buf.take line_end_pos.toNat) s
    if s1.closed then s1
    else extract_lines { s1 with line_buf := s.line_buf.drop line_end_pos.toNat }
  else s
termination_by s.line_buf.length
decreasing_by
  simp_wf
  have hne : s.line_buf ≠ [] := by
    intro h0
    simp [line_end_pos, find_line_ending, find_line_ending_loop, h0] at h
  exact ⟨List.length_pos.mpr hne, h⟩

/-- One iteration of the `while (running)` loop: a `recv` that returned `buffer`
(`bytes_read = buffer.length`); an empty read is a disconnect. -/
def handle_read (buffer : List Nat) (s : Session) : Session :=
  if s.closed then s
  else if buffer = [] then { s with closed := true }
  else
    let r := decode buffer [] s
    extract_lines (append_data r.1 r.2)

/-- The welcome messages sent after `setup_linemode`. -/
def welcome : List (List Nat) :=
  [bytes "Welcome to Line Mode Binary Echo Server (Port 9093)\r\n",
   bytes "Type a line and press Enter. It will be echoed back.\r\n",
   bytes "Type 'quit' to disconnect.\r\n",
   bytes "A timestamp will be sent every 10 seconds.\r\n",
   bytes "BINARY mode enabled for UTF-8 support.\r\n",
   bytes "Negotiating telnet options...\r\n\r\n"]

/-- The negotiation state and empty line buffer with which `handle_client` begins. -/
def fresh : Session :=
  { line_buf := [],
    negotiation := { binary_acked := 0, linemode_acked := 0, echo_acked := 0, sga_acked := 0,
                     ready_sent := 0 },
    sent := [], closed := false }

/-- The session state when `handle_client` enters its read loop. -/
def start : Session :=
  let s := setup_linemode fresh
  { s with sent := s.sent ++ welcome }

/-- The function `handle_client` on the sequence of reads `reads`. -/
def handle_client (reads : List (List Nat)) : Session :=
  reads.foldl (fun s buffer => handle_read buffer s) start

end LineBinary

/-! ## Definitions used to state the properties -/

namespace CharMode

/-- The session in which the edit buffer holds exactly the bytes `c`: `input_line` is `c`
followed by NULs up to `BUFFER_SIZE`, and `input_pos` is the length of `c`. -/
def editing (c : List Nat) (n : telnet_negotiation_t) (w : List (List Nat)) : Session :=
  { input_line := c ++ List.replicate (BUFFER_SIZE - c.length) 0, input_pos := c.length,
    negotiation := n, sent := w, closed := false }

end CharMode

namespace LineBinary

/-- The wire form of one application byte: `IAC` is sent doubled. -/
def iac_escaped (x : Nat) : List Nat := if x = IAC then [IAC, IAC] else [x]

end LineBinary

/-- A UTF-8 continuation byte, `10xxxxxx`. -/
def is_continuation (b : Nat) : Prop := 0x80 ≤ b ∧ b ≤ 0xBF

/-- The well-formed UTF-8 encodings of one code point that are 2 to 4 bytes long (the byte
ranges of the Unicode standard, table 3-7). -/
def well_formed_utf8_multibyte : List Nat → Prop
  | [b0, b1] => 0xC2 ≤ b0 ∧ b0 ≤ 0xDF ∧ is_continuation b1
  | [b0, b1, b2] =>
    ((b0 = 0xE0 ∧ 0xA0 ≤ b1 ∧ b1 ≤ 0xBF) ∨ (0xE1 ≤ b0 ∧ b0 ≤ 0xEC ∧ is_continuation b1) ∨
      (b0 = 0xED ∧ 0x80 ≤ b1 ∧ b1 ≤ 0x9F) ∨ (0xEE ≤ b0 ∧ b0 ≤ 0xEF ∧ is_continuation b1)) ∧
    is_continuation b2
  | [b0, b1, b2, b3] =>
    ((b0 = 0xF0 ∧ 0x90 ≤ b1 ∧ b1 ≤ 0xBF) ∨ (0xF1 ≤ b0 ∧ b0 ≤ 0xF3 ∧ is_continuation b1) ∨
      (b0 = 0xF4 ∧ 0x80 ≤ b1 ∧ b1 ≤ 0x8F)) ∧
    is_continuation b2 ∧ is_continuation b3
  | _ => False

namespace CharMode

/-- Every acknowledgement flag of the character mode is set. -/
def all_acked (n : telnet_negotiation_t) : Prop := n.echo_acked ≠ 0 ∧ n.sga_acked ≠ 0

/-- The relation between `ready_sent`, the banner and the acknowledgement flags that the
session keeps: `ready_sent` is 0 or 1, the banner has been written exactly `ready_sent` times,
and `ready_sent` is 1 exactly when every acknowledgement flag is set. -/
def ready_inv (s : Session) : Prop :=
  s.negotiation.ready_sent ≤ 1 ∧ s.sent.count ready_msg = s.negotiation.ready_sent ∧
    (s.negotiation.ready_sent = 1 ↔ all_acked s.negotiation)

/-- The reply column of the inbound response table, character mode, for `cmd` one of
DO, DONT, WILL, WONT: DO ECHO and DO SGA are answered WILL, any other DO is answered WONT,
DONT is answered WONT, WILL SGA is answered DO, any other WILL is answered DONT, WONT is
answered DONT. -/
def table_reply (cmd opt : Nat) : Nat :=
  if cmd = DO then (if opt = ECHO ∨ opt = SUPPRESS_GO_AHEAD then WILL else WONT)
  else if cmd = DONT then WONT
  else if cmd = WILL then (if opt = SUPPRESS_GO_AHEAD then DO else DONT)
  else DONT

/-- The flag column of the inbound response table, character mode: `echo_ack` is set by
DO ECHO only. -/
def table_sets_echo (cmd opt : Nat) : Prop := cmd = DO ∧ opt = ECHO

/-- The flag column of the inbound response table, character mode: `sga_ack` is set by DO SGA
and by WILL SGA only. -/
def table_sets_sga (cmd opt : Nat) : Prop := (cmd = DO ∨ cmd = WILL) ∧ opt = SUPPRESS_GO_AHEAD

instance (cmd opt : Nat) : Decidable (table_sets_echo cmd opt) := by
  unfold table_sets_echo; infer_instance

instance (cmd opt : Nat) : Decidable (table_sets_sga cmd opt) := by
  unfold table_sets_sga; infer_instance

end CharMode

namespace LineBinary

/-- The reply column of the inbound response table, line-binary mode, for `cmd` one of
DO, DONT, WILL, WONT: DO BINARY and DO SGA are answered WILL, DO ECHO and any other DO are
answered WONT, DONT is answered WONT, WILL BINARY, LINEMODE, SGA and ECHO are answered DO, any
other WILL is answered DONT, WONT is answered DONT. -/
def table_reply (cmd opt : Nat) : Nat :=
  if cmd = DO then (if opt = BINARY ∨ opt = SUPPRESS_GO_AHEAD then WILL else WONT)
  else if cmd = DONT then WONT
  else if cmd = WILL then
    (if opt = BINARY ∨ opt = LINEMODE ∨ opt = SUPPRESS_GO_AHEAD ∨ opt = ECHO then DO else DONT)
  else DONT

/-- The flag column of the table: `binary_ack` is set by DO, DONT, WILL and WONT BINARY. -/
def table_sets_binary (_cmd opt : Nat) : Prop := opt = BINARY

/-- The flag column of the table: `sga_ack` is set by DO SGA and WILL SGA. -/
def table_sets_sga (cmd opt : Nat) : Prop := (cmd = DO ∨ cmd = WILL) ∧ opt = SUPPRESS_GO_AHEAD

/-- The flag column of the table: `echo_ack` is set by DO, DONT and WILL ECHO. -/
def table_sets_echo (cmd opt : Nat) : Prop := (cmd = DO ∨ cmd = DONT ∨ cmd = WILL) ∧ opt = ECHO

/-- The flag column of the table: `linemode_ack` is set by WILL and WONT LINEMODE. -/
def table_sets_linemode (cmd opt : Nat) : Prop := (cmd = WILL ∨ cmd = WONT) ∧ opt = LINEMODE

instance (cmd opt : Nat) : Decidable (table_sets_binary cmd opt) := by
  unfold table_sets_binary; infer_instance

instance (cmd opt : Nat) : Decidable (table_sets_sga cmd opt) := by
  unfold table_sets_sga; infer_instance

instance (cmd opt : Nat) : Decidable (table_sets_echo cmd opt) := by
  unfold table_sets_echo; infer_instance

instance (cmd opt : Nat) : Decidable (table_sets_linemode cmd opt) := by
  unfold table_sets_linemode; infer_instance

/-- Every acknowledgement flag of the line-binary mode is set. -/
def all_acked (n : telnet_negotiation_t) : Prop :=
  n.binary_acked ≠ 0 ∧ n.linemode_acked ≠ 0 ∧ n.echo_acked ≠ 0 ∧ n.sga_acked ≠ 0

/-- The relation between `ready_sent`, the banner and the acknowledgement flags that the
session keeps: `ready_sent` is 0 or 1, the banner has been written exactly `ready_sent` times,
and `ready_sent` is 1 exactly when every acknowledgement flag is set. -/
def ready_inv (s : Session) : Prop :=
  s.negotiation.ready_sent ≤ 1 ∧ s.sent.count ready_msg = s.negotiation.ready_sent ∧
    (s.negotiation.ready_sent = 1 ↔ all_acked s.negotiation)

end LineBinary

instance (n : CharMode.telnet_negotiation_t) : Decidable (CharMode.all_acked n) := by
  unfold CharMode.all_acked; infer_instance

instance (n : LineBinary.telnet_negotiation_t) : Decidable (LineBinary.all_acked n) := by
  unfold LineBinary.all_acked; infer_instance

/-- The mirroring peer: it answers every server message `IAC WILL x` with `IAC DO x` and sends
nothing else; the result is the peer's answer to the server messages `w`. -/
def mirror_peer : List (List Nat) → List Nat
  | [] => []
  | m :: rest =>
    (match m with
      | [a, b, x] => if a = IAC ∧ b = WILL then [IAC, DO, x] else []
      | _ => []) ++ mirror_peer rest

/-- The option commands among the server messages `w`: the 3-byte messages `IAC c x` with `c`
one of DO, DONT, WILL, WONT. -/
def option_commands (w : List (List Nat)) : List (List Nat) :=
  w.filter (fun m =>
    match m with
    | [a, c, _] => a == IAC && (c == DO || c == DONT || c == WILL || c == WONT)
    | _ => false)

/-- One round of the exchange: the peer answers the messages the server wrote in the previous
round, the server processes that answer as one read; the round yields the new session and the
messages the server wrote in it. When the peer has nothing to answer nothing happens. -/
def exchange_round {σ : Type} (handle_read : List Nat → σ → σ) (sent : σ → List (List Nat))
    (st : σ × List (List Nat)) : σ × List (List Nat) :=
  if mirror_peer st.2 = [] then (st.1, [])
  else (handle_read (mirror_peer st.2) st.1,
        (sent (handle_read (mirror_peer st.2) st.1)).drop (sent st.1).length)

/-- The character-mode session and the messages of round `n`; round 0 is the prelude. -/
def CharMode.exchange : Nat → CharMode.Session × List (List Nat)
  | 0 => (CharMode.start, CharMode.start.sent)
  | n + 1 => exchange_round CharMode.handle_read CharMode.Session.sent (CharMode.exchange n)

/-- The line-binary session and the messages of round `n`; round 0 is the prelude. -/
def LineBinary.exchange : Nat → LineBinary.Session × List (List Nat)
  | 0 => (LineBinary.start, LineBinary.start.sent)
  | n + 1 =>
    exchange_round LineBinary.handle_read LineBinary.Session.sent (LineBinary.exchange n)

namespace LineBinary

/-- The `while (line_end_pos > 0)` loop with an explicit bound on the number of iterations;
it agrees with `extract_lines` when the bound is at least `line_len` (every iteration removes
at least one byte), and is used to evaluate the loop on concrete buffers. -/
def extract_lines_bounded : Nat → Session → Session
  | 0, s => s
  | k + 1, s =>
    if find_line_ending s.line_buf (s.line_len - check_incomplete_utf8 s.line_buf s.line_len) > 0
    then
      let line_end_pos :=
        (find_line_ending s.line_buf
          (s.line_len - check_incomplete_utf8 s.line_buf s.line_len)).toNat
      let s1 := process_line (s.line_buf.take line_end_pos) s
      if s1.closed then s1
      else extract_lines_bounded k { s1 with line_buf := s.line_buf.drop line_end_pos }
    else s

/-- The function `handle_read` with the bounded extraction loop. -/
def handle_read_bounded (buffer : List Nat) (s : Session) : Session :=
  if s.closed then s
  else if buffer = [] then { s with closed := true }
  else
    let r := decode buffer [] s
    extract_lines_bounded (append_data r.1 r.2).line_len (append_data r.1 r.2)

/-- The function `handle_client` with the bounded extraction loop. -/
def handle_client_bounded (reads : List (List Nat)) : Session :=
  reads.foldl (fun s buffer => handle_read_bounded buffer s) start

end LineBinary

namespace CharMode

/-- The shape of the edit buffer in every state the server reaches: `input_line` holds
`input_pos` stored bytes, each at least 32 and other than 127, followed by NULs up to the size
of the array, and `input_pos` is at most 1023. -/
def edit_inv (s : Session) : Prop :=
  ∃ c : List Nat, c.length ≤ 1023 ∧ (∀ b ∈ c, 32 ≤ b ∧ b ≠ 127) ∧
    s.input_line = c ++ List.replicate (BUFFER_SIZE - c.length) 0 ∧ s.input_pos = c.length

/-- The value of `input_pos` after the application byte `ch`, as the code computes it. -/
def next_input_pos (ch : Nat) (s : Session) : Nat :=
  if ch = 4 then s.input_pos
  else if ch = 3 then 0
  else if ch = 8 ∨ ch = 127 then (if s.input_pos > 0 then s.input_pos - 1 else s.input_pos)
  else if ch = 13 ∨ ch = 10 then
    (if s.input_line.take s.input_pos = bytes "quit" then s.input_pos else 0)
  else if 32 ≤ ch then (if s.input_pos < 1023 then s.input_pos + 1 else s.input_pos)
  else s.input_pos

end CharMode

namespace LineBinary

/-- The tail of `buf[0 .. len)` that is an incomplete UTF-8 sequence of `r` bytes: the byte
`r` places before the end is a lead byte whose expected sequence length (per
`utf8_sequence_length`) is greater than `r`, and the `r - 1` bytes after it are continuation
bytes. -/
def incomplete_tail (buf : List Nat) (len r : Nat) : Prop :=
  0 < r ∧ r ≤ len ∧ r < utf8_sequence_length (buf.getD (len - r) 0) ∧
    ∀ j, 0 < j → j < r → is_continuation (buf.getD (len - j) 0)

end LineBinary

instance (b : Nat) : Decidable (is_continuation b) := by
  unfold is_continuation; infer_instance

namespace LineBinary

/-- The variable `process_len` of `handle_client`: `line_len` less the incomplete UTF-8 tail. -/
def process_len (s : Session) : Nat :=
  s.line_len - check_incomplete_utf8 s.line_buf s.line_len

/-- The scan region `line_buf[0 .. process_len)` in which `find_line_ending` looks for a line
ending. -/
def scan_region (s : Session) : List Nat := s.line_buf.take (process_len s)

/-- The function `find_line_ending` with its loop written over the index `i` as in the source,
returning the result together with the indices of `buf` that were read, in order. The first
argument bounds the number of iterations. -/
def find_line_ending_traced (buf : List Nat) (len : Nat) : Nat → Nat → Int × List Int
  | 0, _ => (-1, [])
  | n + 1, i =>
    if i < len then
      if buf.getD i 0 = 13 then
        if i + 1 < len then
          if buf.getD (i + 1) 0 = 10 ∨ buf.getD (i + 1) 0 = 0 then
            ((i : Int) + 2, [(i : Int), (i : Int) + 1])
          else ((i : Int) + 1, [(i : Int), (i : Int) + 1])
        else (-1, [(i : Int)])
      else if buf.getD i 0 = 10 then ((i : Int) + 1, [(i : Int)])
      else
        let r := find_line_ending_traced buf len n (i + 1)
        (r.1, (i : Int) :: r.2)
    else (-1, [])

/-- The loop of `check_incomplete_utf8` with the position `pos = len - i` computed in the
integers as in the source, returning the result together with the positions of `buf` that were
read, in order. -/
def check_incomplete_utf8_traced_loop (buf : List Nat) (len : Nat) : Nat → Nat → Nat × List Int
  | 0, _ => (0, [])
  | n + 1, i =>
    if i ≤ 4 ∧ i ≤ len then
      let pos : Int := (len : Int) - (i : Int)
      let byte := buf.getD pos.toNat 0
      let expected_len := utf8_sequence_length byte
      if expected_len > 0 then
        let actual_len := ((len : Int) - pos).toNat
        (if actual_len < expected_len then actual_len else 0, [pos])
      else if byte &&& 0xC0 ≠ 0x80 then (0, [pos])
      else
        let r := check_incomplete_utf8_traced_loop buf len n (i + 1)
        (r.1, pos :: r.2)
    else (0, [])

/-- The function `check_incomplete_utf8` together with the positions of `buf` it reads. -/
def check_incomplete_utf8_traced (buf : List Nat) (len : Nat) : Nat × List Int :=
  if len = 0 then (0, []) else check_incomplete_utf8_traced_loop buf len 4 1

end LineBinary

/-- An action of the reader on the connection and its write lock: `pthread_mutex_lock` or
`pthread_mutex_unlock` on `socket_mutex`, or one `send` call with the bytes it writes. -/
inductive SocketAction where
  | lock : SocketAction
  | unlock : SocketAction
  | send : List Nat → SocketAction
deriving DecidableEq, Repr

/-- Whether every `send` in a sequence of actions is made while `socket_mutex` is held; the
first argument tells whether the mutex is held before the first action. -/
def sends_under_lock : Bool → List SocketAction → Bool
  | _, [] => true
  | _, SocketAction.lock :: rest => sends_under_lock true rest
  | _, SocketAction.unlock :: rest => sends_under_lock false rest
  | held, SocketAction.send _ :: rest => held && sends_under_lock held rest

/-- The messages written by a sequence of actions, in order. -/
def sends_of : List SocketAction → List (List Nat)
  | [] => []
  | SocketAction.send msg :: rest => msg :: sends_of rest
  | SocketAction.lock :: rest => sends_of rest
  | SocketAction.unlock :: rest => sends_of rest

/-- The statement sequence `pthread_mutex_lock(&socket_mutex); send(client_fd, msg, ...);
pthread_mutex_unlock(&socket_mutex);`. -/
def locked_send (msg : List Nat) : List SocketAction :=
  [SocketAction.lock, SocketAction.send msg, SocketAction.unlock]

/-- The actions of `send_telnet_option` (the same function in both servers): one `send`; the
function takes no lock. -/
def send_telnet_option_actions (command option : Nat) : List SocketAction :=
  [SocketAction.send [IAC, command, option]]

namespace CharMode

/-- The actions of the reply part of the option handling in `handle_client`: each reply is one
call of `send_telnet_option`. -/
def respond_actions (cmd opt : Nat) : List SocketAction :=
  if cmd = DO then
    if opt = ECHO then send_telnet_option_actions WILL opt
    else if opt = SUPPRESS_GO_AHEAD then send_telnet_option_actions WILL opt
    else send_telnet_option_actions WONT opt
  else if cmd = DONT then send_telnet_option_actions WONT opt
  else if cmd = WILL then
    if opt = SUPPRESS_GO_AHEAD then send_telnet_option_actions DO opt
    else send_telnet_option_actions DONT opt
  else if cmd = WONT then send_telnet_option_actions DONT opt
  else []

/-- The actions of the ready check: the banner is sent with the lock held. -/
def check_ready_actions (s : Session) : List SocketAction :=
  if s.negotiation.ready_sent = 0 ∧ s.negotiation.echo_acked ≠ 0 ∧ s.negotiation.sga_acked ≠ 0 then
    locked_send ready_msg
  else []

/-- The actions of the handling of one complete option triple `IAC cmd opt`. -/
def negotiate_actions (cmd opt : Nat) (s : Session) : List SocketAction :=
  respond_actions cmd opt ++ check_ready_actions (respond cmd opt s)

/-- The actions of the control-character and printable-character handling for the byte `ch`:
every `send` there stands between `pthread_mutex_lock` and `pthread_mutex_unlock`. -/
def handle_char_actions (ch : Nat) (s : Session) : List SocketAction :=
  if ch = CTRL_D then locked_send (bytes "\r\nGoodbye!\r\n")
  else if ch = CTRL_C then locked_send (bytes "\r\n")
  else if ch = BACKSPACE ∨ ch = DEL then
    if s.input_pos > 0 then locked_send (bytes "\x08 \x08") else []
  else if ch = 13 ∨ ch = 10 then
    (if ch = 13 then locked_send (bytes "\r\n") else []) ++
      (if s.input_pos > 0 ∧ cstr s.input_line = bytes "quit" then
        locked_send (bytes "Goodbye!\r\n")
      else if s.input_pos > 0 then
        locked_send (snprintf (BUFFER_SIZE + 20) (bytes "ECHO: ") s.input_line (bytes "\r\n"))
      else [])
  else if ch ≥ 32 then
    if s.input_pos < BUFFER_SIZE - 1 then locked_send [ch] else []
  else []

end CharMode

namespace LineBinary

/-- The actions of the reply part of the option handling in `handle_client`: each reply is one
call of `send_telnet_option`. -/
def respond_actions (cmd opt : Nat) : List SocketAction :=
  if cmd = DO then
    if opt = BINARY then send_telnet_option_actions WILL opt
    else if opt = SUPPRESS_GO_AHEAD then send_telnet_option_actions WILL opt
    else if opt = ECHO then send_telnet_option_actions WONT opt
    else send_telnet_option_actions WONT opt
  else if cmd = DONT then send_telnet_option_actions WONT opt
  else if cmd = WILL then
    if opt = BINARY then send_telnet_option_actions DO opt
    else if opt = LINEMODE then send_telnet_option_actions DO opt
    else if opt = SUPPRESS_GO_AHEAD then send_telnet_option_actions DO opt
    else if opt = ECHO then send_telnet_option_actions DO opt
    else send_telnet_option_actions DONT opt
  else if cmd = WONT then send_telnet_option_actions DONT opt
  else []

/-- The actions of the ready check: the banner is sent with the lock held. -/
def check_ready_actions (s : Session) : List SocketAction :=
  if s.negotiation.ready_sent = 0 ∧ s.negotiation.binary_acked ≠ 0 ∧
      s.negotiation.linemode_acked ≠ 0 ∧ s.negotiation.echo_acked ≠ 0 ∧
      s.negotiation.sga_acked ≠ 0 then
    locked_send ready_msg
  else []

/-- The actions of the handling of one complete option triple `IAC cmd opt`. -/
def negotiate_actions (cmd opt : Nat) (s : Session) : List SocketAction :=
  respond_actions cmd opt ++ check_ready_actions (respond cmd opt s)

/-- The actions of the body of the extraction loop for one line: `Goodbye!` and the echo are
sent with the lock held. -/
def process_line_actions (line : List Nat) : List SocketAction :=
  if (strip_line line).length > 0 then
    if cstr (strip_line line ++ [0]) = bytes "quit" then locked_send (bytes "Goodbye!\r\n")
    else
      locked_send
        (snprintf (2 * BUFFER_SIZE + 20) (bytes "ECHO: ") (strip_line line ++ [0]) (bytes "\r\n"))
  else []

end LineBinary

/-! ## Auxiliary facts about C strings and arrays -/

theorem cstr_append_zeros (c : List Nat) (k : Nat) (hc : ∀ b ∈ c, b ≠ 0) :
    cstr (c ++ List.replicate k 0) = c := by
  induction c with
  | nil => cases k <;> simp [cstr, List.replicate_succ]
  | cons a t ih =>
    have ha : a ≠ 0 := hc a (List.mem_cons_self _ _)
    have ht : ∀ b ∈ t, b ≠ 0 := fun b hb => hc b (List.mem_cons_of_mem _ hb)
    have := ih ht
    simp only [cstr] at this ⊢
    simp [List.takeWhile_cons, ha, this]

theorem set_append_zeros (c : List Nat) (k ch : Nat) :
    (c ++ List.replicate (k + 1) 0).set c.length ch = c ++ ch :: List.replicate k 0 := by
  induction c with
  | nil => simp [List.replicate_succ]
  | cons a t ih => simpa using ih

theorem set_zero_append_zeros (c : List Nat) (k : Nat) :
    (c ++ List.replicate (k + 1) 0).set c.length 0 = c ++ List.replicate (k + 1) 0 := by
  rw [set_append_zeros, List.replicate_succ]

namespace CharMode

theorem process_buffer_data (ch : Nat) (rest : List Nat) (s : Session) (h : ch ≠ IAC) :
    process_buffer (ch :: rest) s =
      if (handle_char ch s).closed then handle_char ch s
      else process_buffer rest (handle_char ch s) := by
  cases rest with
  | nil => rw [process_buffer]; simp [h, process_buffer]
  | cons a t => cases t <;> (conv_lhs => rw [process_buffer]) <;> simp [h]

theorem handle_char_append (ch : Nat) (c : List Nat) (n : telnet_negotiation_t)
    (w : List (List Nat)) (h32 : 32 ≤ ch) (h127 : ch ≠ 127) (hlen : c.length < 1023) :
    handle_char ch (editing c n w) = editing (c ++ [ch]) n (w ++ [[ch]]) := by
  have h4 : ch ≠ 4 := by omega
  have h3 : ch ≠ 3 := by omega
  have h8 : ch ≠ 8 := by omega
  have h13 : ch ≠ 13 := by omega
  have h10 : ch ≠ 10 := by omega
  obtain ⟨k, hk⟩ : ∃ k, 1024 - c.length = k + 2 := ⟨1022 - c.length, by omega⟩
  have hk1 : 1024 - (c.length + 1) = k + 1 := by omega
  have e1 := set_append_zeros c (k + 1) ch
  have e2 := set_zero_append_zeros (c ++ [ch]) k
  simp only [List.length_append, List.length_singleton, List.append_assoc,
    List.singleton_append] at e2
  simp [handle_char, editing, send, CTRL_D, CTRL_C, BACKSPACE, DEL, BUFFER_SIZE, h4, h3, h8,
    h13, h10, h127, h32, hlen, hk, hk1, e1, e2]

theorem process_buffer_printables (p rest : List Nat) :
    ∀ (c : List Nat) (n : telnet_negotiation_t) (w : List (List Nat)),
      (∀ b ∈ p, 32 ≤ b ∧ b ≠ 127 ∧ b ≠ 255) → c.length + p.length ≤ 1023 →
      process_buffer (p ++ rest) (editing c n w) =
        process_buffer rest (editing (c ++ p) n (w ++ p.map (fun b => [b]))) := by
  induction p with
  | nil => intro c n w _ _; simp
  | cons a t ih =>
    intro c n w hp hlen
    have ha := hp a (List.mem_cons_self _ _)
    have ht : ∀ b ∈ t, 32 ≤ b ∧ b ≠ 127 ∧ b ≠ 255 := fun b hb => hp b (List.mem_cons_of_mem _ hb)
    simp only [List.length_cons] at hlen
    rw [List.cons_append, process_buffer_data _ _ _ (by simpa [IAC] using ha.2.2),
      handle_char_append a c n w ha.1 ha.2.1 (by omega)]
    rw [if_neg (by simp [editing])]
    rw [ih (c ++ [a]) n (w ++ [[a]]) ht (by simp; omega)]
    simp

theorem editing_nil (n : telnet_negotiation_t) (w : List (List Nat)) :
    editing [] n w =
      { input_line := List.replicate 1024 0, input_pos := 0, negotiation := n, sent := w,
        closed := false } := by
  simp [editing, BUFFER_SIZE]

theorem handle_char_cr_echo (c : List Nat) (n : telnet_negotiation_t) (w : List (List Nat))
    (hc : ∀ b ∈ c, b ≠ 0) (hne : c ≠ []) (hq : c ≠ bytes "quit") (hlen : c.length ≤ 1023) :
    handle_char 13 (editing c n w) =
      editing [] n (w ++ [bytes "\r\n", bytes "ECHO: " ++ c ++ bytes "\r\n"]) := by
  have hpos : 0 < c.length := List.length_pos.mpr hne
  have hcs : cstr (c ++ List.replicate (1024 - c.length) 0) = c := cstr_append_zeros c _ hc
  have h6 : (bytes "ECHO: ").length = 6 := by decide
  have h2 : (bytes "\r\n").length = 2 := by decide
  simp [handle_char, editing, send, CTRL_D, CTRL_C, BACKSPACE, DEL, BUFFER_SIZE, hpos, hcs, hq,
    snprintf]
  omega

/-- C1 (amended): in the character-mode server, starting from an empty edit buffer, for every
non-empty string `s` of printable ASCII bytes (0x20..0x7E) of length at most 1022 other than
`quit`, one read holding `s` followed by CR makes the server write exactly the bytes of `s`, one
write per byte and in order, then `"\r\n"`, then `"ECHO: " ++ s ++ "\r\n"`; the edit buffer is
empty again and the session stays open. -/
theorem C1_printable_line_echo (s : List Nat) (n : telnet_negotiation_t) (w : List (List Nat))
    (hs : ∀ b ∈ s, 0x20 ≤ b ∧ b ≤ 0x7E) (hlen : s.length ≤ 1022)
    (hne : s ≠ []) (hq : s ≠ bytes "quit") :
    handle_read (s ++ [13])
        { input_line := List.replicate 1024 0, input_pos := 0, negotiation := n, sent := w,
          closed := false } =
      { input_line := List.replicate 1024 0, input_pos := 0, negotiation := n,
        sent := w ++ s.map (fun b => [b]) ++ [bytes "\r\n", bytes "ECHO: " ++ s ++ bytes "\r\n"],
        closed := false } := by
  rw [← editing_nil, ← editing_nil]
  have hp : ∀ b ∈ s, 32 ≤ b ∧ b ≠ 127 ∧ b ≠ 255 := fun b hb => by
    have := hs b hb
    omega
  have hz : ∀ b ∈ s, b ≠ 0 := fun b hb => by
    have := hs b hb
    omega
  have h1 : handle_read (s ++ [13]) (editing [] n w) = process_buffer (s ++ [13]) (editing [] n w) := by
    simp [handle_read, editing]
  rw [h1, process_buffer_printables s [13] [] n w hp (by simp; omega)]
  rw [process_buffer_data 13 [] _ (by decide)]
  simp only [List.nil_append]
  rw [handle_char_cr_echo s n _ hz hne hq (by omega)]
  simp [editing, process_buffer]

/-- Witness for C1: the string `hi`. -/
theorem C1_printable_line_echo_witness :
    handle_read (bytes "hi" ++ [13])
        { input_line := List.replicate 1024 0, input_pos := 0,
          negotiation := { echo_acked := 1, sga_acked := 0, ready_sent := 0 }, sent := [],
          closed := false } =
      { input_line := List.replicate 1024 0, input_pos := 0,
        negotiation := { echo_acked := 1, sga_acked := 0, ready_sent := 0 },
        sent := [] ++ (bytes "hi").map (fun b => [b]) ++
          [bytes "\r\n", bytes "ECHO: " ++ bytes "hi" ++ bytes "\r\n"],
        closed := false } :=
  C1_printable_line_echo (bytes "hi") _ [] (by decide) (by decide) (by decide) (by decide)

/-- C1 as stated fails for the empty string and for `quit`: on a fresh session the read
`"\r"` writes only `"\r\n"` (no `ECHO:` line), and the read `"quit\r"` writes the four echoed
bytes, `"\r\n"` and `"Goodbye!\r\n"` and ends the session. -/
theorem C1_counterexample :
    (handle_client [bytes "" ++ [13]]).sent = start.sent ++ [bytes "\r\n"] ∧
    (handle_client [bytes "" ++ [13]]).sent ≠
      start.sent ++ (bytes "").map (fun b => [b]) ++
        [bytes "\r\n", bytes "ECHO: " ++ bytes "" ++ bytes "\r\n"] ∧
    (handle_client [bytes "quit" ++ [13]]).sent =
      start.sent ++ [[113], [117], [105], [116], bytes "\r\n", bytes "Goodbye!\r\n"] ∧
    (handle_client [bytes "quit" ++ [13]]).closed = true ∧
    (handle_client [bytes "quit" ++ [13]]).sent ≠
      start.sent ++ (bytes "quit").map (fun b => [b]) ++
        [bytes "\r\n", bytes "ECHO: " ++ bytes "quit" ++ bytes "\r\n"] := by
  decide

end CharMode

namespace LineBinary

theorem utf8_sequence_length_byte :
    ∀ x < 256, utf8_sequence_length x =
      if x < 0x80 then 1 else if x < 0xC0 then 0 else if x < 0xE0 then 2
      else if x < 0xF0 then 3 else if x < 0xF8 then 4 else 0 := by
  decide

theorem continuation_byte :
    ∀ x < 256, (x &&& 0xC0 = 0x80) = (0x80 ≤ x ∧ x < 0xC0) := by
  decide

theorem decode_data (b : Nat) (rest data : List Nat) (s : Session) (h : b ≠ IAC) :
    decode (b :: rest) data s = decode rest (data ++ [b]) s := by
  cases rest with
  | nil => conv_lhs => rw [decode]
           simp [h]
  | cons a t => cases t <;> (conv_lhs => rw [decode]) <;> simp [h]

theorem decode_plain (p : List Nat) :
    ∀ (rest data : List Nat) (s : Session), (∀ b ∈ p, b ≠ 255) →
      decode (p ++ rest) data s = decode rest (data ++ p) s := by
  induction p with
  | nil => intro rest data s _; simp
  | cons a t ih =>
    intro rest data s hp
    have ha : a ≠ IAC := hp a (List.mem_cons_self _ _)
    rw [List.cons_append, decode_data _ _ _ _ ha,
      ih rest _ s (fun b hb => hp b (List.mem_cons_of_mem _ hb))]
    simp

theorem decode_nil (data : List Nat) (s : Session) : decode [] data s = (data, s) := by
  rw [decode]

theorem decode_iac_iac (rest data : List Nat) (s : Session) :
    decode (255 :: 255 :: rest) data s = decode rest (data ++ [255]) s := by
  cases rest <;> (conv_lhs => rw [decode]) <;> simp [IAC]

theorem extract_lines_step (s : Session) (k : Nat) (hk : 0 < k)
    (h : find_line_ending s.line_buf (s.line_len - check_incomplete_utf8 s.line_buf s.line_len)
      = (k : Int)) :
    extract_lines s =
      if (process_line (s.line_buf.take k) s).closed then process_line (s.line_buf.take k) s
      else extract_lines { process_line (s.line_buf.take k) s with line_buf := s.line_buf.drop k } := by
  conv_lhs => rw [extract_lines]
  have hpos : (0 : Int) < (k : Int) := by exact_mod_cast hk
  simp [h, hpos]

theorem extract_lines_done (s : Session)
    (h : find_line_ending s.line_buf (s.line_len - check_incomplete_utf8 s.line_buf s.line_len)
      ≤ 0) :
    extract_lines s = s := by
  conv_lhs => rw [extract_lines]
  simp [not_lt.mpr h]

theorem handle_read_open (buffer : List Nat) (s : Session) (hs : s.closed = false)
    (hb : buffer ≠ []) :
    handle_read buffer s =
      extract_lines (append_data (decode buffer [] s).1 (decode buffer [] s).2) := by
  simp [handle_read, hs, hb]

theorem decode_app_byte (x : Nat) (rest data : List Nat) (s : Session) :
    decode (iac_escaped x ++ rest) data s = decode rest (data ++ [x]) s := by
  by_cases hx : x = IAC
  · subst hx
    simpa [iac_escaped, IAC] using decode_iac_iac rest data s
  · simpa [iac_escaped, hx] using decode_data x rest data s hx

theorem check_incomplete_after_cr (x : Nat) (hx : x < 256) (hl : ¬ (0xC0 ≤ x ∧ x ≤ 0xF7)) :
    check_incomplete_utf8 [97, 98, 99, 13, x] 5 = 0 ∧ check_incomplete_utf8 [x] 1 = 0 := by
  have h1 := utf8_sequence_length_byte x hx
  have h2 := continuation_byte x hx
  have h13 : utf8_sequence_length 13 = 1 := by decide
  by_cases ha : x < 0x80
  · simp [check_incomplete_utf8, check_incomplete_utf8_loop, h1, ha]
  · by_cases hb : x < 0xC0
    · have hc : x &&& 0xC0 = 0x80 := by rw [h2]; omega
      simp [check_incomplete_utf8, check_incomplete_utf8_loop, h1, ha, hb, hc, h13]
    · have hc : ¬ (x &&& 0xC0 = 0x80) := by rw [h2]; omega
      have hd : ¬ x < 0xE0 := by omega
      have he : ¬ x < 0xF0 := by omega
      have hf : ¬ x < 0xF8 := by omega
      simp [check_incomplete_utf8, check_incomplete_utf8_loop, h1, ha, hb, hc, hd, he, hf]

end LineBinary

theorem cstr_append_nul (c : List Nat) (hc : ∀ b ∈ c, b ≠ 0) : cstr (c ++ [0]) = c := by
  simpa using cstr_append_zeros c 1 hc

namespace LineBinary

theorem process_line_echo (line c : List Nat) (s : Session) (hstrip : strip_line line = c)
    (hne : c ≠ []) (hz : ∀ b ∈ c, b ≠ 0) (hq : c ≠ bytes "quit") (hlen : c.length ≤ 2048) :
    process_line line s = send s (bytes "ECHO: " ++ c ++ bytes "\r\n") := by
  have hpos : 0 < c.length := List.length_pos.mpr hne
  have h6 : (bytes "ECHO: ").length = 6 := by decide
  have h2 : (bytes "\r\n").length = 2 := by decide
  have hfit : (bytes "ECHO: " ++ c ++ bytes "\r\n").length ≤ 2 * 1024 + 20 - 1 := by
    simp only [List.length_append, h6, h2]; omega
  simp only [process_line, hstrip, hpos, if_true, cstr_append_nul c hz, hq, if_false, snprintf,
    BUFFER_SIZE, List.take_of_length_le hfit]

theorem extract_single_line (data c : List Nat) (k : Nat) (n : telnet_negotiation_t)
    (w : List (List Nat))
    (h1 : find_line_ending data (data.length - check_incomplete_utf8 data data.length) = (k : Int))
    (hk : 0 < k) (hstrip : strip_line (data.take k) = c)
    (hne : c ≠ []) (hz : ∀ b ∈ c, b ≠ 0) (hq : c ≠ bytes "quit") (hlen : c.length ≤ 2048)
    (h2 : find_line_ending (data.drop k)
      ((data.drop k).length - check_incomplete_utf8 (data.drop k) (data.drop k).length) ≤ 0) :
    extract_lines { line_buf := data, negotiation := n, sent := w, closed := false } =
      { line_buf := data.drop k, negotiation := n,
        sent := w ++ [bytes "ECHO: " ++ c ++ bytes "\r\n"], closed := false } := by
  rw [extract_lines_step _ k hk (by simpa [Session.line_len] using h1)]
  simp only [process_line_echo _ c _ hstrip hne hz hq hlen, send]
  rw [if_neg (by simp)]
  exact extract_lines_done _ (by simpa [Session.line_len] using h2)

theorem append_data_empty (data : List Nat) (n : telnet_negotiation_t) (w : List (List Nat))
    (hlen : data.length ≤ 2048) :
    append_data data { line_buf := [], negotiation := n, sent := w, closed := false } =
      { line_buf := data, negotiation := n, sent := w, closed := false } := by
  cases data with
  | nil => simp [append_data]
  | cons a t =>
    have : ¬ (t.length + 1 > 2 * 1024) := by simpa using hlen
    simp [append_data, Session.line_len, BUFFER_SIZE, this]

theorem handle_read_of_decode (buffer data : List Nat) (n : telnet_negotiation_t)
    (w : List (List Nat)) (hb : buffer ≠ []) (hlen : data.length ≤ 2048)
    (hd : decode buffer [] { line_buf := [], negotiation := n, sent := w, closed := false } =
      (data, { line_buf := [], negotiation := n, sent := w, closed := false })) :
    handle_read buffer { line_buf := [], negotiation := n, sent := w, closed := false } =
      extract_lines { line_buf := data, negotiation := n, sent := w, closed := false } := by
  rw [handle_read_open _ _ rfl hb, hd]
  simp only []
  rw [append_data_empty _ _ _ hlen]

theorem decode_all_plain (p : List Nat) (s : Session) (hp : ∀ b ∈ p, b ≠ 255) :
    decode p [] s = (p, s) := by
  have := decode_plain p [] [] s hp
  simpa [decode_nil] using this

/-- C2 (amended): in the line-binary server, starting from an empty LineBuffer, each of the
single reads `abc\r\n`, `abc\n`, `abc\r\0`, and `abc\r` followed by one application byte `x`
(sent as `IAC IAC` when it is 0xFF), for every byte `x` other than LF, NUL and the UTF-8 lead
bytes 0xC0..0xF7, makes the server write exactly `ECHO: abc\r\n` while processing that read. -/
theorem C2_line_terminators (n : telnet_negotiation_t) (w : List (List Nat)) (x : Nat)
    (hx : x < 256) (h10 : x ≠ 10) (h0 : x ≠ 0) (hl : ¬ (0xC0 ≤ x ∧ x ≤ 0xF7)) :
    handle_read (bytes "abc\r\n")
        { line_buf := [], negotiation := n, sent := w, closed := false } =
      { line_buf := [], negotiation := n, sent := w ++ [bytes "ECHO: abc\r\n"],
        closed := false } ∧
    handle_read (bytes "abc\n")
        { line_buf := [], negotiation := n, sent := w, closed := false } =
      { line_buf := [], negotiation := n, sent := w ++ [bytes "ECHO: abc\r\n"],
        closed := false } ∧
    handle_read (bytes "abc\r" ++ [0])
        { line_buf := [], negotiation := n, sent := w, closed := false } =
      { line_buf := [], negotiation := n, sent := w ++ [bytes "ECHO: abc\r\n"],
        closed := false } ∧
    handle_read (bytes "abc\r" ++ iac_escaped x)
        { line_buf := [], negotiation := n, sent := w, closed := false } =
      { line_buf := [x], negotiation := n, sent := w ++ [bytes "ECHO: abc\r\n"],
        closed := false } := by
  refine ⟨?_, ?_, ?_, ?_⟩
  · rw [handle_read_of_decode _ _ n w (by decide) (by decide) (decode_all_plain _ _ (by decide))]
    exact extract_single_line _ (bytes "abc") 5 n w (by decide) (by decide) (by decide)
      (by decide) (by decide) (by decide) (by decide) (by decide)
  · rw [handle_read_of_decode _ _ n w (by decide) (by decide) (decode_all_plain _ _ (by decide))]
    exact extract_single_line _ (bytes "abc") 4 n w (by decide) (by decide) (by decide)
      (by decide) (by decide) (by decide) (by decide) (by decide)
  · rw [handle_read_of_decode _ _ n w (by decide) (by decide) (decode_all_plain _ _ (by decide))]
    exact extract_single_line _ (bytes "abc") 5 n w (by decide) (by decide) (by decide)
      (by decide) (by decide) (by decide) (by decide) (by decide)
  · have hne : bytes "abc\r" ++ iac_escaped x ≠ [] := by simp [bytes]
    have hdec : decode (bytes "abc\r" ++ iac_escaped x) []
        { line_buf := [], negotiation := n, sent := w, closed := false } =
        ([97, 98, 99, 13, x], { line_buf := [], negotiation := n, sent := w, closed := false }) := by
      rw [decode_plain (bytes "abc\r") _ _ _ (by decide)]
      have := decode_app_byte x [] ([] ++ bytes "abc\r")
        { line_buf := [], negotiation := n, sent := w, closed := false }
      simp only [List.append_nil] at this
      rw [this, decode_nil]
      rfl
    rw [handle_read_of_decode _ _ n w hne (by simp) hdec]
    obtain ⟨hc1, hc2⟩ := check_incomplete_after_cr x hx hl
    have hfind : find_line_ending [97, 98, 99, 13, x] 5 = 4 := by
      simp [find_line_ending, find_line_ending_loop, h10, h0]
    have hfind2 : find_line_ending [x] 1 ≤ 0 := by
      simp only [find_line_ending, List.take, find_line_ending_loop]
      split_ifs <;> simp
    have hstrip : strip_line (List.take 4 [97, 98, 99, 13, x]) = bytes "abc" := by
      show strip_line [97, 98, 99, 13] = bytes "abc"
      decide
    exact extract_single_line _ (bytes "abc") 4 n w (by simp [hc1, hfind]) (by decide)
      hstrip (by decide) (by decide) (by decide) (by decide) (by simp [hc2, hfind2])

/-- Witness for C2: the byte after the bare CR is `A`. -/
theorem C2_line_terminators_witness :
    handle_read (bytes "abc\r" ++ iac_escaped 65)
        { line_buf := [], negotiation := start.negotiation, sent := [], closed := false } =
      { line_buf := [65], negotiation := start.negotiation,
        sent := [] ++ [bytes "ECHO: abc\r\n"], closed := false } :=
  (C2_line_terminators start.negotiation [] 65 (by decide) (by decide) (by decide)
    (by decide)).2.2.2

theorem start_eq :
    start = { line_buf := [], negotiation := start.negotiation, sent := start.sent,
              closed := false } := by
  decide

/-- C2 as stated fails when the byte after the bare CR is a UTF-8 lead byte: the read
`abc\r` followed by the application byte 0xC3 writes nothing, because the lead byte is held
out of the scan and the CR is then the last scanned byte. -/
theorem C2_counterexample :
    (0xC3 : Nat) ≠ 10 ∧ (0xC3 : Nat) ≠ 0 ∧
    (handle_client [bytes "abc\r" ++ iac_escaped 0xC3]).sent = start.sent ∧
    (handle_client [bytes "abc\r" ++ iac_escaped 0xC3]).sent ≠
      start.sent ++ [bytes "ECHO: abc\r\n"] := by
  have h : handle_client [bytes "abc\r" ++ iac_escaped 0xC3] =
      { line_buf := [97, 98, 99, 13, 0xC3], negotiation := start.negotiation,
        sent := start.sent, closed := false } := by
    have h1 : handle_read [97, 98, 99, 13, 0xC3]
        { line_buf := [], negotiation := start.negotiation, sent := start.sent,
          closed := false } =
        { line_buf := [97, 98, 99, 13, 0xC3], negotiation := start.negotiation,
          sent := start.sent, closed := false } := by
      rw [handle_read_of_decode _ [97, 98, 99, 13, 0xC3] _ _ (by decide) (by decide)
        (decode_all_plain _ _ (by decide))]
      exact extract_lines_done _ (by decide)
    exact (congrArg (handle_read [97, 98, 99, 13, 0xC3]) start_eq).trans h1
  rw [h]
  refine ⟨by decide, by decide, rfl, ?_⟩
  simp

theorem well_formed_shape (u : List Nat) (hu : well_formed_utf8_multibyte u) :
    ∃ b0 t, u = b0 :: t ∧ 0xC2 ≤ b0 ∧ b0 ≤ 0xF4 ∧ utf8_sequence_length b0 = u.length ∧
      (∀ c ∈ t, 0x80 ≤ c ∧ c ≤ 0xBF) ∧ 1 ≤ t.length ∧ t.length ≤ 3 := by
  rcases u with _ | ⟨b0, _ | ⟨b1, _ | ⟨b2, _ | ⟨b3, _ | ⟨b4, t⟩⟩⟩⟩⟩
  · simp [well_formed_utf8_multibyte] at hu
  · simp [well_formed_utf8_multibyte] at hu
  · simp only [well_formed_utf8_multibyte, is_continuation] at hu
    refine ⟨b0, [b1], rfl, by omega, by omega, ?_, ?_, by simp, by simp⟩
    · rw [utf8_sequence_length_byte b0 (by omega)]
      simp only [List.length_cons, List.length_nil]
      split_ifs <;> omega
    · intro c hc
      simp only [List.mem_singleton] at hc
      subst hc
      omega
  · simp only [well_formed_utf8_multibyte, is_continuation] at hu
    refine ⟨b0, [b1, b2], rfl, by omega, by omega, ?_, ?_, by simp, by simp⟩
    · rw [utf8_sequence_length_byte b0 (by omega)]
      simp only [List.length_cons, List.length_nil]
      split_ifs <;> omega
    · intro c hc
      simp only [List.mem_cons, List.mem_singleton, List.not_mem_nil, or_false] at hc
      rcases hc with rfl | rfl <;> omega
  · simp only [well_formed_utf8_multibyte, is_continuation] at hu
    refine ⟨b0, [b1, b2, b3], rfl, by omega, by omega, ?_, ?_, by simp, by simp⟩
    · rw [utf8_sequence_length_byte b0 (by omega)]
      simp only [List.length_cons, List.length_nil]
      split_ifs <;> omega
    · intro c hc
      simp only [List.mem_cons, List.mem_singleton, List.not_mem_nil, or_false] at hc
      rcases hc with rfl | rfl | rfl <;> omega
  · simp [well_formed_utf8_multibyte] at hu

theorem utf8_sequence_length_le (b : Nat) : utf8_sequence_length b ≤ 4 := by
  unfold utf8_sequence_length
  split_ifs <;> omega

theorem continuation_facts (c : Nat) (hc : 0x80 ≤ c ∧ c ≤ 0xBF) :
    utf8_sequence_length c = 0 ∧ c &&& 0xC0 = 0x80 := by
  have h1 := utf8_sequence_length_byte c (by omega)
  have h2 := continuation_byte c (by omega)
  constructor
  · rw [h1]; split_ifs <;> omega
  · rw [h2]; omega

theorem check_incomplete_prefix (b0 : Nat) (t : List Nat)
    (ht : ∀ c ∈ t, 0x80 ≤ c ∧ c ≤ 0xBF) (hN : t.length + 1 < utf8_sequence_length b0) :
    check_incomplete_utf8 (b0 :: t) (t.length + 1) = t.length + 1 := by
  have h4 := utf8_sequence_length_le b0
  rcases t with _ | ⟨c1, _ | ⟨c2, _ | ⟨c3, t⟩⟩⟩
  · simp only [List.length_nil] at hN
    have hpos : utf8_sequence_length b0 > 0 := by omega
    simp [check_incomplete_utf8, check_incomplete_utf8_loop, hpos, hN]
  · obtain ⟨e1, e2⟩ := continuation_facts c1 (ht c1 (by simp))
    simp only [List.length_cons, List.length_nil] at hN
    have hpos : utf8_sequence_length b0 > 0 := by omega
    simp [check_incomplete_utf8, check_incomplete_utf8_loop, hpos, hN, e1, e2]
  · obtain ⟨e1, e2⟩ := continuation_facts c1 (ht c1 (by simp))
    obtain ⟨f1, f2⟩ := continuation_facts c2 (ht c2 (by simp))
    simp only [List.length_cons, List.length_nil] at hN
    have hpos : utf8_sequence_length b0 > 0 := by omega
    simp [check_incomplete_utf8, check_incomplete_utf8_loop, hpos, hN, e1, e2, f1, f2]
  · simp only [List.length_cons] at hN
    omega

theorem check_incomplete_ascii_last (l : List Nat) (b : Nat) (hb : b < 0x80) :
    check_incomplete_utf8 (l ++ [b]) (l.length + 1) = 0 := by
  have hu : utf8_sequence_length b = 1 := by simp [utf8_sequence_length, hb]
  simp [check_incomplete_utf8, check_incomplete_utf8_loop, List.getD_append_right, hu]

theorem find_line_ending_loop_other (a : Nat) (rest : List Nat) (i : Nat) (h13 : a ≠ 13)
    (h10 : a ≠ 10) :
    find_line_ending_loop (a :: rest) i = find_line_ending_loop rest (i + 1) := by
  cases rest <;> (conv_lhs => rw [find_line_ending_loop]) <;> simp [h13, h10]

theorem find_line_ending_loop_lf (l : List Nat) (hl : ∀ b ∈ l, b ≠ 13 ∧ b ≠ 10) :
    ∀ i : Nat, find_line_ending_loop (l ++ [10]) i = ((i + l.length + 1 : Nat) : Int) := by
  induction l with
  | nil => intro i; simp [find_line_ending_loop]
  | cons a t ih =>
    intro i
    have ha := hl a (List.mem_cons_self _ _)
    rw [List.cons_append, find_line_ending_loop_other _ _ _ ha.1 ha.2]
    rw [ih (fun b hb => hl b (List.mem_cons_of_mem _ hb))]
    simp only [List.length_cons]
    congr 1
    omega

theorem find_line_ending_loop_none (l : List Nat) (hl : ∀ b ∈ l, b ≠ 13 ∧ b ≠ 10) :
    ∀ i : Nat, find_line_ending_loop l i = -1 := by
  induction l with
  | nil => intro i; simp [find_line_ending_loop]
  | cons a t ih =>
    intro i
    have ha := hl a (List.mem_cons_self _ _)
    rw [find_line_ending_loop_other _ _ _ ha.1 ha.2]
    exact ih (fun b hb => hl b (List.mem_cons_of_mem _ hb)) _

theorem strip_line_lf (l : List Nat) (hne : l ≠ [])
    (hlast : ∀ b, l.getLast? = some b → b ≠ 13 ∧ b ≠ 10 ∧ b ≠ 0) :
    strip_line (l ++ [10]) = l := by
  unfold strip_line
  rw [List.rdropWhile_concat_pos _ _ _ (by decide)]
  obtain ⟨l', b, rfl⟩ : ∃ l' b, l = l' ++ [b] := by
    rcases List.eq_nil_or_concat l with h | ⟨l', b, h⟩
    · exact absurd h hne
    · exact ⟨l', b, by simpa using h⟩
  have hb := hlast b (by simp)
  rw [List.rdropWhile_concat_neg]
  simp [hb.1, hb.2.1, hb.2.2]

theorem append_data_fits (data : List Nat) (s : Session) (hne : data ≠ [])
    (hfit : s.line_buf.length + data.length ≤ 2048) :
    append_data data s = { s with line_buf := s.line_buf ++ data } := by
  have hpos : 0 < data.length := List.length_pos.mpr hne
  have : ¬ (s.line_buf.length + data.length > 2 * 1024) := by omega
  simp [append_data, Session.line_len, BUFFER_SIZE, hpos, this]

theorem find_line_ending_nil (len : Nat) : find_line_ending [] len = -1 := by
  simp [find_line_ending, find_line_ending_loop]

theorem find_line_ending_zero (buf : List Nat) : find_line_ending buf 0 = -1 := by
  simp [find_line_ending, find_line_ending_loop]

/-- C3: in the line-binary server, starting from an empty LineBuffer, for every well-formed
UTF-8 encoding `u` of one code point that is 2 to 4 bytes long and every split point
`0 < k < |u|`, a first read holding the first `k` bytes of `u` writes nothing (the bytes stay in
the LineBuffer), and a second read holding the remaining bytes of `u` followed by LF writes
exactly `"ECHO: " ++ u ++ "\r\n"` and leaves the LineBuffer empty. -/
theorem C3_utf8_split_across_reads (u : List Nat) (k : Nat) (n : telnet_negotiation_t)
    (w : List (List Nat)) (hu : well_formed_utf8_multibyte u) (hk0 : 0 < k)
    (hk : k < u.length) :
    handle_read (u.take k) { line_buf := [], negotiation := n, sent := w, closed := false } =
      { line_buf := u.take k, negotiation := n, sent := w, closed := false } ∧
    handle_read (u.drop k ++ [0x0A])
        { line_buf := u.take k, negotiation := n, sent := w, closed := false } =
      { line_buf := [], negotiation := n, sent := w ++ [bytes "ECHO: " ++ u ++ bytes "\r\n"],
        closed := false } := by
  obtain ⟨b0, t, rfl, hb0, hb0', hN, ht, ht1, ht3⟩ := well_formed_shape u hu
  have hall : ∀ b ∈ b0 :: t, 0x80 ≤ b ∧ b ≤ 0xF4 := by
    intro b hb
    rcases List.mem_cons.mp hb with rfl | hb
    · omega
    · have := ht b hb
      omega
  obtain ⟨j, rfl⟩ : ∃ j, k = j + 1 := ⟨k - 1, by omega⟩
  simp only [List.length_cons] at hk hN
  have htake : List.take (j + 1) (b0 :: t) = b0 :: t.take j := rfl
  have hdrop : List.drop (j + 1) (b0 :: t) = t.drop j := rfl
  have hjlen : (t.take j).length = j := by
    rw [List.length_take]; omega
  constructor
  · rw [htake]
    have hplain : ∀ b ∈ b0 :: t.take j, b ≠ 255 := by
      intro b hb
      have : b ∈ b0 :: t := by
        rcases List.mem_cons.mp hb with rfl | hb
        · exact List.mem_cons_self _ _
        · exact List.mem_cons_of_mem _ (List.mem_of_mem_take hb)
      have := hall b this
      omega
    rw [handle_read_of_decode _ _ n w (by simp) (by simp; omega) (decode_all_plain _ _ hplain)]
    apply extract_lines_done
    have hc := check_incomplete_prefix b0 (t.take j)
      (fun c hc => ht c (List.mem_of_mem_take hc)) (by rw [hjlen, hN]; omega)
    simp only [Session.line_len, List.length_cons, hc, Nat.sub_self, find_line_ending_zero]
    decide
  · rw [htake, hdrop]
    have hplain : ∀ b ∈ t.drop j ++ [0x0A], b ≠ 255 := by
      intro b hb
      rcases List.mem_append.mp hb with hb | hb
      · have := ht b (List.mem_of_mem_drop hb)
        omega
      · simp only [List.mem_singleton] at hb
        omega
    rw [handle_read_open _ _ rfl (by simp), decode_all_plain _ _ hplain]
    simp only []
    rw [append_data_fits _ _ (by simp) (by simp; omega)]
    have hjoin : (b0 :: t.take j) ++ (t.drop j ++ [0x0A]) = (b0 :: t) ++ [0x0A] := by
      simp [← List.append_assoc, List.take_append_drop]
    simp only [hjoin]
    have hcrlf : ∀ b ∈ b0 :: t, b ≠ 13 ∧ b ≠ 10 := fun b hb => by
      have := hall b hb
      omega
    have hlen1 : ((b0 :: t) ++ [10]).length = (b0 :: t).length + 1 := by simp
    have hres := extract_single_line ((b0 :: t) ++ [10]) (b0 :: t) ((b0 :: t).length + 1) n w
      (by
        rw [hlen1, check_incomplete_ascii_last _ _ (by decide)]
        simp only [Nat.sub_zero, find_line_ending]
        rw [← hlen1, List.take_length, find_line_ending_loop_lf _ hcrlf 0]
        simp)
      (by simp)
      (by
        rw [← hlen1, List.take_length]
        apply strip_line_lf _ (by simp)
        intro b hb
        have := hall b (List.mem_of_mem_getLast? hb)
        omega)
      (by simp)
      (fun b hb => by
        have := hall b hb
        omega)
      (by
        intro h
        have := hall 113 (by rw [h]; decide)
        omega)
      (by simp only [List.length_cons]; omega)
      (by
        rw [← hlen1, List.drop_length]
        simp [find_line_ending_nil])
    rw [hres, ← hlen1, List.drop_length]

end LineBinary

theorem cstr_append_nul_eq (c : List Nat) : cstr (c ++ [0]) = cstr c := by
  induction c with
  | nil => simp [cstr]
  | cons a t ih =>
    simp only [cstr] at ih ⊢
    by_cases ha : a = 0
    · simp [List.takeWhile_cons, ha]
    · simp [List.takeWhile_cons, ha, ih]

theorem cstr_length_le (c : List Nat) : (cstr c).length ≤ c.length :=
  (List.takeWhile_sublist _).length_le

theorem cstr_of_no_nul (c : List Nat) (hc : ∀ b ∈ c, b ≠ 0) : cstr c = c := by
  simpa using cstr_append_zeros c 0 hc

namespace LineBinary

theorem strip_line_length_le (line : List Nat) : (strip_line line).length ≤ line.length :=
  (List.rdropWhile_prefix _ _).length_le

/-- Witness of C3: the code point U+AC00 (bytes EA B0 80) split after its second byte. -/
theorem C3_utf8_split_across_reads_witness :
    handle_read [0xEA, 0xB0] { line_buf := [], negotiation := start.negotiation, sent := [],
                               closed := false } =
      { line_buf := [0xEA, 0xB0], negotiation := start.negotiation, sent := [],
        closed := false } ∧
    handle_read [0x80, 0x0A]
        { line_buf := [0xEA, 0xB0], negotiation := start.negotiation, sent := [],
          closed := false } =
      { line_buf := [], negotiation := start.negotiation,
        sent := [] ++ [bytes "ECHO: " ++ [0xEA, 0xB0, 0x80] ++ bytes "\r\n"],
        closed := false } :=
  C3_utf8_split_across_reads [0xEA, 0xB0, 0x80] 2 start.negotiation []
    (by simp [well_formed_utf8_multibyte, is_continuation]) (by decide) (by decide)

/-- C4 (amended): in the line-binary server, for every extracted line (at most 2048 bytes),
with `c` the line's bytes after stripping all trailing CR, LF and NUL bytes and `c'` the bytes
of `c` before its first NUL (so `c' = c` when `c` contains no NUL): if `c` is empty the server
writes nothing; otherwise, if `c'` equals the 4 bytes `quit` it writes `Goodbye!\r\n` and
terminates the session, and else it writes exactly `"ECHO: " ++ c' ++ "\r\n"` and
continues. -/
theorem C4_per_line_processing (line : List Nat) (s : Session) (hlen : line.length ≤ 2048) :
    (strip_line line = [] → process_line line s = s) ∧
    (strip_line line ≠ [] → cstr (strip_line line) = bytes "quit" →
      process_line line s =
        { s with sent := s.sent ++ [bytes "Goodbye!\r\n"], closed := true }) ∧
    (strip_line line ≠ [] → cstr (strip_line line) ≠ bytes "quit" →
      process_line line s =
        { s with sent := s.sent ++ [bytes "ECHO: " ++ cstr (strip_line line) ++ bytes "\r\n"] }) ∧
    ((∀ b ∈ strip_line line, b ≠ 0) → cstr (strip_line line) = strip_line line) := by
  refine ⟨?_, ?_, ?_, cstr_of_no_nul _⟩
  · intro h
    simp [process_line, h]
  · intro hne hq
    have hpos : 0 < (strip_line line).length := List.length_pos.mpr hne
    simp [process_line, hpos, cstr_append_nul_eq, hq, send]
  · intro hne hq
    have hpos : 0 < (strip_line line).length := List.length_pos.mpr hne
    have h6 : (bytes "ECHO: ").length = 6 := by decide
    have h2 : (bytes "\r\n").length = 2 := by decide
    have h1 := cstr_length_le (strip_line line)
    have h3 := strip_line_length_le line
    have hfit : (bytes "ECHO: " ++ cstr (strip_line line) ++ bytes "\r\n").length
        ≤ 2 * 1024 + 20 - 1 := by
      simp only [List.length_append, h6, h2]; omega
    simp only [process_line, hpos, if_true, cstr_append_nul_eq, hq, if_false, snprintf,
      BUFFER_SIZE, List.take_of_length_le hfit, send]

/-- Witness of C4: the line `abc\r\n`, echoed as `ECHO: abc\r\n`. -/
theorem C4_per_line_processing_witness :
    process_line (bytes "abc\r\n") start =
      { start with sent := start.sent ++
          [bytes "ECHO: " ++ cstr (strip_line (bytes "abc\r\n")) ++ bytes "\r\n"] } :=
  (C4_per_line_processing (bytes "abc\r\n") start (by decide)).2.2.1 (by decide) (by decide)

theorem extract_one_line (data : List Nat) (k : Nat) (n : telnet_negotiation_t)
    (w : List (List Nat)) (s1 : Session)
    (h1 : find_line_ending data (data.length - check_incomplete_utf8 data data.length) = (k : Int))
    (hk : 0 < k)
    (hp : process_line (data.take k)
      { line_buf := data, negotiation := n, sent := w, closed := false } = s1)
    (h2 : s1.closed = true ∨ find_line_ending (data.drop k)
      ((data.drop k).length - check_incomplete_utf8 (data.drop k) (data.drop k).length) ≤ 0) :
    extract_lines { line_buf := data, negotiation := n, sent := w, closed := false } =
      if s1.closed then s1 else { s1 with line_buf := data.drop k } := by
  rw [extract_lines_step _ k hk (by simpa [Session.line_len] using h1)]
  simp only [hp]
  by_cases hc : s1.closed = true
  · simp [hc]
  · simp only [hc, if_false]
    exact extract_lines_done _ (by simpa [Session.line_len, hc] using h2)

/-- C4 as stated fails for lines with an interior NUL: the read `a\0b\n` is echoed as
`ECHO: a\r\n`, and the read `quit\0x\n` ends the session with `Goodbye!\r\n` although the
stripped line is not `quit`. -/
theorem C4_counterexample :
    strip_line [97, 0, 98, 10] = [97, 0, 98] ∧
    (handle_client [[97, 0, 98, 10]]).sent = start.sent ++ [bytes "ECHO: a\r\n"] ∧
    (handle_client [[97, 0, 98, 10]]).sent ≠
      start.sent ++ [bytes "ECHO: " ++ [97, 0, 98] ++ bytes "\r\n"] ∧
    strip_line (bytes "quit" ++ [0, 120, 10]) = bytes "quit" ++ [0, 120] ∧
    (handle_client [bytes "quit" ++ [0, 120, 10]]).sent = start.sent ++ [bytes "Goodbye!\r\n"] ∧
    (handle_client [bytes "quit" ++ [0, 120, 10]]).closed = true := by
  have ha : handle_client [[97, 0, 98, 10]] =
      { line_buf := [], negotiation := start.negotiation,
        sent := start.sent ++ [bytes "ECHO: a\r\n"], closed := false } := by
    have h1 : handle_read [97, 0, 98, 10]
        { line_buf := [], negotiation := start.negotiation, sent := start.sent,
          closed := false } =
        { line_buf := [], negotiation := start.negotiation,
          sent := start.sent ++ [bytes "ECHO: a\r\n"], closed := false } := by
      rw [handle_read_of_decode _ [97, 0, 98, 10] _ _ (by decide) (by decide)
        (decode_all_plain _ _ (by decide)),
        extract_one_line _ 4 _ _ _ (by decide) (by decide) rfl (Or.inr (by decide))]
      decide
    exact (congrArg (handle_read [97, 0, 98, 10]) start_eq).trans h1
  have hb : handle_client [bytes "quit" ++ [0, 120, 10]] =
      { line_buf := bytes "quit" ++ [0, 120, 10], negotiation := start.negotiation,
        sent := start.sent ++ [bytes "Goodbye!\r\n"], closed := true } := by
    have h1 : handle_read (bytes "quit" ++ [0, 120, 10])
        { line_buf := [], negotiation := start.negotiation, sent := start.sent,
          closed := false } =
        { line_buf := bytes "quit" ++ [0, 120, 10], negotiation := start.negotiation,
          sent := start.sent ++ [bytes "Goodbye!\r\n"], closed := true } := by
      rw [handle_read_of_decode _ (bytes "quit" ++ [0, 120, 10]) _ _ (by decide) (by decide)
        (decode_all_plain _ _ (by decide)),
        extract_one_line _ 7 _ _ _ (by decide) (by decide) rfl (Or.inl (by decide))]
      decide
    exact (congrArg (handle_read (bytes "quit" ++ [0, 120, 10])) start_eq).trans h1
  rw [ha, hb]
  refine ⟨by decide, rfl, ?_, by decide, rfl, rfl⟩
  simp [bytes]

end LineBinary

/-! ## The ready banner -/

theorem count_snoc_ne {α : Type} [BEq α] [LawfulBEq α] (l : List α) (m a : α) (h : m ≠ a) :
    List.count a (l ++ [m]) = List.count a l := by
  simp [List.count_append, List.count_singleton, h]

theorem count_snoc_self {α : Type} [BEq α] [LawfulBEq α] (l : List α) (a : α) :
    List.count a (l ++ [a]) = List.count a l + 1 := by
  simp [List.count_append]

theorem snprintf_echo_head (size : Nat) (str post : List Nat) (h : 2 ≤ size) :
    (snprintf size (bytes "ECHO: ") str post).head? = some 69 := by
  obtain ⟨k, rfl⟩ : ∃ k, size = k + 2 := ⟨size - 2, by omega⟩
  have : bytes "ECHO: " = 69 :: (bytes "CHO: ") := by decide
  simp [snprintf, this]

namespace CharMode

theorem process_buffer_nil (s : Session) : process_buffer [] s = s := by
  rw [process_buffer]

theorem process_buffer_iac_end (s : Session) : process_buffer [IAC] s = s := by
  rw [process_buffer]; simp

theorem process_buffer_option (cmd opt : Nat) (rest : List Nat) (s : Session)
    (hcmd : cmd = DO ∨ cmd = DONT ∨ cmd = WILL ∨ cmd = WONT) :
    process_buffer (IAC :: cmd :: opt :: rest) s = process_buffer rest (negotiate cmd opt s) := by
  rw [process_buffer]; simp [hcmd]

theorem process_buffer_option_truncated (cmd : Nat) (s : Session)
    (hcmd : cmd = DO ∨ cmd = DONT ∨ cmd = WILL ∨ cmd = WONT) :
    process_buffer [IAC, cmd] s =
      if (handle_char IAC s).closed then handle_char IAC s
      else process_buffer [cmd] (handle_char IAC s) := by
  conv_lhs => rw [process_buffer]
  simp [hcmd]

theorem process_buffer_iac_iac (rest : List Nat) (s : Session) :
    process_buffer (IAC :: IAC :: rest) s =
      if (handle_char IAC s).closed then handle_char IAC s
      else process_buffer rest (handle_char IAC s) := by
  cases rest <;> (conv_lhs => rw [process_buffer]) <;> simp [IAC, DO, DONT, WILL, WONT]

theorem process_buffer_other (cmd : Nat) (rest : List Nat) (s : Session)
    (hcmd : ¬ (cmd = DO ∨ cmd = DONT ∨ cmd = WILL ∨ cmd = WONT)) (hiac : cmd ≠ IAC) :
    process_buffer (IAC :: cmd :: rest) s = process_buffer rest s := by
  cases rest <;> (conv_lhs => rw [process_buffer]) <;> simp [hcmd, hiac]

theorem process_buffer_preserves (P : Session → Prop)
    (hc : ∀ ch s, P s → P (handle_char ch s))
    (hn : ∀ cmd opt s, P s → P (negotiate cmd opt s)) :
    ∀ (k : Nat) (buf : List Nat) (s : Session), buf.length ≤ k → P s →
      P (process_buffer buf s) := by
  intro k
  induction k with
  | zero =>
    intro buf s hk hs
    have : buf = [] := List.length_eq_zero.mp (by omega)
    subst this
    simpa [process_buffer] using hs
  | succ k ih =>
    intro buf s hk hs
    have hstep : ∀ (ch : Nat) (rest : List Nat), rest.length ≤ k →
        P (if (handle_char ch s).closed then handle_char ch s
           else process_buffer rest (handle_char ch s)) := by
      intro ch rest hr
      split_ifs
      · exact hc _ _ hs
      · exact ih rest _ hr (hc _ _ hs)
    rcases buf with _ | ⟨ch, rest⟩
    · simpa [process_buffer] using hs
    · simp only [List.length_cons] at hk
      by_cases hch : ch = IAC
      · subst hch
        rcases rest with _ | ⟨cmd, rest1⟩
        · rw [process_buffer_iac_end]; exact hs
        · simp only [List.length_cons] at hk
          by_cases hcmd : cmd = DO ∨ cmd = DONT ∨ cmd = WILL ∨ cmd = WONT
          · rcases rest1 with _ | ⟨opt, rest2⟩
            · rw [process_buffer_option_truncated _ _ hcmd]
              exact hstep IAC [cmd] (by simpa using hk)
            · rw [process_buffer_option _ _ _ _ hcmd]
              simp only [List.length_cons] at hk
              exact ih rest2 _ (by omega) (hn _ _ _ hs)
          · by_cases hiac : cmd = IAC
            · subst hiac
              rw [process_buffer_iac_iac]
              exact hstep IAC rest1 (by omega)
            · rw [process_buffer_other _ _ _ hcmd hiac]
              exact ih rest1 _ (by omega) hs
      · rw [process_buffer_data _ _ _ hch]
        exact hstep ch rest (by omega)

theorem handle_char_negotiation (ch : Nat) (s : Session) :
    (handle_char ch s).negotiation = s.negotiation := by
  simp only [handle_char, send]
  split_ifs <;> rfl

theorem handle_char_banner_count (ch : Nat) (s : Session) :
    (handle_char ch s).sent.count ready_msg = s.sent.count ready_msg := by
  have e1 : bytes "\r\nGoodbye!\r\n" ≠ ready_msg := by decide
  have e2 : bytes "\r\n" ≠ ready_msg := by decide
  have e3 : bytes "\x08 \x08" ≠ ready_msg := by decide
  have e4 : bytes "Goodbye!\r\n" ≠ ready_msg := by decide
  have e5 : ∀ str, snprintf (BUFFER_SIZE + 20) (bytes "ECHO: ") str (bytes "\r\n") ≠ ready_msg := by
    intro str h
    have := snprintf_echo_head (BUFFER_SIZE + 20) str (bytes "\r\n") (by decide)
    rw [h] at this
    revert this
    decide
  have e6 : [ch] ≠ ready_msg := by
    intro h
    have hl : ready_msg.length = 20 := by decide
    have := congrArg List.length h
    rw [hl] at this
    simp at this
  simp only [handle_char, send]
  split_ifs <;> simp [List.count_append, List.count_cons, e1, e2, e3, e4, e5, e6]

theorem respond_eq (cmd opt : Nat) (s : Session)
    (hcmd : cmd = DO ∨ cmd = DONT ∨ cmd = WILL ∨ cmd = WONT) :
    respond cmd opt s =
      { s with
        sent := s.sent ++ [[IAC, table_reply cmd opt, opt]],
        negotiation :=
          { echo_acked := if table_sets_echo cmd opt then 1 else s.negotiation.echo_acked,
            sga_acked := if table_sets_sga cmd opt then 1 else s.negotiation.sga_acked,
            ready_sent := s.negotiation.ready_sent } } := by
  rcases hcmd with rfl | rfl | rfl | rfl
  · by_cases h1 : opt = ECHO
    · subst h1
      simp [respond, table_reply, table_sets_echo, table_sets_sga, send_telnet_option, send,
        DO, WILL, ECHO, SUPPRESS_GO_AHEAD]
    · by_cases h3 : opt = SUPPRESS_GO_AHEAD
      · subst h3
        simp [respond, table_reply, table_sets_echo, table_sets_sga, send_telnet_option, send,
          DO, WILL, ECHO, SUPPRESS_GO_AHEAD]
      · simp [respond, table_reply, table_sets_echo, table_sets_sga, send_telnet_option, send,
          h1, h3]
  · simp [respond, table_reply, table_sets_echo, table_sets_sga, send_telnet_option, send,
      DO, DONT, WILL, WONT]
  · by_cases h3 : opt = SUPPRESS_GO_AHEAD
    · subst h3
      simp [respond, table_reply, table_sets_echo, table_sets_sga, send_telnet_option, send,
        DO, DONT, WILL, WONT, ECHO, SUPPRESS_GO_AHEAD]
    · simp [respond, table_reply, table_sets_echo, table_sets_sga, send_telnet_option, send,
        DO, DONT, WILL, WONT, h3]
  · simp [respond, table_reply, table_sets_echo, table_sets_sga, send_telnet_option, send,
      DO, DONT, WILL, WONT]

theorem respond_other (cmd opt : Nat) (s : Session)
    (hcmd : ¬ (cmd = DO ∨ cmd = DONT ∨ cmd = WILL ∨ cmd = WONT)) :
    respond cmd opt s = s := by
  simp only [not_or] at hcmd
  simp [respond, hcmd.1, hcmd.2.1, hcmd.2.2.1, hcmd.2.2.2]

theorem option_reply_ne_ready (r opt : Nat) : [IAC, r, opt] ≠ ready_msg := by
  intro h
  have hl : ready_msg.length = 20 := by decide
  have := congrArg List.length h
  rw [hl] at this
  simp at this

theorem respond_facts (cmd opt : Nat) (s : Session) :
    (respond cmd opt s).negotiation.ready_sent = s.negotiation.ready_sent ∧
    (respond cmd opt s).sent.count ready_msg = s.sent.count ready_msg ∧
    (all_acked s.negotiation → all_acked (respond cmd opt s).negotiation) := by
  by_cases hcmd : cmd = DO ∨ cmd = DONT ∨ cmd = WILL ∨ cmd = WONT
  · rw [respond_eq cmd opt s hcmd]
    refine ⟨rfl, count_snoc_ne _ _ _ (option_reply_ne_ready _ _), ?_⟩
    intro h
    unfold all_acked at h ⊢
    constructor
    · show (if table_sets_echo cmd opt then 1 else s.negotiation.echo_acked) ≠ 0
      split_ifs
      · decide
      · exact h.1
    · show (if table_sets_sga cmd opt then 1 else s.negotiation.sga_acked) ≠ 0
      split_ifs
      · decide
      · exact h.2
  · rw [respond_other cmd opt s hcmd]
    exact ⟨rfl, rfl, id⟩

theorem check_ready_inv (s : Session) (h1 : s.negotiation.ready_sent ≤ 1)
    (h2 : s.sent.count ready_msg = s.negotiation.ready_sent)
    (h3 : s.negotiation.ready_sent = 1 → all_acked s.negotiation) :
    ready_inv (check_ready s) := by
  unfold check_ready
  split_ifs with hc
  · refine ⟨by simp, ?_, ?_⟩
    · simp only [send]
      rw [count_snoc_self, h2, hc.1]
    · simp only [send, true_iff]
      exact hc.2
  · refine ⟨h1, h2, h3, ?_⟩
    intro ha
    by_contra hne
    exact hc ⟨by omega, ha⟩

theorem negotiate_ready_inv (cmd opt : Nat) (s : Session) (h : ready_inv s) :
    ready_inv (negotiate cmd opt s) := by
  obtain ⟨f1, f2, f3⟩ := respond_facts cmd opt s
  obtain ⟨h1, h2, h3⟩ := h
  exact check_ready_inv _ (by rw [f1]; exact h1) (by rw [f1, f2]; exact h2)
    (fun hr => f3 (h3.mp (by rw [← f1]; exact hr)))

theorem handle_char_ready_inv (ch : Nat) (s : Session) (h : ready_inv s) :
    ready_inv (handle_char ch s) := by
  unfold ready_inv at h ⊢
  rw [handle_char_negotiation, handle_char_banner_count]
  exact h

theorem negotiate_ready_sent (cmd opt : Nat) (s : Session) (h : s.negotiation.ready_sent = 1) :
    (negotiate cmd opt s).negotiation.ready_sent = 1 := by
  have f1 := (respond_facts cmd opt s).1
  unfold negotiate check_ready
  split_ifs
  · rfl
  · rw [f1]; exact h

theorem handle_read_preserves (P : Session → Prop)
    (hc : ∀ ch s, P s → P (handle_char ch s))
    (hn : ∀ cmd opt s, P s → P (negotiate cmd opt s))
    (hclose : ∀ s, P s → P { s with closed := true })
    (buffer : List Nat) (s : Session) (h : P s) : P (handle_read buffer s) := by
  unfold handle_read
  split_ifs
  · exact h
  · exact hclose s h
  · exact process_buffer_preserves P hc hn _ buffer s (le_refl _) h

end CharMode

theorem foldl_preserves {σ : Type} (P : σ → Prop) (f : σ → List Nat → σ)
    (hf : ∀ s b, P s → P (f s b)) (reads : List (List Nat)) :
    ∀ s, P s → P (reads.foldl f s) := by
  induction reads with
  | nil => intro s h; exact h
  | cons b t ih => intro s h; exact ih _ (hf s b h)

namespace CharMode

theorem ready_inv_start : ready_inv start := by
  unfold ready_inv all_acked
  decide

theorem ready_inv_handle_client (reads : List (List Nat)) : ready_inv (handle_client reads) :=
  foldl_preserves ready_inv _
    (fun s b h => handle_read_preserves ready_inv handle_char_ready_inv negotiate_ready_inv
      (fun _ h => h) b s h) reads start ready_inv_start

theorem ready_sent_stays (reads more : List (List Nat))
    (h : (handle_client reads).negotiation.ready_sent = 1) :
    (handle_client (reads ++ more)).negotiation.ready_sent = 1 := by
  unfold handle_client at h ⊢
  rw [List.foldl_append]
  exact foldl_preserves (fun s => s.negotiation.ready_sent = 1) _
    (fun s b h => handle_read_preserves (fun s => s.negotiation.ready_sent = 1)
      (fun ch s h => by
        show (handle_char ch s).negotiation.ready_sent = 1
        rw [handle_char_negotiation]; exact h) negotiate_ready_sent
      (fun _ h => h) b s h) more _ h

/-- The effect of one option event on the banner: the messages written are those of the reply
followed by the banner exactly when `ready_sent` was 0 and the reply leaves every
acknowledgement flag set, and `ready_sent` becomes 1 exactly then. -/
theorem negotiate_banner (cmd opt : Nat) (s : Session) :
    (s.negotiation.ready_sent = 0 ∧ all_acked (respond cmd opt s).negotiation →
      (negotiate cmd opt s).sent = (respond cmd opt s).sent ++ [ready_msg] ∧
      (negotiate cmd opt s).negotiation.ready_sent = 1) ∧
    (¬ (s.negotiation.ready_sent = 0 ∧ all_acked (respond cmd opt s).negotiation) →
      negotiate cmd opt s = respond cmd opt s) := by
  have f1 := (respond_facts cmd opt s).1
  unfold negotiate check_ready all_acked
  rw [f1]
  constructor
  · intro h
    rw [if_pos h]
    exact ⟨rfl, rfl⟩
  · intro h
    rw [if_neg h]

end CharMode

namespace LineBinary

theorem lb_respond_eq (cmd opt : Nat) (s : Session)
    (hcmd : cmd = DO ∨ cmd = DONT ∨ cmd = WILL ∨ cmd = WONT) :
    respond cmd opt s =
      { s with
        sent := s.sent ++ [[IAC, table_reply cmd opt, opt]],
        negotiation :=
          { binary_acked := if table_sets_binary cmd opt then 1 else s.negotiation.binary_acked,
            linemode_acked :=
              if table_sets_linemode cmd opt then 1 else s.negotiation.linemode_acked,
            echo_acked := if table_sets_echo cmd opt then 1 else s.negotiation.echo_acked,
            sga_acked := if table_sets_sga cmd opt then 1 else s.negotiation.sga_acked,
            ready_sent := s.negotiation.ready_sent } } := by
  by_cases h0 : opt = BINARY
  · subst h0
    rcases hcmd with rfl | rfl | rfl | rfl <;>
      simp [respond, table_reply, table_sets_binary, table_sets_sga, table_sets_echo,
        table_sets_linemode, send_telnet_option, send, DO, DONT, WILL, WONT, BINARY, ECHO,
        SUPPRESS_GO_AHEAD, LINEMODE]
  · by_cases h1 : opt = ECHO
    · subst h1
      rcases hcmd with rfl | rfl | rfl | rfl <;>
        simp [respond, table_reply, table_sets_binary, table_sets_sga, table_sets_echo,
          table_sets_linemode, send_telnet_option, send, DO, DONT, WILL, WONT, BINARY, ECHO,
          SUPPRESS_GO_AHEAD, LINEMODE]
    · by_cases h3 : opt = SUPPRESS_GO_AHEAD
      · subst h3
        rcases hcmd with rfl | rfl | rfl | rfl <;>
          simp [respond, table_reply, table_sets_binary, table_sets_sga, table_sets_echo,
            table_sets_linemode, send_telnet_option, send, DO, DONT, WILL, WONT, BINARY, ECHO,
            SUPPRESS_GO_AHEAD, LINEMODE]
      · by_cases h34 : opt = LINEMODE
        · subst h34
          rcases hcmd with rfl | rfl | rfl | rfl <;>
            simp [respond, table_reply, table_sets_binary, table_sets_sga, table_sets_echo,
              table_sets_linemode, send_telnet_option, send, DO, DONT, WILL, WONT, BINARY, ECHO,
              SUPPRESS_GO_AHEAD, LINEMODE]
        · rcases hcmd with rfl | rfl | rfl | rfl <;>
            simp [respond, table_reply, table_sets_binary, table_sets_sga, table_sets_echo,
              table_sets_linemode, send_telnet_option, send, DO, DONT, WILL, WONT, h0, h1, h3,
              h34]

theorem lb_respond_other (cmd opt : Nat) (s : Session)
    (hcmd : ¬ (cmd = DO ∨ cmd = DONT ∨ cmd = WILL ∨ cmd = WONT)) :
    respond cmd opt s = s := by
  simp only [not_or] at hcmd
  simp [respond, hcmd.1, hcmd.2.1, hcmd.2.2.1, hcmd.2.2.2]

theorem lb_option_reply_ne_ready (r opt : Nat) : [IAC, r, opt] ≠ ready_msg := by
  intro h
  have hl : ready_msg.length = 41 := by decide
  have := congrArg List.length h
  rw [hl] at this
  simp at this

theorem lb_respond_facts (cmd opt : Nat) (s : Session) :
    (respond cmd opt s).negotiation.ready_sent = s.negotiation.ready_sent ∧
    (respond cmd opt s).sent.count ready_msg = s.sent.count ready_msg ∧
    (all_acked s.negotiation → all_acked (respond cmd opt s).negotiation) ∧
    (respond cmd opt s).line_buf = s.line_buf ∧ (respond cmd opt s).closed = s.closed := by
  by_cases hcmd : cmd = DO ∨ cmd = DONT ∨ cmd = WILL ∨ cmd = WONT
  · rw [lb_respond_eq cmd opt s hcmd]
    refine ⟨rfl, count_snoc_ne _ _ _ (lb_option_reply_ne_ready _ _), ?_, rfl, rfl⟩
    intro h
    unfold all_acked at h ⊢
    refine ⟨?_, ?_, ?_, ?_⟩
    · show (if table_sets_binary cmd opt then 1 else s.negotiation.binary_acked) ≠ 0
      split_ifs
      · decide
      · exact h.1
    · show (if table_sets_linemode cmd opt then 1 else s.negotiation.linemode_acked) ≠ 0
      split_ifs
      · decide
      · exact h.2.1
    · show (if table_sets_echo cmd opt then 1 else s.negotiation.echo_acked) ≠ 0
      split_ifs
      · decide
      · exact h.2.2.1
    · show (if table_sets_sga cmd opt then 1 else s.negotiation.sga_acked) ≠ 0
      split_ifs
      · decide
      · exact h.2.2.2
  · rw [lb_respond_other cmd opt s hcmd]
    exact ⟨rfl, rfl, id, rfl, rfl⟩

theorem lb_check_ready_inv (s : Session) (h1 : s.negotiation.ready_sent ≤ 1)
    (h2 : s.sent.count ready_msg = s.negotiation.ready_sent)
    (h3 : s.negotiation.ready_sent = 1 → all_acked s.negotiation) :
    ready_inv (check_ready s) := by
  unfold check_ready
  split_ifs with hc
  · refine ⟨by simp, ?_, ?_⟩
    · simp only [send]
      rw [count_snoc_self, h2, hc.1]
    · simp only [send, true_iff]
      exact hc.2
  · refine ⟨h1, h2, h3, ?_⟩
    intro ha
    by_contra hne
    exact hc ⟨by omega, ha⟩

theorem lb_negotiate_ready_inv (cmd opt : Nat) (s : Session) (h : ready_inv s) :
    ready_inv (negotiate cmd opt s) := by
  obtain ⟨f1, f2, f3, -, -⟩ := lb_respond_facts cmd opt s
  obtain ⟨h1, h2, h3⟩ := h
  exact lb_check_ready_inv _ (by rw [f1]; exact h1) (by rw [f1, f2]; exact h2)
    (fun hr => f3 (h3.mp (by rw [← f1]; exact hr)))

theorem lb_negotiate_ready_sent (cmd opt : Nat) (s : Session) (h : s.negotiation.ready_sent = 1) :
    (negotiate cmd opt s).negotiation.ready_sent = 1 := by
  have f1 := (lb_respond_facts cmd opt s).1
  unfold negotiate check_ready
  split_ifs
  · rfl
  · rw [f1]; exact h

/-- The effect of one option event on the banner: the messages written are those of the reply
followed by the banner exactly when `ready_sent` was 0 and the reply leaves every
acknowledgement flag set, and `ready_sent` becomes 1 exactly then. -/
theorem lb_negotiate_banner (cmd opt : Nat) (s : Session) :
    (s.negotiation.ready_sent = 0 ∧ all_acked (respond cmd opt s).negotiation →
      (negotiate cmd opt s).sent = (respond cmd opt s).sent ++ [ready_msg] ∧
      (negotiate cmd opt s).negotiation.ready_sent = 1) ∧
    (¬ (s.negotiation.ready_sent = 0 ∧ all_acked (respond cmd opt s).negotiation) →
      negotiate cmd opt s = respond cmd opt s) := by
  have f1 := (lb_respond_facts cmd opt s).1
  unfold negotiate check_ready all_acked
  rw [f1]
  constructor
  · intro h
    rw [if_pos h]
    exact ⟨rfl, rfl⟩
  · intro h
    rw [if_neg h]

theorem decode_option (cmd opt : Nat) (rest data : List Nat) (s : Session)
    (hcmd : cmd = DO ∨ cmd = DONT ∨ cmd = WILL ∨ cmd = WONT) :
    decode (IAC :: cmd :: opt :: rest) data s = decode rest data (negotiate cmd opt s) := by
  have hne : cmd ≠ IAC := by
    rcases hcmd with rfl | rfl | rfl | rfl <;> decide
  rw [decode]; simp [hcmd, hne]

theorem decode_option_truncated (cmd : Nat) (data : List Nat) (s : Session)
    (hcmd : cmd = DO ∨ cmd = DONT ∨ cmd = WILL ∨ cmd = WONT) :
    decode [IAC, cmd] data s = (data, s) := by
  have hne : cmd ≠ IAC := by
    rcases hcmd with rfl | rfl | rfl | rfl <;> decide
  rw [decode]; simp [hcmd, hne]

theorem decode_iac_end (data : List Nat) (s : Session) : decode [IAC] data s = (data, s) := by
  rw [decode]; simp

theorem decode_subneg (rest data : List Nat) (s : Session) :
    decode (IAC :: SB :: rest) data s = subneg rest data s := by
  cases rest <;> (conv_lhs => rw [decode]) <;> simp [IAC, SB, DO, DONT, WILL, WONT]

theorem decode_other (cmd : Nat) (rest data : List Nat) (s : Session)
    (hcmd : ¬ (cmd = DO ∨ cmd = DONT ∨ cmd = WILL ∨ cmd = WONT)) (hiac : cmd ≠ IAC)
    (hsb : cmd ≠ SB) :
    decode (IAC :: cmd :: rest) data s = decode rest data s := by
  cases rest <;> (conv_lhs => rw [decode]) <;> simp [hcmd, hiac, hsb]

theorem subneg_short (rest data : List Nat) (s : Session) (h : rest.length ≤ 1) :
    subneg rest data s = (data, s) := by
  rcases rest with _ | ⟨a, _ | ⟨b, t⟩⟩
  · rw [subneg]
  · rw [subneg]
  · simp at h

theorem subneg_cons (b c : Nat) (rest data : List Nat) (s : Session) :
    subneg (b :: c :: rest) data s =
      if b = IAC ∧ c = SE then decode rest data s else subneg (c :: rest) data s := by
  rw [subneg]

theorem decode_preserves (P : Session → Prop)
    (hn : ∀ cmd opt s, P s → P (negotiate cmd opt s)) :
    ∀ (k : Nat) (buf data : List Nat) (s : Session), buf.length ≤ k → P s →
      P (decode buf data s).2 ∧ P (subneg buf data s).2 := by
  intro k
  induction k with
  | zero =>
    intro buf data s hk hs
    have : buf = [] := List.length_eq_zero.mp (by omega)
    subst this
    rw [decode_nil, subneg_short _ _ _ (by simp)]
    exact ⟨hs, hs⟩
  | succ k ih =>
    intro buf data s hk hs
    constructor
    · rcases buf with _ | ⟨b, rest⟩
      · rw [decode_nil]; exact hs
      · simp only [List.length_cons] at hk
        by_cases hb : b = IAC
        · subst hb
          rcases rest with _ | ⟨cmd, rest1⟩
          · rw [decode_iac_end]; exact hs
          · simp only [List.length_cons] at hk
            by_cases hiac : cmd = IAC
            · subst hiac
              rw [show IAC = 255 from rfl, decode_iac_iac]
              exact (ih rest1 _ s (by omega) hs).1
            · by_cases hcmd : cmd = DO ∨ cmd = DONT ∨ cmd = WILL ∨ cmd = WONT
              · rcases rest1 with _ | ⟨opt, rest2⟩
                · rw [decode_option_truncated _ _ _ hcmd]; exact hs
                · rw [decode_option _ _ _ _ _ hcmd]
                  simp only [List.length_cons] at hk
                  exact (ih rest2 _ _ (by omega) (hn _ _ _ hs)).1
              · by_cases hsb : cmd = SB
                · subst hsb
                  rw [decode_subneg]
                  exact (ih rest1 _ s (by omega) hs).2
                · rw [decode_other _ _ _ _ hcmd hiac hsb]
                  exact (ih rest1 _ s (by omega) hs).1
        · rw [decode_data _ _ _ _ hb]
          exact (ih rest _ s (by omega) hs).1
    · rcases buf with _ | ⟨b, _ | ⟨c, rest⟩⟩
      · rw [subneg_short _ _ _ (by simp)]; exact hs
      · rw [subneg_short _ _ _ (by simp)]; exact hs
      · simp only [List.length_cons] at hk
        rw [subneg_cons]
        split_ifs
        · exact (ih rest _ s (by omega) hs).1
        · exact (ih (c :: rest) _ s (by simp; omega) hs).2

theorem process_line_negotiation (line : List Nat) (s : Session) :
    (process_line line s).negotiation = s.negotiation := by
  simp only [process_line, send]
  split_ifs <;> rfl

theorem process_line_banner_count (line : List Nat) (s : Session) :
    (process_line line s).sent.count ready_msg = s.sent.count ready_msg := by
  have e4 : bytes "Goodbye!\r\n" ≠ ready_msg := by decide
  have e5 : ∀ str, snprintf (2 * BUFFER_SIZE + 20) (bytes "ECHO: ") str (bytes "\r\n")
      ≠ ready_msg := by
    intro str h
    have := snprintf_echo_head (2 * BUFFER_SIZE + 20) str (bytes "\r\n") (by decide)
    rw [h] at this
    revert this
    decide
  simp only [process_line, send]
  split_ifs <;> simp [List.count_append, List.count_cons, e4, e5]

theorem extract_lines_preserves (P : Session → Prop)
    (hp : ∀ line s, P s → P (process_line line s))
    (hbuf : ∀ s l, P s → P { s with line_buf := l }) :
    ∀ (k : Nat) (s : Session), s.line_buf.length ≤ k → P s → P (extract_lines s) := by
  intro k
  induction k with
  | zero =>
    intro s hk hs
    have h0 : s.line_buf = [] := List.length_eq_zero.mp (by omega)
    rw [extract_lines_done s (by rw [h0, find_line_ending_nil]; decide)]
    exact hs
  | succ k ih =>
    intro s hk hs
    by_cases hpos : find_line_ending s.line_buf
        (s.line_len - check_incomplete_utf8 s.line_buf s.line_len) ≤ 0
    · rw [extract_lines_done s hpos]; exact hs
    · obtain ⟨j, hj⟩ : ∃ j : Nat, find_line_ending s.line_buf
          (s.line_len - check_incomplete_utf8 s.line_buf s.line_len) = (j : Int) :=
        ⟨_, (Int.toNat_of_nonneg (by omega)).symm⟩
      have hj0 : 0 < j := by
        rw [hj] at hpos
        omega
      rw [extract_lines_step s j hj0 hj]
      split_ifs
      · exact hp _ _ hs
      · apply ih
        · simp only [List.length_drop]
          omega
        · exact hbuf _ _ (hp _ _ hs)

theorem lb_handle_read_preserves (P : Session → Prop)
    (hn : ∀ cmd opt s, P s → P (negotiate cmd opt s))
    (hp : ∀ line s, P s → P (process_line line s))
    (hbuf : ∀ s l, P s → P { s with line_buf := l })
    (hclose : ∀ s, P s → P { s with closed := true })
    (buffer : List Nat) (s : Session) (h : P s) : P (handle_read buffer s) := by
  unfold handle_read
  split_ifs
  · exact h
  · exact hclose s h
  · apply extract_lines_preserves P hp hbuf _ _ (le_refl _)
    have hd := (decode_preserves P hn _ buffer [] s (le_refl _) h).1
    unfold append_data
    split_ifs
    · exact hbuf _ _ hd
    · exact hbuf _ _ hd
    · exact hd

theorem lb_ready_inv_start : ready_inv start := by
  unfold ready_inv all_acked
  decide

theorem lb_ready_inv_handle_client (reads : List (List Nat)) : ready_inv (handle_client reads) :=
  foldl_preserves ready_inv _
    (fun s b h => lb_handle_read_preserves ready_inv lb_negotiate_ready_inv
      (fun line s h => by
        unfold ready_inv at h ⊢
        rw [process_line_negotiation, process_line_banner_count]
        exact h)
      (fun _ _ h => h) (fun _ h => h) b s h) reads start lb_ready_inv_start

theorem lb_ready_sent_stays (reads more : List (List Nat))
    (h : (handle_client reads).negotiation.ready_sent = 1) :
    (handle_client (reads ++ more)).negotiation.ready_sent = 1 := by
  unfold handle_client at h ⊢
  rw [List.foldl_append]
  exact foldl_preserves (fun s => s.negotiation.ready_sent = 1) _
    (fun s b h => lb_handle_read_preserves (fun s => s.negotiation.ready_sent = 1)
      lb_negotiate_ready_sent
      (fun line s h => by
        show (process_line line s).negotiation.ready_sent = 1
        rw [process_line_negotiation]; exact h)
      (fun _ _ h => h) (fun _ h => h) b s h) more _ h

end LineBinary

theorem CharMode.negotiate_step (cmd opt : Nat) (s : CharMode.Session)
    (hcmd : cmd = DO ∨ cmd = DONT ∨ cmd = WILL ∨ cmd = WONT) (hinv : CharMode.ready_inv s) :
    (CharMode.all_acked s.negotiation ∨
        ¬ CharMode.all_acked (CharMode.negotiate cmd opt s).negotiation →
      (CharMode.negotiate cmd opt s).sent =
        s.sent ++ [[IAC, CharMode.table_reply cmd opt, opt]]) ∧
    (¬ CharMode.all_acked s.negotiation ∧
        CharMode.all_acked (CharMode.negotiate cmd opt s).negotiation →
      (CharMode.negotiate cmd opt s).sent =
        s.sent ++ [[IAC, CharMode.table_reply cmd opt, opt], CharMode.ready_msg]) := by
  have hb := CharMode.negotiate_banner cmd opt s
  have hr : (CharMode.respond cmd opt s).sent =
      s.sent ++ [[IAC, CharMode.table_reply cmd opt, opt]] := by
    rw [CharMode.respond_eq cmd opt s hcmd]
  have hmono := (CharMode.respond_facts cmd opt s).2.2
  have hsame : CharMode.all_acked (CharMode.negotiate cmd opt s).negotiation ↔
      CharMode.all_acked (CharMode.respond cmd opt s).negotiation := by
    unfold CharMode.negotiate CharMode.check_ready CharMode.all_acked
    split_ifs <;> simp [CharMode.send]
  obtain ⟨h1, -, h3⟩ := hinv
  constructor
  · intro h
    rw [hb.2, hr]
    rintro ⟨h0, ha⟩
    rcases h with h | h
    · have := h3.mpr h
      omega
    · exact h (hsame.mpr ha)
  · rintro ⟨hn, ha⟩
    have h0 : s.negotiation.ready_sent = 0 := by
      by_contra hne
      exact hn (h3.mp (by omega))
    rw [(hb.1 ⟨h0, hsame.mp ha⟩).1, hr]
    simp

theorem LineBinary.lb_negotiate_step (cmd opt : Nat) (s : LineBinary.Session)
    (hcmd : cmd = DO ∨ cmd = DONT ∨ cmd = WILL ∨ cmd = WONT) (hinv : LineBinary.ready_inv s) :
    (LineBinary.all_acked s.negotiation ∨
        ¬ LineBinary.all_acked (LineBinary.negotiate cmd opt s).negotiation →
      (LineBinary.negotiate cmd opt s).sent =
        s.sent ++ [[IAC, LineBinary.table_reply cmd opt, opt]]) ∧
    (¬ LineBinary.all_acked s.negotiation ∧
        LineBinary.all_acked (LineBinary.negotiate cmd opt s).negotiation →
      (LineBinary.negotiate cmd opt s).sent =
        s.sent ++ [[IAC, LineBinary.table_reply cmd opt, opt], LineBinary.ready_msg]) := by
  have hb := LineBinary.lb_negotiate_banner cmd opt s
  have hr : (LineBinary.respond cmd opt s).sent =
      s.sent ++ [[IAC, LineBinary.table_reply cmd opt, opt]] := by
    rw [LineBinary.lb_respond_eq cmd opt s hcmd]
  have hsame : LineBinary.all_acked (LineBinary.negotiate cmd opt s).negotiation ↔
      LineBinary.all_acked (LineBinary.respond cmd opt s).negotiation := by
    unfold LineBinary.negotiate LineBinary.check_ready LineBinary.all_acked
    split_ifs <;> simp [LineBinary.send]
  obtain ⟨h1, -, h3⟩ := hinv
  constructor
  · intro h
    rw [hb.2, hr]
    rintro ⟨h0, ha⟩
    rcases h with h | h
    · have := h3.mpr h
      omega
    · exact h (hsame.mpr ha)
  · rintro ⟨hn, ha⟩
    have h0 : s.negotiation.ready_sent = 0 := by
      by_contra hne
      exact hn (h3.mp (by omega))
    rw [(hb.1 ⟨h0, hsame.mp ha⟩).1, hr]
    simp

/-- C5: in both servers, for every sequence of inbound reads, `ready_sent` is 0 or 1 and once
1 stays 1 under any further reads; the ready banner has been written exactly `ready_sent`
times (so at most once per session); `ready_sent` is 1 exactly when every acknowledgement flag
of the mode is set; and an option event (on any state that satisfies these relations, which
it preserves) writes the banner, right after its reply, exactly when not every flag was set
before it and every flag is set after it. -/
theorem C5_ready_banner_once :
    ((∀ reads : List (List Nat),
        (CharMode.handle_client reads).negotiation.ready_sent ≤ 1 ∧
        (CharMode.handle_client reads).sent.count CharMode.ready_msg =
          (CharMode.handle_client reads).negotiation.ready_sent ∧
        ((CharMode.handle_client reads).negotiation.ready_sent = 1 ↔
          (CharMode.handle_client reads).negotiation.echo_acked ≠ 0 ∧
          (CharMode.handle_client reads).negotiation.sga_acked ≠ 0)) ∧
      (∀ reads more : List (List Nat),
        (CharMode.handle_client reads).negotiation.ready_sent = 1 →
        (CharMode.handle_client (reads ++ more)).negotiation.ready_sent = 1) ∧
      (∀ (cmd opt : Nat) (s : CharMode.Session),
        cmd = DO ∨ cmd = DONT ∨ cmd = WILL ∨ cmd = WONT → CharMode.ready_inv s →
        CharMode.ready_inv (CharMode.negotiate cmd opt s) ∧
        (CharMode.all_acked s.negotiation ∨
            ¬ CharMode.all_acked (CharMode.negotiate cmd opt s).negotiation →
          (CharMode.negotiate cmd opt s).sent =
            s.sent ++ [[IAC, CharMode.table_reply cmd opt, opt]]) ∧
        (¬ CharMode.all_acked s.negotiation ∧
            CharMode.all_acked (CharMode.negotiate cmd opt s).negotiation →
          (CharMode.negotiate cmd opt s).sent =
            s.sent ++ [[IAC, CharMode.table_reply cmd opt, opt], CharMode.ready_msg]))) ∧
    ((∀ reads : List (List Nat),
        (LineBinary.handle_client reads).negotiation.ready_sent ≤ 1 ∧
        (LineBinary.handle_client reads).sent.count LineBinary.ready_msg =
          (LineBinary.handle_client reads).negotiation.ready_sent ∧
        ((LineBinary.handle_client reads).negotiation.ready_sent = 1 ↔
          (LineBinary.handle_client reads).negotiation.binary_acked ≠ 0 ∧
          (LineBinary.handle_client reads).negotiation.linemode_acked ≠ 0 ∧
          (LineBinary.handle_client reads).negotiation.echo_acked ≠ 0 ∧
          (LineBinary.handle_client reads).negotiation.sga_acked ≠ 0)) ∧
      (∀ reads more : List (List Nat),
        (LineBinary.handle_client reads).negotiation.ready_sent = 1 →
        (LineBinary.handle_client (reads ++ more)).negotiation.ready_sent = 1) ∧
      (∀ (cmd opt : Nat) (s : LineBinary.Session),
        cmd = DO ∨ cmd = DONT ∨ cmd = WILL ∨ cmd = WONT → LineBinary.ready_inv s →
        LineBinary.ready_inv (LineBinary.negotiate cmd opt s) ∧
        (LineBinary.all_acked s.negotiation ∨
            ¬ LineBinary.all_acked (LineBinary.negotiate cmd opt s).negotiation →
          (LineBinary.negotiate cmd opt s).sent =
            s.sent ++ [[IAC, LineBinary.table_reply cmd opt, opt]]) ∧
        (¬ LineBinary.all_acked s.negotiation ∧
            LineBinary.all_acked (LineBinary.negotiate cmd opt s).negotiation →
          (LineBinary.negotiate cmd opt s).sent =
            s.sent ++ [[IAC, LineBinary.table_reply cmd opt, opt], LineBinary.ready_msg]))) :=
  ⟨⟨fun reads => CharMode.ready_inv_handle_client reads,
    fun reads more h => CharMode.ready_sent_stays reads more h,
    fun cmd opt s hcmd hinv =>
      ⟨CharMode.negotiate_ready_inv cmd opt s hinv, CharMode.negotiate_step cmd opt s hcmd hinv⟩⟩,
   ⟨fun reads => LineBinary.lb_ready_inv_handle_client reads,
    fun reads more h => LineBinary.lb_ready_sent_stays reads more h,
    fun cmd opt s hcmd hinv =>
      ⟨LineBinary.lb_negotiate_ready_inv cmd opt s hinv,
        LineBinary.lb_negotiate_step cmd opt s hcmd hinv⟩⟩⟩

/-- Witness of C5: the character-mode session after the single read `IAC DO SGA`, and the
line-binary session after the single read `IAC WILL LINEMODE IAC DO SGA`. -/
theorem C5_ready_banner_once_witness :
    ((CharMode.handle_client [[255, 253, 3]]).negotiation.ready_sent ≤ 1 ∧
      (CharMode.handle_client [[255, 253, 3]]).sent.count CharMode.ready_msg =
        (CharMode.handle_client [[255, 253, 3]]).negotiation.ready_sent ∧
      ((CharMode.handle_client [[255, 253, 3]]).negotiation.ready_sent = 1 ↔
        (CharMode.handle_client [[255, 253, 3]]).negotiation.echo_acked ≠ 0 ∧
        (CharMode.handle_client [[255, 253, 3]]).negotiation.sga_acked ≠ 0)) ∧
    ((LineBinary.handle_client [[255, 251, 34, 255, 253, 3]]).negotiation.ready_sent ≤ 1 ∧
      (LineBinary.handle_client [[255, 251, 34, 255, 253, 3]]).sent.count LineBinary.ready_msg =
        (LineBinary.handle_client [[255, 251, 34, 255, 253, 3]]).negotiation.ready_sent ∧
      ((LineBinary.handle_client [[255, 251, 34, 255, 253, 3]]).negotiation.ready_sent = 1 ↔
        (LineBinary.handle_client [[255, 251, 34, 255, 253, 3]]).negotiation.binary_acked ≠ 0 ∧
        (LineBinary.handle_client [[255, 251, 34, 255, 253, 3]]).negotiation.linemode_acked ≠ 0 ∧
        (LineBinary.handle_client [[255, 251, 34, 255, 253, 3]]).negotiation.echo_acked ≠ 0 ∧
        (LineBinary.handle_client [[255, 251, 34, 255, 253, 3]]).negotiation.sga_acked ≠ 0)) :=
  ⟨C5_ready_banner_once.1.1 [[255, 253, 3]],
   C5_ready_banner_once.2.1 [[255, 251, 34, 255, 253, 3]]⟩

namespace LineBinary

theorem handle_read_no_data (buffer : List Nat) (s : Session) (hs : s.closed = false)
    (hb : buffer ≠ []) (hd : (decode buffer [] s).1 = [])
    (hl : (decode buffer [] s).2.line_buf = []) :
    handle_read buffer s = (decode buffer [] s).2 := by
  rw [handle_read_open _ _ hs hb, hd]
  have : append_data [] (decode buffer [] s).2 = (decode buffer [] s).2 := by
    simp [append_data]
  rw [this]
  exact extract_lines_done _ (by rw [hl, find_line_ending_nil]; decide)

theorem handle_client_single (buffer : List Nat) :
    handle_client [buffer] = handle_read buffer start := rfl

/-- C6 as stated fails: after `setup_linemode`, the inbound stream
`IAC WILL BINARY IAC WILL LINEMODE` leaves `sga_acked` at 0, so the ready banner is not
written at all; the server only writes its two `DO` replies. -/
theorem C6_counterexample :
    (handle_client [[0xFF, 0xFB, 0x00, 0xFF, 0xFB, 0x22]]).sent.count ready_msg = 0 ∧
    (handle_client [[0xFF, 0xFB, 0x00, 0xFF, 0xFB, 0x22]]).sent =
      start.sent ++ [[IAC, DO, BINARY], [IAC, DO, LINEMODE]] ∧
    (handle_client [[0xFF, 0xFB, 0x00, 0xFF, 0xFB, 0x22]]).negotiation =
      { binary_acked := 1, linemode_acked := 1, echo_acked := 1, sga_acked := 0,
        ready_sent := 0 } := by
  have h : handle_client [[0xFF, 0xFB, 0x00, 0xFF, 0xFB, 0x22]] =
      (decode [0xFF, 0xFB, 0x00, 0xFF, 0xFB, 0x22] [] start).2 :=
    (handle_client_single _).trans
      (handle_read_no_data [0xFF, 0xFB, 0x00, 0xFF, 0xFB, 0x22] start (by decide) (by decide)
        (by decide) (by decide))
  rw [h]
  decide

/-- C6 (amended): in the line-binary server, after `setup_linemode` has run on a fresh
negotiation state, when the client's whole inbound stream is `IAC WILL BINARY`,
`IAC WILL LINEMODE` and an acknowledgement of SGA (`IAC DO SGA` or `IAC WILL SGA`), the server
writes the ready banner exactly once, as its last message, right after the reply to the SGA
acknowledgement. -/
theorem C6_ready_after_linemode_and_sga :
    (handle_client [[0xFF, 0xFB, 0x00, 0xFF, 0xFB, 0x22, 0xFF, 0xFD, 0x03]]).sent.count
        (bytes "\r\n*** READY! (BINARY mode active) ***\r\n\r\n") = 1 ∧
    (handle_client [[0xFF, 0xFB, 0x00, 0xFF, 0xFB, 0x22, 0xFF, 0xFD, 0x03]]).sent =
      start.sent ++ [[IAC, DO, BINARY], [IAC, DO, LINEMODE], [IAC, WILL, SUPPRESS_GO_AHEAD],
        bytes "\r\n*** READY! (BINARY mode active) ***\r\n\r\n"] ∧
    (handle_client [[0xFF, 0xFB, 0x00, 0xFF, 0xFB, 0x22, 0xFF, 0xFB, 0x03]]).sent.count
        (bytes "\r\n*** READY! (BINARY mode active) ***\r\n\r\n") = 1 ∧
    (handle_client [[0xFF, 0xFB, 0x00, 0xFF, 0xFB, 0x22, 0xFF, 0xFB, 0x03]]).sent =
      start.sent ++ [[IAC, DO, BINARY], [IAC, DO, LINEMODE], [IAC, DO, SUPPRESS_GO_AHEAD],
        bytes "\r\n*** READY! (BINARY mode active) ***\r\n\r\n"] := by
  have h1 : handle_client [[0xFF, 0xFB, 0x00, 0xFF, 0xFB, 0x22, 0xFF, 0xFD, 0x03]] =
      (decode [0xFF, 0xFB, 0x00, 0xFF, 0xFB, 0x22, 0xFF, 0xFD, 0x03] [] start).2 :=
    (handle_client_single _).trans
      (handle_read_no_data [0xFF, 0xFB, 0x00, 0xFF, 0xFB, 0x22, 0xFF, 0xFD, 0x03] start
        (by decide) (by decide) (by decide) (by decide))
  have h2 : handle_client [[0xFF, 0xFB, 0x00, 0xFF, 0xFB, 0x22, 0xFF, 0xFB, 0x03]] =
      (decode [0xFF, 0xFB, 0x00, 0xFF, 0xFB, 0x22, 0xFF, 0xFB, 0x03] [] start).2 :=
    (handle_client_single _).trans
      (handle_read_no_data [0xFF, 0xFB, 0x00, 0xFF, 0xFB, 0x22, 0xFF, 0xFB, 0x03] start
        (by decide) (by decide) (by decide) (by decide))
  rw [h1, h2]
  decide

/-- C7: in the line-binary server, an option triple `IAC cmd opt` (`cmd` one of DO, DONT, WILL,
WONT, `opt` any byte) that the decoder meets with all three bytes inside the read is consumed
as one unit; the server writes exactly one 3-byte reply `IAC r opt` with `r` given by the
response table (followed by the ready banner when this event completes the negotiation), sets
exactly the acknowledgement flags the table names and leaves every other acknowledgement flag,
the data extracted so far and the LineBuffer unchanged. -/
theorem C7_line_binary_option_table (cmd opt : Nat) (rest data : List Nat) (s : Session)
    (hcmd : cmd = DO ∨ cmd = DONT ∨ cmd = WILL ∨ cmd = WONT) :
    decode (IAC :: cmd :: opt :: rest) data s = decode rest data (negotiate cmd opt s) ∧
    (negotiate cmd opt s).sent =
      s.sent ++ [[IAC, table_reply cmd opt, opt]] ++
        (if s.negotiation.ready_sent = 0 ∧ all_acked (negotiate cmd opt s).negotiation
         then [ready_msg] else []) ∧
    (negotiate cmd opt s).negotiation.binary_acked =
      (if opt = BINARY then 1 else s.negotiation.binary_acked) ∧
    (negotiate cmd opt s).negotiation.sga_acked =
      (if (cmd = DO ∨ cmd = WILL) ∧ opt = SUPPRESS_GO_AHEAD then 1
       else s.negotiation.sga_acked) ∧
    (negotiate cmd opt s).negotiation.echo_acked =
      (if (cmd = DO ∨ cmd = DONT ∨ cmd = WILL) ∧ opt = ECHO then 1
       else s.negotiation.echo_acked) ∧
    (negotiate cmd opt s).negotiation.linemode_acked =
      (if (cmd = WILL ∨ cmd = WONT) ∧ opt = LINEMODE then 1
       else s.negotiation.linemode_acked) ∧
    (negotiate cmd opt s).negotiation.ready_sent =
      (if s.negotiation.ready_sent = 0 ∧ all_acked (negotiate cmd opt s).negotiation
       then 1 else s.negotiation.ready_sent) ∧
    (negotiate cmd opt s).line_buf = s.line_buf ∧
    (negotiate cmd opt s).closed = s.closed := by
  refine ⟨decode_option cmd opt rest data s hcmd, ?_⟩
  have hr := lb_respond_eq cmd opt s hcmd
  unfold negotiate check_ready all_acked
  rw [hr]
  simp only [table_sets_binary, table_sets_sga, table_sets_echo, table_sets_linemode, send]
  split_ifs <;> simp_all

/-- Witness of C7: the triple `IAC WILL LINEMODE` on the session as it is after the prelude. -/
theorem C7_line_binary_option_table_witness :
    decode (IAC :: WILL :: LINEMODE :: []) [] start =
      decode [] [] (negotiate WILL LINEMODE start) ∧
    (negotiate WILL LINEMODE start).sent =
      start.sent ++ [[IAC, table_reply WILL LINEMODE, LINEMODE]] ++
        (if start.negotiation.ready_sent = 0 ∧
            all_acked (negotiate WILL LINEMODE start).negotiation
         then [ready_msg] else []) ∧
    (negotiate WILL LINEMODE start).negotiation.binary_acked =
      (if LINEMODE = BINARY then 1 else start.negotiation.binary_acked) ∧
    (negotiate WILL LINEMODE start).negotiation.sga_acked =
      (if (WILL = DO ∨ WILL = WILL) ∧ LINEMODE = SUPPRESS_GO_AHEAD then 1
       else start.negotiation.sga_acked) ∧
    (negotiate WILL LINEMODE start).negotiation.echo_acked =
      (if (WILL = DO ∨ WILL = DONT ∨ WILL = WILL) ∧ LINEMODE = ECHO then 1
       else start.negotiation.echo_acked) ∧
    (negotiate WILL LINEMODE start).negotiation.linemode_acked =
      (if (WILL = WILL ∨ WILL = WONT) ∧ LINEMODE = LINEMODE then 1
       else start.negotiation.linemode_acked) ∧
    (negotiate WILL LINEMODE start).negotiation.ready_sent =
      (if start.negotiation.ready_sent = 0 ∧
          all_acked (negotiate WILL LINEMODE start).negotiation
       then 1 else start.negotiation.ready_sent) ∧
    (negotiate WILL LINEMODE start).line_buf = start.line_buf ∧
    (negotiate WILL LINEMODE start).closed = start.closed :=
  C7_line_binary_option_table WILL LINEMODE [] [] start (Or.inr (Or.inr (Or.inl rfl)))

end LineBinary

namespace CharMode

/-- C8 (amended): in the character-mode server, an option triple `IAC cmd opt` (`cmd` one of
DO, DONT, WILL, WONT, `opt` any byte) that the loop meets with all three bytes inside the read
is consumed as one unit; the server writes exactly one 3-byte reply `IAC r opt` with `r` given
by the response table (followed by the ready banner when this event completes the
negotiation), sets `echo_ack` on DO ECHO and `sga_ack` on DO SGA and WILL SGA and changes no
other acknowledgement flag; `ready_sent` changes only through the ready transition; and the
three bytes reach neither the edit buffer nor the echo. -/
theorem C8_char_mode_option_table (cmd opt : Nat) (rest : List Nat) (s : Session)
    (hcmd : cmd = DO ∨ cmd = DONT ∨ cmd = WILL ∨ cmd = WONT) :
    process_buffer (IAC :: cmd :: opt :: rest) s = process_buffer rest (negotiate cmd opt s) ∧
    (negotiate cmd opt s).sent =
      s.sent ++ [[IAC, table_reply cmd opt, opt]] ++
        (if s.negotiation.ready_sent = 0 ∧ all_acked (negotiate cmd opt s).negotiation
         then [ready_msg] else []) ∧
    (negotiate cmd opt s).negotiation.echo_acked =
      (if cmd = DO ∧ opt = ECHO then 1 else s.negotiation.echo_acked) ∧
    (negotiate cmd opt s).negotiation.sga_acked =
      (if (cmd = DO ∨ cmd = WILL) ∧ opt = SUPPRESS_GO_AHEAD then 1
       else s.negotiation.sga_acked) ∧
    (negotiate cmd opt s).negotiation.ready_sent =
      (if s.negotiation.ready_sent = 0 ∧ all_acked (negotiate cmd opt s).negotiation
       then 1 else s.negotiation.ready_sent) ∧
    (negotiate cmd opt s).input_line = s.input_line ∧
    (negotiate cmd opt s).input_pos = s.input_pos ∧
    (negotiate cmd opt s).closed = s.closed := by
  refine ⟨process_buffer_option cmd opt rest s hcmd, ?_⟩
  have hr := respond_eq cmd opt s hcmd
  unfold negotiate check_ready all_acked
  rw [hr]
  simp only [table_sets_echo, table_sets_sga, send]
  split_ifs <;> simp_all

/-- Witness of C8: the triple `IAC DO SGA` on the session as it is after the prelude. -/
theorem C8_char_mode_option_table_witness :
    process_buffer (IAC :: DO :: SUPPRESS_GO_AHEAD :: []) start =
      process_buffer [] (negotiate DO SUPPRESS_GO_AHEAD start) ∧
    (negotiate DO SUPPRESS_GO_AHEAD start).sent =
      start.sent ++ [[IAC, table_reply DO SUPPRESS_GO_AHEAD, SUPPRESS_GO_AHEAD]] ++
        (if start.negotiation.ready_sent = 0 ∧
            all_acked (negotiate DO SUPPRESS_GO_AHEAD start).negotiation
         then [ready_msg] else []) ∧
    (negotiate DO SUPPRESS_GO_AHEAD start).negotiation.echo_acked =
      (if DO = DO ∧ SUPPRESS_GO_AHEAD = ECHO then 1 else start.negotiation.echo_acked) ∧
    (negotiate DO SUPPRESS_GO_AHEAD start).negotiation.sga_acked =
      (if (DO = DO ∨ DO = WILL) ∧ SUPPRESS_GO_AHEAD = SUPPRESS_GO_AHEAD then 1
       else start.negotiation.sga_acked) ∧
    (negotiate DO SUPPRESS_GO_AHEAD start).negotiation.ready_sent =
      (if start.negotiation.ready_sent = 0 ∧
          all_acked (negotiate DO SUPPRESS_GO_AHEAD start).negotiation
       then 1 else start.negotiation.ready_sent) ∧
    (negotiate DO SUPPRESS_GO_AHEAD start).input_line = start.input_line ∧
    (negotiate DO SUPPRESS_GO_AHEAD start).input_pos = start.input_pos ∧
    (negotiate DO SUPPRESS_GO_AHEAD start).closed = start.closed :=
  C8_char_mode_option_table DO SUPPRESS_GO_AHEAD [] start (Or.inl rfl)

/-- C8 as stated fails in its "no other flag changes": on the session as it is after the
prelude (`echo_acked` already 1), the triple `IAC DO SGA` sets `sga_acked` and also changes the
flag `ready_sent` from 0 to 1, and the ready banner is written after the reply. -/
theorem C8_counterexample :
    start.negotiation = { echo_acked := 1, sga_acked := 0, ready_sent := 0 } ∧
    (handle_client [[IAC, DO, SUPPRESS_GO_AHEAD]]).negotiation =
      { echo_acked := 1, sga_acked := 1, ready_sent := 1 } ∧
    (handle_client [[IAC, DO, SUPPRESS_GO_AHEAD]]).negotiation.ready_sent ≠
      start.negotiation.ready_sent ∧
    (handle_client [[IAC, DO, SUPPRESS_GO_AHEAD]]).sent =
      start.sent ++ [[IAC, WILL, SUPPRESS_GO_AHEAD], ready_msg] := by
  decide

end CharMode

/-! ## The option exchange against a mirroring peer -/

theorem CharMode.mirror_round (s : CharMode.Session) (hc : s.closed = false)
    (hn : s.negotiation = { echo_acked := 1, sga_acked := 1, ready_sent := 1 }) :
    CharMode.handle_read [IAC, DO, ECHO, IAC, DO, SUPPRESS_GO_AHEAD] s =
      { s with sent := s.sent ++ [[IAC, WILL, ECHO], [IAC, WILL, SUPPRESS_GO_AHEAD]] } := by
  have h1 : CharMode.handle_read [IAC, DO, ECHO, IAC, DO, SUPPRESS_GO_AHEAD] s =
      CharMode.negotiate DO SUPPRESS_GO_AHEAD (CharMode.negotiate DO ECHO s) := by
    simp only [CharMode.handle_read, hc]
    rw [if_neg (by decide), if_neg (by simp),
      CharMode.process_buffer_option _ _ _ _ (Or.inl rfl),
      CharMode.process_buffer_option _ _ _ _ (Or.inl rfl), CharMode.process_buffer_nil]
  rw [h1]
  cases s with
  | mk il ip n w c =>
    simp only at hn
    subst hn
    simp [CharMode.negotiate, CharMode.respond, CharMode.check_ready, CharMode.send,
      CharMode.send_telnet_option, DO, ECHO, SUPPRESS_GO_AHEAD]

theorem CharMode.exchange_steady (n : Nat) :
    (CharMode.exchange (n + 2)).2 = [[IAC, WILL, ECHO], [IAC, WILL, SUPPRESS_GO_AHEAD]] ∧
    (CharMode.exchange (n + 2)).1.closed = false ∧
    (CharMode.exchange (n + 2)).1.negotiation =
      { echo_acked := 1, sga_acked := 1, ready_sent := 1 } := by
  have key : ∀ (st : CharMode.Session × List (List Nat)),
      mirror_peer st.2 = [IAC, DO, ECHO, IAC, DO, SUPPRESS_GO_AHEAD] → st.1.closed = false →
      st.1.negotiation = { echo_acked := 1, sga_acked := 1, ready_sent := 1 } →
      (exchange_round CharMode.handle_read CharMode.Session.sent st).2 =
        [[IAC, WILL, ECHO], [IAC, WILL, SUPPRESS_GO_AHEAD]] ∧
      (exchange_round CharMode.handle_read CharMode.Session.sent st).1.closed = false ∧
      (exchange_round CharMode.handle_read CharMode.Session.sent st).1.negotiation =
        { echo_acked := 1, sga_acked := 1, ready_sent := 1 } := by
    intro st hm hc hn
    unfold exchange_round
    rw [hm, if_neg (by decide), CharMode.mirror_round _ hc hn]
    exact ⟨by simp, hc, hn⟩
  have h1 : mirror_peer (CharMode.exchange 1).2 = [IAC, DO, ECHO, IAC, DO, SUPPRESS_GO_AHEAD] ∧
      (CharMode.exchange 1).1.closed = false ∧
      (CharMode.exchange 1).1.negotiation =
        { echo_acked := 1, sga_acked := 1, ready_sent := 1 } := by
    decide
  induction n with
  | zero => exact key _ h1.1 h1.2.1 h1.2.2
  | succ k ih =>
    exact key _ (by rw [ih.1]; decide) ih.2.1 ih.2.2

theorem LineBinary.lb_mirror_round (s : LineBinary.Session) (hc : s.closed = false)
    (hb : s.line_buf = []) (hl : s.negotiation.linemode_acked = 0) :
    LineBinary.handle_read [IAC, DO, BINARY, IAC, DO, SUPPRESS_GO_AHEAD] s =
      { s with
        sent := s.sent ++ [[IAC, WILL, BINARY], [IAC, WILL, SUPPRESS_GO_AHEAD]],
        negotiation := { s.negotiation with binary_acked := 1, sga_acked := 1 } } := by
  have hd : LineBinary.decode [IAC, DO, BINARY, IAC, DO, SUPPRESS_GO_AHEAD] [] s =
      ([], LineBinary.negotiate DO SUPPRESS_GO_AHEAD (LineBinary.negotiate DO BINARY s)) := by
    rw [LineBinary.decode_option _ _ _ _ _ (Or.inl rfl),
      LineBinary.decode_option _ _ _ _ _ (Or.inl rfl), LineBinary.decode_nil]
  have hn : LineBinary.negotiate DO SUPPRESS_GO_AHEAD (LineBinary.negotiate DO BINARY s) =
      { s with
        sent := s.sent ++ [[IAC, WILL, BINARY], [IAC, WILL, SUPPRESS_GO_AHEAD]],
        negotiation := { s.negotiation with binary_acked := 1, sga_acked := 1 } } := by
    cases s with
    | mk lb n w c =>
      cases n with
      | mk b l e g r =>
        simp only at hl
        subst hl
        simp [LineBinary.negotiate, LineBinary.respond, LineBinary.check_ready,
          LineBinary.send, LineBinary.send_telnet_option, DO, BINARY, ECHO, SUPPRESS_GO_AHEAD]
  rw [LineBinary.handle_read_open _ _ hc (by decide), hd]
  simp only [hn, LineBinary.append_data, List.length_nil, gt_iff_lt, lt_self_iff_false,
    if_false]
  exact LineBinary.extract_lines_done _ (by
    simp only [hb, LineBinary.find_line_ending_nil]
    decide)

theorem LineBinary.lb_exchange_steady (n : Nat) :
    (LineBinary.exchange (n + 1)).2 = [[IAC, WILL, BINARY], [IAC, WILL, SUPPRESS_GO_AHEAD]] ∧
    (LineBinary.exchange (n + 1)).1.closed = false ∧
    (LineBinary.exchange (n + 1)).1.line_buf = [] ∧
    (LineBinary.exchange (n + 1)).1.negotiation.linemode_acked = 0 := by
  have key : ∀ (st : LineBinary.Session × List (List Nat)),
      mirror_peer st.2 = [IAC, DO, BINARY, IAC, DO, SUPPRESS_GO_AHEAD] → st.1.closed = false →
      st.1.line_buf = [] → st.1.negotiation.linemode_acked = 0 →
      (exchange_round LineBinary.handle_read LineBinary.Session.sent st).2 =
        [[IAC, WILL, BINARY], [IAC, WILL, SUPPRESS_GO_AHEAD]] ∧
      (exchange_round LineBinary.handle_read LineBinary.Session.sent st).1.closed = false ∧
      (exchange_round LineBinary.handle_read LineBinary.Session.sent st).1.line_buf = [] ∧
      (exchange_round LineBinary.handle_read LineBinary.Session.sent st).1.negotiation.linemode_acked
        = 0 := by
    intro st hm hc hb hl
    unfold exchange_round
    rw [hm, if_neg (by decide), LineBinary.lb_mirror_round _ hc hb hl]
    exact ⟨by simp, hc, hb, hl⟩
  induction n with
  | zero => exact key _ (by decide) (by decide) (by decide) (by decide)
  | succ k ih =>
    exact key _ (by rw [ih.1]; decide) ih.2.1 ih.2.2.1 ih.2.2.2

/-- C9 as stated fails for both servers: against the mirroring peer the exchange never comes to
rest, there is no round after which the server writes no option command. -/
theorem C9_counterexample :
    ¬ (∃ N, ∀ n, N ≤ n → option_commands (CharMode.exchange n).2 = []) ∧
    ¬ (∃ N, ∀ n, N ≤ n → option_commands (LineBinary.exchange n).2 = []) := by
  constructor
  · rintro ⟨N, hN⟩
    have h := hN (N + 2) (by omega)
    rw [(CharMode.exchange_steady N).1] at h
    revert h
    decide
  · rintro ⟨N, hN⟩
    have h := hN (N + 1) (by omega)
    rw [(LineBinary.lb_exchange_steady N).1] at h
    revert h
    decide

/-- C9 (amended): against a peer that answers every server `IAC WILL x` with `IAC DO x` (and
sends nothing else), the option exchange started by the prelude does not terminate, because the
servers answer an acknowledgement of what they advertised: in round 1 the character-mode server
writes `WILL ECHO`, `WILL SGA` and the ready banner, in every later round it writes `WILL ECHO`
and `WILL SGA` again; the line-binary server writes `WILL BINARY` and `WILL SGA` in every round
from round 1 on. -/
theorem C9_mirror_exchange_never_rests :
    (CharMode.exchange 1).2 =
      [[IAC, WILL, ECHO], [IAC, WILL, SUPPRESS_GO_AHEAD], CharMode.ready_msg] ∧
    (∀ n, 2 ≤ n →
      (CharMode.exchange n).2 = [[IAC, WILL, ECHO], [IAC, WILL, SUPPRESS_GO_AHEAD]]) ∧
    (∀ n, 1 ≤ n →
      (LineBinary.exchange n).2 = [[IAC, WILL, BINARY], [IAC, WILL, SUPPRESS_GO_AHEAD]]) := by
  refine ⟨by decide, ?_, ?_⟩
  · intro n hn
    obtain ⟨k, rfl⟩ : ∃ k, n = k + 2 := ⟨n - 2, by omega⟩
    exact (CharMode.exchange_steady k).1
  · intro n hn
    obtain ⟨k, rfl⟩ : ∃ k, n = k + 1 := ⟨n - 1, by omega⟩
    exact (LineBinary.lb_exchange_steady k).1

/-- Witness of C9: rounds 2 and 1. -/
theorem C9_mirror_exchange_never_rests_witness :
    (CharMode.exchange 2).2 = [[IAC, WILL, ECHO], [IAC, WILL, SUPPRESS_GO_AHEAD]] ∧
    (LineBinary.exchange 1).2 = [[IAC, WILL, BINARY], [IAC, WILL, SUPPRESS_GO_AHEAD]] :=
  ⟨C9_mirror_exchange_never_rests.2.1 2 (by decide),
   C9_mirror_exchange_never_rests.2.2 1 (by decide)⟩

theorem CharMode.handle_char_iac (s : CharMode.Session) :
    CharMode.handle_char IAC s =
      if s.input_pos < 1023 then
        { s with
          input_line := (s.input_line.set s.input_pos 0xFF).set (s.input_pos + 1) 0,
          input_pos := s.input_pos + 1,
          sent := s.sent ++ [[0xFF]] }
      else s := by
  simp [CharMode.handle_char, CharMode.send, IAC, CTRL_D, CTRL_C, BACKSPACE, DEL, BUFFER_SIZE]

/-- C10: a pair `IAC IAC` (FF FF) that the decoder meets with both bytes inside the read is
decoded to exactly one application byte 0xFF. The line-binary server appends a single 0xFF to
the extracted data and goes on with the byte after the pair, writing nothing and changing no
flag. The character-mode server handles it as one printable byte: when space remains
(`input_pos < 1023`) the byte 0xFF is stored once in the edit buffer and echoed once, otherwise
the pair has no effect; in both cases the loop goes on with the byte after the pair, so
neither byte of the pair is taken as a command. -/
theorem C10_iac_iac_is_one_byte (rest data : List Nat) (ls : LineBinary.Session)
    (cs : CharMode.Session) (hopen : cs.closed = false) :
    LineBinary.decode (IAC :: IAC :: rest) data ls = LineBinary.decode rest (data ++ [0xFF]) ls ∧
    (cs.input_pos < 1023 →
      CharMode.process_buffer (IAC :: IAC :: rest) cs =
        CharMode.process_buffer rest
          { cs with
            input_line := (cs.input_line.set cs.input_pos 0xFF).set (cs.input_pos + 1) 0,
            input_pos := cs.input_pos + 1,
            sent := cs.sent ++ [[0xFF]] }) ∧
    (¬ cs.input_pos < 1023 →
      CharMode.process_buffer (IAC :: IAC :: rest) cs = CharMode.process_buffer rest cs) := by
  refine ⟨LineBinary.decode_iac_iac rest data ls, ?_, ?_⟩
  · intro h
    rw [CharMode.process_buffer_iac_iac, CharMode.handle_char_iac, if_pos h]
    simp [hopen]
  · intro h
    rw [CharMode.process_buffer_iac_iac, CharMode.handle_char_iac, if_neg h]
    simp [hopen]

/-- Witness of C10: the pair followed by `A`, on the sessions as they are after the
preludes. -/
theorem C10_iac_iac_is_one_byte_witness :
    LineBinary.decode (IAC :: IAC :: [65]) [] LineBinary.start =
      LineBinary.decode [65] ([] ++ [0xFF]) LineBinary.start ∧
    CharMode.process_buffer (IAC :: IAC :: [65]) CharMode.start =
      CharMode.process_buffer [65]
        { CharMode.start with
          input_line :=
            (CharMode.start.input_line.set CharMode.start.input_pos 0xFF).set
              (CharMode.start.input_pos + 1) 0,
          input_pos := CharMode.start.input_pos + 1,
          sent := CharMode.start.sent ++ [[0xFF]] } :=
  ⟨(C10_iac_iac_is_one_byte [65] [] LineBinary.start CharMode.start (by decide)).1,
   (C10_iac_iac_is_one_byte [65] [] LineBinary.start CharMode.start (by decide)).2.1
     (by decide)⟩

namespace LineBinary

theorem extract_lines_bounded_eq :
    ∀ (k : Nat) (s : Session), s.line_buf.length ≤ k → extract_lines_bounded k s = extract_lines s := by
  intro k
  induction k with
  | zero =>
    intro s hk
    have h0 : s.line_buf = [] := List.length_eq_zero.mp (by omega)
    rw [extract_lines_done s (by rw [h0, find_line_ending_nil]; decide)]
    rfl
  | succ k ih =>
    intro s hk
    by_cases hpos : find_line_ending s.line_buf
        (s.line_len - check_incomplete_utf8 s.line_buf s.line_len) ≤ 0
    · rw [extract_lines_done s hpos]
      simp [extract_lines_bounded, not_lt.mpr hpos]
    · obtain ⟨j, hj⟩ : ∃ j : Nat, find_line_ending s.line_buf
          (s.line_len - check_incomplete_utf8 s.line_buf s.line_len) = (j : Int) :=
        ⟨_, (Int.toNat_of_nonneg (by omega)).symm⟩
      have hj0 : 0 < j := by
        rw [hj] at hpos
        omega
      have hjpos : (0 : Int) < (j : Int) := by exact_mod_cast hj0
      rw [extract_lines_step s j hj0 hj]
      simp only [extract_lines_bounded, hj, gt_iff_lt, hjpos, if_true, Int.toNat_ofNat]
      split_ifs
      · rfl
      · apply ih
        simp only [List.length_drop]
        omega

theorem handle_read_bounded_eq (buffer : List Nat) (s : Session) :
    handle_read_bounded buffer s = handle_read buffer s := by
  unfold handle_read_bounded handle_read
  split_ifs
  · rfl
  · rfl
  · exact extract_lines_bounded_eq _ _ (le_refl _)

theorem handle_client_bounded_eq (reads : List (List Nat)) :
    handle_client reads = handle_client_bounded reads := by
  unfold handle_client handle_client_bounded
  congr 1
  funext s buffer
  exact (handle_read_bounded_eq buffer s).symm

end LineBinary

/-! ## Telnet sequences at a read boundary -/

theorem CharMode.process_buffer_plain_append (p : List Nat) (rest : List Nat) :
    ∀ (s : CharMode.Session), (∀ b ∈ p, b ≠ 255) → s.closed = false →
      CharMode.process_buffer (p ++ rest) s =
        if (CharMode.process_buffer p s).closed then CharMode.process_buffer p s
        else CharMode.process_buffer rest (CharMode.process_buffer p s) := by
  induction p with
  | nil =>
    intro s _ hs
    simp [CharMode.process_buffer_nil, hs]
  | cons a t ih =>
    intro s hp hs
    have ha : a ≠ IAC := hp a (List.mem_cons_self _ _)
    have ht : ∀ b ∈ t, b ≠ 255 := fun b hb => hp b (List.mem_cons_of_mem _ hb)
    rw [List.cons_append, CharMode.process_buffer_data _ _ _ ha,
      CharMode.process_buffer_data _ _ _ ha]
    by_cases hc : (CharMode.handle_char a s).closed = true
    · simp [hc]
    · simp only [hc, if_false]
      exact ih _ ht (by simpa using hc)

/-- C11 (amended): in both servers, when a pair `IAC IAC` is split across two reads, the 0xFF
that ends the first read is discarded (the read is decoded as if it ended before that byte),
and the 0xFF that begins the second read is taken as the start of a command: together with the
byte `y` after it (`y` other than IAC, DO, DONT, WILL, WONT, SB) it is skipped as a two-byte
command and decoding resumes at the byte after `y`; when it is the only byte of the read it is
discarded as well. The pair yields no application byte. -/
theorem C11_split_iac_pair_is_dropped (p rest data : List Nat) (y : Nat)
    (ls : LineBinary.Session) (cs : CharMode.Session)
    (hp : ∀ b ∈ p, b ≠ 255)
    (hy : y ≠ IAC ∧ y ≠ DO ∧ y ≠ DONT ∧ y ≠ WILL ∧ y ≠ WONT ∧ y ≠ SB)
    (hopen : cs.closed = false) :
    LineBinary.decode (p ++ [IAC]) data ls = LineBinary.decode p data ls ∧
    LineBinary.decode (IAC :: y :: rest) data ls = LineBinary.decode rest data ls ∧
    LineBinary.decode [IAC] data ls = (data, ls) ∧
    CharMode.process_buffer (p ++ [IAC]) cs = CharMode.process_buffer p cs ∧
    CharMode.process_buffer (IAC :: y :: rest) cs = CharMode.process_buffer rest cs ∧
    CharMode.process_buffer [IAC] cs = cs := by
  have hcmd : ¬ (y = DO ∨ y = DONT ∨ y = WILL ∨ y = WONT) := by
    rintro (h | h | h | h)
    · exact hy.2.1 h
    · exact hy.2.2.1 h
    · exact hy.2.2.2.1 h
    · exact hy.2.2.2.2.1 h
  refine ⟨?_, LineBinary.decode_other y rest data ls hcmd hy.1 hy.2.2.2.2.2,
    LineBinary.decode_iac_end data ls, ?_,
    CharMode.process_buffer_other y rest cs hcmd hy.1, CharMode.process_buffer_iac_end cs⟩
  · rw [LineBinary.decode_plain p [IAC] data ls hp, LineBinary.decode_iac_end]
    have := LineBinary.decode_plain p [] data ls hp
    rw [List.append_nil, LineBinary.decode_nil] at this
    exact this.symm
  · rw [CharMode.process_buffer_plain_append p [IAC] cs hp hopen,
      CharMode.process_buffer_iac_end]
    simp

/-- Witness of C11: first read `a IAC`, second read `IAC b LF`. -/
theorem C11_split_iac_pair_is_dropped_witness :
    LineBinary.decode ([0x61] ++ [IAC]) [] LineBinary.start =
      LineBinary.decode [0x61] [] LineBinary.start ∧
    LineBinary.decode (IAC :: 0x62 :: [0x0A]) [] LineBinary.start =
      LineBinary.decode [0x0A] [] LineBinary.start ∧
    LineBinary.decode [IAC] [] LineBinary.start = ([], LineBinary.start) ∧
    CharMode.process_buffer ([0x61] ++ [IAC]) CharMode.start =
      CharMode.process_buffer [0x61] CharMode.start ∧
    CharMode.process_buffer (IAC :: 0x62 :: [0x0A]) CharMode.start =
      CharMode.process_buffer [0x0A] CharMode.start ∧
    CharMode.process_buffer [IAC] CharMode.start = CharMode.start :=
  C11_split_iac_pair_is_dropped [0x61] [0x0A] [] 0x62 LineBinary.start CharMode.start
    (by decide) (by decide) (by decide)

/-- C11 as stated fails in both servers: the reads `a FF` and `FF b` followed by the line end
are answered `ECHO: a` (the pair and the byte `b` after it are lost), while the same bytes in
one read are answered with the line `a FF b`. -/
theorem C11_counterexample :
    (LineBinary.handle_client [[0x61, 0xFF], [0xFF, 0x62, 0x0A]]).sent =
      LineBinary.start.sent ++ [bytes "ECHO: a\r\n"] ∧
    (LineBinary.handle_client [[0x61, 0xFF, 0xFF, 0x62, 0x0A]]).sent =
      LineBinary.start.sent ++ [bytes "ECHO: " ++ [0x61, 0xFF, 0x62] ++ bytes "\r\n"] ∧
    (CharMode.handle_client [[0x61, 0xFF], [0xFF, 0x62, 0x0D]]).sent =
      CharMode.start.sent ++ [[0x61], bytes "\r\n", bytes "ECHO: a\r\n"] ∧
    (CharMode.handle_client [[0x61, 0xFF, 0xFF, 0x62, 0x0D]]).sent =
      CharMode.start.sent ++ [[0x61], [0xFF], [0x62], bytes "\r\n",
        bytes "ECHO: " ++ [0x61, 0xFF, 0x62] ++ bytes "\r\n"] := by
  rw [LineBinary.handle_client_bounded_eq, LineBinary.handle_client_bounded_eq]
  decide

/-- C12, the code at a failing input: the subnegotiation frame `IAC SB LINEMODE` with payload
`FF F0 41` (escaped `FF FF F0 41`) and closing `IAC SE`, all in one read and followed by LF.
The scan for `IAC SE` stops at the escaped `FF` followed by `F0`, so the frame ends early: the
payload byte `41` is extracted as data, reaches the LineBuffer and is echoed as the line `A`.
A frame that is consumed as one unit would leave only the LF, and nothing would be written. -/
theorem C12_subneg_frame_ends_early :
    (LineBinary.decode [0xFF, 0xFA, 0x22, 0xFF, 0xFF, 0xF0, 0x41, 0xFF, 0xF0] []
      LineBinary.start).1 = [0x41] ∧
    LineBinary.subneg [0x22, 0xFF, 0xFF, 0xF0, 0x41, 0xFF, 0xF0] [] LineBinary.start =
      LineBinary.decode [0x41, 0xFF, 0xF0] [] LineBinary.start ∧
    (LineBinary.handle_client
      [[0xFF, 0xFA, 0x22, 0xFF, 0xFF, 0xF0, 0x41, 0xFF, 0xF0, 0x0A]]).sent =
      LineBinary.start.sent ++ [bytes "ECHO: A\r\n"] ∧
    (LineBinary.handle_client [[0x0A]]).sent = LineBinary.start.sent := by
  rw [LineBinary.handle_client_bounded_eq, LineBinary.handle_client_bounded_eq]
  decide

theorem count_iac_echo_message (c : List Nat) :
    List.count 0xFF (bytes "ECHO: " ++ c ++ bytes "\r\n") = List.count 0xFF c := by
  have h1 : List.count 0xFF (bytes "ECHO: ") = 0 := by decide
  have h2 : List.count 0xFF (bytes "\r\n") = 0 := by decide
  simp [List.count_append, h1, h2]

/-- C13 (amended): neither server escapes application data on output; every data byte equal to
IAC (0xFF) is written once, not doubled. In the character-mode server the keystroke 0xFF is
echoed as the single byte `FF`, and the reply to a line `c` is `"ECHO: " ++ c ++ "\r\n"` with
the bytes of `c` unchanged; in the line-binary server the reply to a line with content `c` is
`"ECHO: " ++ c ++ "\r\n"` with the bytes of `c` unchanged. (Lines are non-empty, without NUL
and other than `quit`.) -/
theorem C13_output_iac_not_doubled :
    (∀ (c : List Nat) (n : CharMode.telnet_negotiation_t) (w : List (List Nat)),
      c.length < 1023 →
      CharMode.handle_char 0xFF (CharMode.editing c n w) =
        CharMode.editing (c ++ [0xFF]) n (w ++ [[0xFF]])) ∧
    (∀ (c : List Nat) (n : CharMode.telnet_negotiation_t) (w : List (List Nat)),
      (∀ b ∈ c, b ≠ 0) → c ≠ [] → c ≠ bytes "quit" → c.length ≤ 1023 →
      CharMode.handle_char 13 (CharMode.editing c n w) =
        CharMode.editing [] n (w ++ [bytes "\r\n", bytes "ECHO: " ++ c ++ bytes "\r\n"]) ∧
      List.count 0xFF (bytes "ECHO: " ++ c ++ bytes "\r\n") = List.count 0xFF c) ∧
    (∀ (line : List Nat) (s : LineBinary.Session),
      (∀ b ∈ LineBinary.strip_line line, b ≠ 0) → LineBinary.strip_line line ≠ [] →
      LineBinary.strip_line line ≠ bytes "quit" → line.length ≤ 2048 →
      LineBinary.process_line line s =
        { s with sent := s.sent ++
            [bytes "ECHO: " ++ LineBinary.strip_line line ++ bytes "\r\n"] } ∧
      List.count 0xFF (bytes "ECHO: " ++ LineBinary.strip_line line ++ bytes "\r\n") =
        List.count 0xFF (LineBinary.strip_line line)) := by
  refine ⟨?_, ?_, ?_⟩
  · intro c n w hlen
    exact CharMode.handle_char_append 0xFF c n w (by decide) (by decide) hlen
  · intro c n w hz hne hq hlen
    exact ⟨CharMode.handle_char_cr_echo c n w hz hne hq hlen, count_iac_echo_message c⟩
  · intro line s hz hne hq hlen
    refine ⟨?_, count_iac_echo_message _⟩
    have := LineBinary.strip_line_length_le line
    exact LineBinary.process_line_echo line _ s rfl hne hz hq (by omega)

/-- Witness of C13: the edit buffer and the line `a FF`. -/
theorem C13_output_iac_not_doubled_witness :
    CharMode.handle_char 0xFF (CharMode.editing [0x61] CharMode.start.negotiation []) =
      CharMode.editing ([0x61] ++ [0xFF]) CharMode.start.negotiation ([] ++ [[0xFF]]) ∧
    CharMode.handle_char 13 (CharMode.editing [0x61, 0xFF] CharMode.start.negotiation []) =
      CharMode.editing [] CharMode.start.negotiation
        ([] ++ [bytes "\r\n", bytes "ECHO: " ++ [0x61, 0xFF] ++ bytes "\r\n"]) ∧
    LineBinary.process_line [0x61, 0xFF, 0x0A] LineBinary.start =
      { LineBinary.start with sent := LineBinary.start.sent ++
          [bytes "ECHO: " ++ LineBinary.strip_line [0x61, 0xFF, 0x0A] ++ bytes "\r\n"] } :=
  ⟨C13_output_iac_not_doubled.1 [0x61] CharMode.start.negotiation [] (by decide),
   (C13_output_iac_not_doubled.2.1 [0x61, 0xFF] CharMode.start.negotiation [] (by decide)
     (by decide) (by decide) (by decide)).1,
   (C13_output_iac_not_doubled.2.2 [0x61, 0xFF, 0x0A] LineBinary.start (by decide) (by decide)
     (by decide) (by decide)).1⟩

/-- C13 as stated fails in both servers: the application byte 0xFF (received as `IAC IAC`) is
echoed by the character-mode server as the single byte `FF` and appears once in its `ECHO:`
reply, and it appears once in the `ECHO:` reply of the line-binary server. -/
theorem C13_counterexample :
    (CharMode.handle_client [[0xFF, 0xFF, 0x0D]]).sent =
      CharMode.start.sent ++ [[0xFF], bytes "\r\n", bytes "ECHO: " ++ [0xFF] ++ bytes "\r\n"] ∧
    (LineBinary.handle_client [[0xFF, 0xFF, 0x0A]]).sent =
      LineBinary.start.sent ++ [bytes "ECHO: " ++ [0xFF] ++ bytes "\r\n"] := by
  rw [LineBinary.handle_client_bounded_eq]
  decide

theorem set_append_cons (c : List Nat) (x v : Nat) (t : List Nat) :
    (c ++ x :: t).set c.length v = c ++ v :: t := by
  induction c with
  | nil => simp
  | cons a r ih => simp [ih]

namespace CharMode

theorem handle_char_erase (bs : Nat) (c : List Nat) (x : Nat) (n : telnet_negotiation_t)
    (w : List (List Nat)) (hbs : bs = 8 ∨ bs = 127) (hlen : c.length + 1 ≤ 1023) :
    handle_char bs (editing (c ++ [x]) n w) = editing c n (w ++ [bytes "\x08 \x08"]) := by
  have h4 : bs ≠ 4 := by omega
  have h3 : bs ≠ 3 := by omega
  obtain ⟨k, hk⟩ : ∃ k, 1024 - (c.length + 1) = k := ⟨_, rfl⟩
  have hk1 : 1024 - c.length = k + 1 := by omega
  have e1 := set_append_cons c x 0 (List.replicate k 0)
  simp only [handle_char, editing, send, CTRL_D, CTRL_C, BACKSPACE, DEL, BUFFER_SIZE, h4, h3,
    hbs, if_false, if_true, List.length_append, List.length_singleton, hk, hk1,
    List.append_assoc, List.singleton_append, Nat.add_sub_cancel, gt_iff_lt, Nat.succ_pos,
    e1, List.replicate_succ]

theorem handle_char_erase_empty (bs : Nat) (n : telnet_negotiation_t) (w : List (List Nat))
    (hbs : bs = 8 ∨ bs = 127) :
    handle_char bs (editing [] n w) = editing [] n w := by
  have h4 : bs ≠ 4 := by omega
  have h3 : bs ≠ 3 := by omega
  simp [handle_char, editing, CTRL_D, CTRL_C, BACKSPACE, DEL, h4, h3, hbs]

/-- C14: in the character-mode server, starting from an empty edit buffer, for every `k` with
`1 <= k <= 1023` and every `k` printable bytes `p` (bytes from 32 on other than 127 and the
IAC byte) followed by byte 8 or byte 127, the edit buffer afterwards holds exactly the first
`k - 1` bytes and the last write is the 3 bytes `"\b \b"`, whether the erase byte comes in the
same read or in the next one; on an empty edit buffer a byte 8 or 127 changes nothing and
writes nothing. -/
theorem C14_backspace_erases_last (p : List Nat) (bs : Nat) (n : telnet_negotiation_t)
    (w : List (List Nat)) (hp : ∀ b ∈ p, 32 ≤ b ∧ b ≠ 127 ∧ b ≠ 255)
    (hk : p.length ≤ 1023) (hbs : bs = 8 ∨ bs = 127) :
    (p ≠ [] →
      handle_read [bs] (handle_read p (editing [] n w)) =
        editing p.dropLast n (w ++ p.map (fun b => [b]) ++ [bytes "\x08 \x08"])) ∧
    (p ≠ [] →
      handle_read (p ++ [bs]) (editing [] n w) =
        editing p.dropLast n (w ++ p.map (fun b => [b]) ++ [bytes "\x08 \x08"])) ∧
    handle_read [bs] (editing [] n w) = editing [] n w := by
  have hbs255 : bs ≠ IAC := by
    rcases hbs with h | h <;> simp [h, IAC]
  have hrun : ∀ rest, process_buffer (p ++ rest) (editing [] n w) =
      process_buffer rest (editing p n (w ++ p.map (fun b => [b]))) := by
    intro rest
    have := process_buffer_printables p rest [] n w hp (by simpa using hk)
    simpa using this
  have hlast : p ≠ [] → process_buffer [bs] (editing p n (w ++ p.map (fun b => [b]))) =
      editing p.dropLast n (w ++ p.map (fun b => [b]) ++ [bytes "\x08 \x08"]) := by
    intro hne
    obtain ⟨c, x, rfl⟩ : ∃ c x, p = c ++ [x] := by
      rcases List.eq_nil_or_concat p with h | ⟨c, x, h⟩
      · exact absurd h hne
      · exact ⟨c, x, by simpa using h⟩
    have hl : c.length + 1 ≤ 1023 := by simpa using hk
    rw [process_buffer_data _ _ _ hbs255, handle_char_erase bs c x n _ hbs hl]
    simp [editing, process_buffer_nil]
  refine ⟨?_, ?_, ?_⟩
  · intro hne
    have h1 : handle_read p (editing [] n w) = editing p n (w ++ p.map (fun b => [b])) := by
      have := hrun []
      simp only [List.append_nil, process_buffer_nil] at this
      simp [handle_read, editing, hne] at this ⊢
      exact this
    rw [h1]
    have h2 : handle_read [bs] (editing p n (w ++ p.map (fun b => [b]))) =
        process_buffer [bs] (editing p n (w ++ p.map (fun b => [b]))) := by
      simp [handle_read, editing]
    rw [h2, hlast hne]
  · intro hne
    have h1 : handle_read (p ++ [bs]) (editing [] n w) =
        process_buffer (p ++ [bs]) (editing [] n w) := by
      simp [handle_read, editing]
    rw [h1, hrun, hlast hne]
  · have h1 : handle_read [bs] (editing [] n w) = process_buffer [bs] (editing [] n w) := by
      simp [handle_read, editing]
    rw [h1, process_buffer_data _ _ _ hbs255, handle_char_erase_empty bs n w hbs]
    simp [editing, process_buffer_nil]

/-- Witness of C14: the bytes `ab` followed by backspace. -/
theorem C14_backspace_erases_last_witness :
    handle_read [8] (handle_read [0x61, 0x62] (editing [] start.negotiation [])) =
      editing [0x61] start.negotiation
        ([] ++ [0x61, 0x62].map (fun b => [b]) ++ [bytes "\x08 \x08"]) ∧
    handle_read ([0x61, 0x62] ++ [8]) (editing [] start.negotiation []) =
      editing [0x61] start.negotiation
        ([] ++ [0x61, 0x62].map (fun b => [b]) ++ [bytes "\x08 \x08"]) ∧
    handle_read [8] (editing [] start.negotiation []) = editing [] start.negotiation [] :=
  ⟨(C14_backspace_erases_last [0x61, 0x62] 8 start.negotiation [] (by decide) (by decide)
      (Or.inl rfl)).1 (by decide),
   (C14_backspace_erases_last [0x61, 0x62] 8 start.negotiation [] (by decide) (by decide)
      (Or.inl rfl)).2.1 (by decide),
   (C14_backspace_erases_last [0x61, 0x62] 8 start.negotiation [] (by decide) (by decide)
      (Or.inl rfl)).2.2⟩

end CharMode
namespace CharMode

theorem take_append_zeros (c : List Nat) (k : Nat) :
    (c ++ List.replicate k 0).take c.length = c := by
  simp

theorem no_nul_of_stored (c : List Nat) (hc : ∀ b ∈ c, 32 ≤ b ∧ b ≠ 127) : ∀ b ∈ c, b ≠ 0 :=
  fun b hb => by
    have := hc b hb
    omega

theorem handle_char_edit (ch : Nat) (s : Session) (h : edit_inv s) :
    edit_inv (handle_char ch s) ∧ (handle_char ch s).input_pos = next_input_pos ch s := by
  obtain ⟨c, hlen, hc, hl, hp⟩ := h
  cases s with
  | mk il ip n w cl =>
    simp only at hl hp
    subst hl hp
    have hz := no_nul_of_stored c hc
    have hcs : cstr (c ++ List.replicate (BUFFER_SIZE - c.length) 0) = c :=
      cstr_append_zeros c _ hz
    have htk : (c ++ List.replicate (BUFFER_SIZE - c.length) 0).take c.length = c :=
      take_append_zeros c _
    by_cases h4 : ch = 4
    · subst h4
      refine ⟨⟨c, hlen, hc, ?_, ?_⟩, ?_⟩ <;>
        simp [handle_char, send, next_input_pos, CTRL_D]
    by_cases h3 : ch = 3
    · subst h3
      refine ⟨⟨[], by simp, by simp, ?_, ?_⟩, ?_⟩ <;>
        simp [handle_char, send, next_input_pos, CTRL_D, CTRL_C]
    by_cases h8 : ch = 8 ∨ ch = 127
    · rcases List.eq_nil_or_concat c with hnil | ⟨c', x, hcx⟩
      · subst hnil
        refine ⟨⟨[], by simp, by simp, ?_, ?_⟩, ?_⟩ <;>
          simp [handle_char, send, next_input_pos, CTRL_D, CTRL_C, BACKSPACE, DEL, h4, h3, h8]
      · have hcx' : c = c' ++ [x] := by simpa using hcx
        subst hcx'
        have hl' : c'.length + 1 ≤ 1023 := by simpa using hlen
        obtain ⟨k, hk⟩ : ∃ k, BUFFER_SIZE - (c'.length + 1) = k := ⟨_, rfl⟩
        have hk1 : BUFFER_SIZE - c'.length = k + 1 := by
          simp only [BUFFER_SIZE] at hk ⊢; omega
        have e1 := set_append_cons c' x 0 (List.replicate k 0)
        refine ⟨⟨c', by omega, fun b hb => hc b (by simp [hb]), ?_, ?_⟩, ?_⟩ <;>
          simp [handle_char, send, next_input_pos, CTRL_D, CTRL_C, BACKSPACE, DEL, h4, h3, h8,
            hk, hk1, e1, List.replicate_succ]
    by_cases h13 : ch = 13 ∨ ch = 10
    · by_cases hq : c = bytes "quit"
      · have hpos : 0 < c.length := by rw [hq]; decide
        refine ⟨⟨c, hlen, hc, ?_, ?_⟩, ?_⟩ <;>
          (simp only [handle_char, send, next_input_pos, CTRL_D, CTRL_C, BACKSPACE, DEL, h4, h3,
            h8, h13, if_false, if_true]
           split_ifs <;> simp_all)
      · refine ⟨⟨[], by simp, by simp, ?_, ?_⟩, ?_⟩ <;>
          (simp only [handle_char, send, next_input_pos, CTRL_D, CTRL_C, BACKSPACE, DEL, h4, h3,
            h8, h13, if_false, if_true]
           split_ifs <;> simp_all)
    by_cases h32 : 32 ≤ ch
    · by_cases hfull : c.length < 1023
      · have h127 : ch ≠ 127 := fun h => h8 (Or.inr h)
        obtain ⟨k, hk⟩ : ∃ k, 1024 - c.length = k + 2 := ⟨1022 - c.length, by omega⟩
        have hk1 : 1024 - (c.length + 1) = k + 1 := by omega
        have e1 := set_append_zeros c (k + 1) ch
        have e2 := set_zero_append_zeros (c ++ [ch]) k
        simp only [List.length_append, List.length_singleton, List.append_assoc,
          List.singleton_append] at e2
        refine ⟨⟨c ++ [ch], by simp; omega, ?_, ?_, ?_⟩, ?_⟩
        · intro b hb
          rcases List.mem_append.mp hb with hb | hb
          · exact hc b hb
          · simp only [List.mem_singleton] at hb
            subst hb
            exact ⟨h32, h127⟩
        all_goals
          simp [handle_char, send, next_input_pos, CTRL_D, CTRL_C, BACKSPACE, DEL, BUFFER_SIZE,
            h4, h3, h8, h13, h32, hfull, hk, hk1, e1, e2]
      · refine ⟨⟨c, hlen, hc, ?_, ?_⟩, ?_⟩ <;>
          simp [handle_char, send, next_input_pos, CTRL_D, CTRL_C, BACKSPACE, DEL, BUFFER_SIZE,
            h4, h3, h8, h13, h32, hfull]
    · refine ⟨⟨c, hlen, hc, ?_, ?_⟩, ?_⟩ <;>
        simp [handle_char, send, next_input_pos, CTRL_D, CTRL_C, BACKSPACE, DEL, BUFFER_SIZE,
          h4, h3, h8, h13, h32]

theorem negotiate_edit (cmd opt : Nat) (s : Session) :
    (negotiate cmd opt s).input_line = s.input_line ∧
    (negotiate cmd opt s).input_pos = s.input_pos := by
  simp only [negotiate, respond, check_ready, send_telnet_option, send]
  split_ifs <;> exact ⟨rfl, rfl⟩

theorem edit_inv_start : edit_inv start :=
  ⟨[], by decide, by simp, by decide, by decide⟩

theorem edit_inv_handle_client (reads : List (List Nat)) : edit_inv (handle_client reads) :=
  foldl_preserves edit_inv _
    (fun s b h => handle_read_preserves edit_inv
      (fun ch s h => (handle_char_edit ch s h).1)
      (fun cmd opt s h => by
        obtain ⟨c, h1, h2, h3, h4⟩ := h
        exact ⟨c, h1, h2, by rw [(negotiate_edit cmd opt s).1]; exact h3,
          by rw [(negotiate_edit cmd opt s).2]; exact h4⟩)
      (fun _ h => h) b s h) reads start edit_inv_start

theorem edit_inv_explicit (s : Session) (h : edit_inv s) :
    s.input_pos ≤ 1023 ∧ s.input_line.length = 1024 ∧ s.input_line.getD s.input_pos 1 = 0 ∧
    (∀ i, i < s.input_pos → 32 ≤ s.input_line.getD i 0 ∧ s.input_line.getD i 0 ≠ 127) := by
  obtain ⟨c, hlen, hc, hl, hp⟩ := h
  rw [hl, hp]
  refine ⟨hlen, by simp [BUFFER_SIZE]; omega, ?_, ?_⟩
  · rw [List.getD_append_right _ _ _ _ (le_refl _)]
    simp only [Nat.sub_self, BUFFER_SIZE]
    obtain ⟨k, hk⟩ : ∃ k, 1024 - c.length = k + 1 := ⟨1023 - c.length, by omega⟩
    rw [hk]
    simp [List.replicate_succ]
  · intro i hi
    rw [List.getD_append _ _ _ _ hi, List.getD_eq_getElem _ _ hi]
    exact hc _ (List.getElem_mem _)

/-- C15: for every sequence of reads the character-mode server keeps `input_pos` at most 1023,
`input_line[input_pos]` equal to 0 and every stored byte `input_line[0 .. input_pos)` at least
32 and other than 127; the handling of one application byte keeps this shape of the edit
buffer and changes `input_pos` by `next_input_pos`: plus one when a byte from 32 on (other than
127) is stored, which needs `input_pos < 1023`; minus one on BS or DEL when `input_pos > 0`;
to 0 on Ctrl+C and on a CR or LF that does not end the session (the buffer is not `quit`);
unchanged in every other case. -/
theorem C15_edit_buffer_invariant :
    (∀ reads : List (List Nat),
      (handle_client reads).input_pos ≤ 1023 ∧
      (handle_client reads).input_line.length = 1024 ∧
      (handle_client reads).input_line.getD (handle_client reads).input_pos 1 = 0 ∧
      (∀ i, i < (handle_client reads).input_pos →
        32 ≤ (handle_client reads).input_line.getD i 0 ∧
        (handle_client reads).input_line.getD i 0 ≠ 127)) ∧
    (∀ reads : List (List Nat), edit_inv (handle_client reads)) ∧
    (∀ (ch : Nat) (s : Session), edit_inv s →
      edit_inv (handle_char ch s) ∧
      (handle_char ch s).input_pos =
        (if ch = 4 then s.input_pos
         else if ch = 3 then 0
         else if ch = 8 ∨ ch = 127 then
           (if s.input_pos > 0 then s.input_pos - 1 else s.input_pos)
         else if ch = 13 ∨ ch = 10 then
           (if s.input_line.take s.input_pos = bytes "quit" then s.input_pos else 0)
         else if 32 ≤ ch then (if s.input_pos < 1023 then s.input_pos + 1 else s.input_pos)
         else s.input_pos)) :=
  ⟨fun reads => edit_inv_explicit _ (edit_inv_handle_client reads),
   edit_inv_handle_client,
   fun ch s h => handle_char_edit ch s h⟩

/-- Witness of C15: the session after the read `ab`, and the byte `c` handled next. -/
theorem C15_edit_buffer_invariant_witness :
    ((handle_client [[0x61, 0x62]]).input_pos ≤ 1023 ∧
      (handle_client [[0x61, 0x62]]).input_line.length = 1024 ∧
      (handle_client [[0x61, 0x62]]).input_line.getD (handle_client [[0x61, 0x62]]).input_pos 1
        = 0 ∧
      (∀ i, i < (handle_client [[0x61, 0x62]]).input_pos →
        32 ≤ (handle_client [[0x61, 0x62]]).input_line.getD i 0 ∧
        (handle_client [[0x61, 0x62]]).input_line.getD i 0 ≠ 127)) ∧
    edit_inv (handle_char 0x63 (handle_client [[0x61, 0x62]])) :=
  ⟨C15_edit_buffer_invariant.1 [[0x61, 0x62]],
   (C15_edit_buffer_invariant.2.2 0x63 (handle_client [[0x61, 0x62]])
     (C15_edit_buffer_invariant.2.1 [[0x61, 0x62]])).1⟩

theorem handle_char_newline (ch : Nat) (s : Session) (hch : ch = 13 ∨ ch = 10)
    (hinv : edit_inv s) :
    handle_char ch s =
      if s.input_line.take s.input_pos = bytes "quit" then
        { s with
          sent := s.sent ++ (if ch = 13 then [bytes "\r\n"] else []) ++ [bytes "Goodbye!\r\n"],
          closed := true }
      else
        { s with
          sent := s.sent ++ (if ch = 13 then [bytes "\r\n"] else []) ++
            (if s.input_pos > 0 then
              [bytes "ECHO: " ++ s.input_line.take s.input_pos ++ bytes "\r\n"] else []),
          input_pos := 0,
          input_line := List.replicate BUFFER_SIZE 0 } := by
  obtain ⟨c, hlen, hc, hl, hp⟩ := hinv
  cases s with
  | mk il ip n w cl =>
    simp only at hl hp
    subst hl hp
    have hz := no_nul_of_stored c hc
    have hcs : cstr (c ++ List.replicate (BUFFER_SIZE - c.length) 0) = c :=
      cstr_append_zeros c _ hz
    have htk : (c ++ List.replicate (BUFFER_SIZE - c.length) 0).take c.length = c :=
      take_append_zeros c _
    have h4 : ch ≠ 4 := by omega
    have h3 : ch ≠ 3 := by omega
    have h8 : ¬ (ch = 8 ∨ ch = 127) := by omega
    have h6 : (bytes "ECHO: ").length = 6 := by decide
    have h2 : (bytes "\r\n").length = 2 := by decide
    have hfit : (bytes "ECHO: " ++ c ++ bytes "\r\n").length ≤ BUFFER_SIZE + 20 - 1 := by
      simp only [List.length_append, h6, h2, BUFFER_SIZE]; omega
    simp only [htk]
    by_cases hq : c = bytes "quit"
    · subst hq
      have hpos : 0 < (bytes "quit").length := by decide
      rcases hch with rfl | rfl <;>
        simp [handle_char, send, CTRL_D, CTRL_C, BACKSPACE, DEL, hcs, hpos]
    · by_cases hpos : 0 < c.length
      · rcases hch with rfl | rfl <;>
          (simp [handle_char, send, CTRL_D, CTRL_C, BACKSPACE, DEL, hcs, hq, hpos, snprintf]
           simp only [h6, h2, BUFFER_SIZE]
           omega)
      · rcases hch with rfl | rfl <;>
          simp [handle_char, send, CTRL_D, CTRL_C, BACKSPACE, DEL, hcs, hq, hpos]

/-- C16: in the character-mode server, for every session whose edit buffer has the shape that
all reachable states have (`edit_inv`, kept by every read) and that is still open, an
application byte CR or LF ends the session if and only if the edit buffer holds exactly the 4
bytes `quit`. In that case the server writes `"\r\n"` then `"Goodbye!\r\n"` on CR and
`"Goodbye!\r\n"` alone on LF, and no further byte of the read is handled; otherwise it writes
no `Goodbye!`, only the line feed of a CR and the echo of a non-empty line. -/
theorem C16_quit_recognition (ch : Nat) (s : Session) (rest : List Nat)
    (hch : ch = 13 ∨ ch = 10) (hinv : edit_inv s) (hopen : s.closed = false) :
    ((handle_char ch s).closed = true ↔ s.input_line.take s.input_pos = bytes "quit") ∧
    (s.input_line.take s.input_pos = bytes "quit" →
      (ch = 13 → (handle_char ch s).sent = s.sent ++ [bytes "\r\n", bytes "Goodbye!\r\n"]) ∧
      (ch = 10 → (handle_char ch s).sent = s.sent ++ [bytes "Goodbye!\r\n"]) ∧
      process_buffer (ch :: rest) s = handle_char ch s) ∧
    (s.input_line.take s.input_pos ≠ bytes "quit" →
      (handle_char ch s).sent =
        s.sent ++ (if ch = 13 then [bytes "\r\n"] else []) ++
          (if s.input_pos > 0 then
            [bytes "ECHO: " ++ s.input_line.take s.input_pos ++ bytes "\r\n"] else [])) := by
  have hiac : ch ≠ IAC := by
    rcases hch with h | h <;> simp [h, IAC]
  have hn := handle_char_newline ch s hch hinv
  refine ⟨?_, ?_, ?_⟩
  · by_cases hq : s.input_line.take s.input_pos = bytes "quit"
    · rw [hn, if_pos hq]
      simp [hq]
    · rw [hn, if_neg hq]
      simp [hq, hopen]
  · intro hq
    rw [if_pos hq] at hn
    refine ⟨?_, ?_, ?_⟩
    · intro h13
      rw [hn]
      simp [h13]
    · intro h10
      rw [hn]
      simp [h10]
    · rw [process_buffer_data _ _ _ hiac, hn]
      simp
  · intro hq
    rw [if_neg hq] at hn
    rw [hn]

/-- Witness of C16: the session after the read `quit`, then CR. -/
theorem C16_quit_recognition_witness :
    ((handle_char 13 (handle_client [bytes "quit"])).closed = true ↔
      (handle_client [bytes "quit"]).input_line.take (handle_client [bytes "quit"]).input_pos =
        bytes "quit") ∧
    (handle_char 13 (handle_client [bytes "quit"])).sent =
      (handle_client [bytes "quit"]).sent ++ [bytes "\r\n", bytes "Goodbye!\r\n"] :=
  ⟨(C16_quit_recognition 13 (handle_client [bytes "quit"]) [] (Or.inl rfl)
      (edit_inv_handle_client _) (by decide)).1,
   ((C16_quit_recognition 13 (handle_client [bytes "quit"]) [] (Or.inl rfl)
      (edit_inv_handle_client _) (by decide)).2.1 (by decide)).1 rfl⟩

/-- C17: in the character-mode server, for every state of the edit buffer, an application byte
4 (Ctrl+D) makes the server write exactly `"\r\nGoodbye!\r\n"` and end the session, leaving
everything else as it was; the bytes `rest` that follow it in the same read are not handled
(whatever they are, the result is the same), and no later read changes the session. -/
theorem C17_ctrl_d_ends_session (rest more : List Nat) (s : Session) (hopen : s.closed = false) :
    handle_read (4 :: rest) s =
      { s with sent := s.sent ++ [bytes "\r\nGoodbye!\r\n"], closed := true } ∧
    process_buffer (4 :: rest) s =
      { s with sent := s.sent ++ [bytes "\r\nGoodbye!\r\n"], closed := true } ∧
    handle_read more (handle_read (4 :: rest) s) = handle_read (4 :: rest) s := by
  have h1 : process_buffer (4 :: rest) s =
      { s with sent := s.sent ++ [bytes "\r\nGoodbye!\r\n"], closed := true } := by
    rw [process_buffer_data _ _ _ (by decide)]
    simp [handle_char, send, CTRL_D]
  have h2 : handle_read (4 :: rest) s = process_buffer (4 :: rest) s := by
    simp [handle_read, hopen]
  refine ⟨by rw [h2, h1], h1, ?_⟩
  rw [h2, h1]
  simp [handle_read]

/-- Witness of C17: Ctrl+D followed by `IAC DO ECHO` and `a`, on the session after the
prelude. -/
theorem C17_ctrl_d_ends_session_witness :
    handle_read (4 :: [255, 253, 1, 0x61]) start =
      { start with sent := start.sent ++ [bytes "\r\nGoodbye!\r\n"], closed := true } ∧
    process_buffer (4 :: [255, 253, 1, 0x61]) start =
      { start with sent := start.sent ++ [bytes "\r\nGoodbye!\r\n"], closed := true } ∧
    handle_read [0x62] (handle_read (4 :: [255, 253, 1, 0x61]) start) =
      handle_read (4 :: [255, 253, 1, 0x61]) start :=
  C17_ctrl_d_ends_session [255, 253, 1, 0x61] [0x62] start (by decide)

end CharMode

namespace LineBinary

theorem find_line_ending_none (buf : List Nat) (len : Nat)
    (h : ∀ b ∈ buf, b ≠ 13 ∧ b ≠ 10) : find_line_ending buf len = -1 := by
  unfold find_line_ending
  exact find_line_ending_loop_none _ (fun b hb => h b (List.mem_of_mem_take hb)) 0

theorem handle_read_accumulate (p : List Nat) (s : Session) (hopen : s.closed = false)
    (hne : p ≠ []) (hplain : ∀ b ∈ p, b ≠ 255 ∧ b ≠ 13 ∧ b ≠ 10)
    (hbuf : ∀ b ∈ s.line_buf, b ≠ 13 ∧ b ≠ 10)
    (hfit : s.line_buf.length + p.length ≤ 2048) :
    handle_read p s = { s with line_buf := s.line_buf ++ p } := by
  rw [handle_read_open _ _ hopen hne, decode_all_plain _ _ (fun b hb => (hplain b hb).1)]
  simp only []
  rw [append_data_fits _ _ hne hfit]
  apply extract_lines_done
  rw [find_line_ending_none]
  · decide
  · intro b hb
    rcases List.mem_append.mp hb with h | h
    · exact hbuf b h
    · exact (hplain b h).2

theorem handle_client_three (a b c : List Nat) :
    handle_client [a, b, c] = handle_read c (handle_read b (handle_read a start)) := rfl

/-- C18 as stated fails: after the three reads of 1023, 1023 and 2 bytes `a` (no line end) the
LineBuffer holds 2048 bytes, one more than 2047; the overflow test only rejects what does not
fit in the 2048 bytes of `line_buf`. -/
theorem C18_counterexample :
    (handle_client
      [List.replicate 1023 0x61, List.replicate 1023 0x61, List.replicate 2 0x61]).line_buf
      = List.replicate 2048 0x61 ∧
    ¬ (handle_client
      [List.replicate 1023 0x61, List.replicate 1023 0x61, List.replicate 2 0x61]).line_buf.length
      ≤ 2047 := by
  have hrep : ∀ k, ∀ b ∈ List.replicate k 0x61, b ≠ 255 ∧ b ≠ 13 ∧ b ≠ 10 := by
    intro k b hb
    rw [List.eq_of_mem_replicate hb]
    decide
  have hrep' : ∀ k, ∀ b ∈ List.replicate k 0x61, b ≠ 13 ∧ b ≠ 10 :=
    fun k b hb => (hrep k b hb).2
  have hne : ∀ k, 0 < k → List.replicate k 0x61 ≠ [] := by
    intro k hk h
    have := congrArg List.length h
    rw [List.length_replicate] at this
    simp at this
    omega
  have hs : start.line_buf = [] := by decide
  have h1 : handle_read (List.replicate 1023 0x61) start =
      { start with line_buf := List.replicate 1023 0x61 } := by
    rw [handle_read_accumulate _ start (by decide) (hne _ (by omega)) (hrep 1023)
      (by rw [hs]; simp) (by rw [hs, List.length_replicate]; simp)]
    rw [hs, List.nil_append]
  have h2 : handle_read (List.replicate 1023 0x61)
      { start with line_buf := List.replicate 1023 0x61 } =
      { start with line_buf := List.replicate 2046 0x61 } := by
    rw [handle_read_accumulate _ _ rfl (hne _ (by omega)) (hrep 1023) (hrep' 1023)
      (by
        show (List.replicate 1023 0x61).length + (List.replicate 1023 0x61).length ≤ 2048
        rw [List.length_replicate]
        omega)]
    show ({ start with line_buf := List.replicate 1023 0x61 ++ List.replicate 1023 0x61 }
      : Session) = _
    rw [← List.replicate_add]
  have h3 : handle_read (List.replicate 2 0x61)
      { start with line_buf := List.replicate 2046 0x61 } =
      { start with line_buf := List.replicate 2048 0x61 } := by
    rw [handle_read_accumulate _ _ rfl (hne _ (by omega)) (hrep 2) (hrep' 2046)
      (by
        show (List.replicate 2046 0x61).length + (List.replicate 2 0x61).length ≤ 2048
        rw [List.length_replicate, List.length_replicate])]
    show ({ start with line_buf := List.replicate 2046 0x61 ++ List.replicate 2 0x61 }
      : Session) = _
    rw [← List.replicate_add]
  rw [handle_client_three, h1, h2, h3]
  show List.replicate 2048 0x61 = List.replicate 2048 0x61 ∧
    ¬ (List.replicate 2048 0x61).length ≤ 2047
  rw [List.length_replicate]
  exact ⟨rfl, by omega⟩

theorem negotiate_line_buf (cmd opt : Nat) (s : Session) :
    (negotiate cmd opt s).line_buf = s.line_buf ∧ (negotiate cmd opt s).closed = s.closed := by
  simp only [negotiate, respond, check_ready, send_telnet_option, send]
  split_ifs <;> exact ⟨rfl, rfl⟩

theorem decode_line_buf (buf data : List Nat) (s : Session) :
    (decode buf data s).2.line_buf = s.line_buf ∧ (decode buf data s).2.closed = s.closed :=
  (decode_preserves (fun t => t.line_buf = s.line_buf ∧ t.closed = s.closed)
    (fun cmd opt t h => by
      obtain ⟨h1, h2⟩ := negotiate_line_buf cmd opt t
      exact ⟨h1.trans h.1, h2.trans h.2⟩)
    _ buf data s (le_refl _) ⟨rfl, rfl⟩).1

theorem decode_data_length :
    ∀ (k : Nat) (buf data : List Nat) (s : Session), buf.length ≤ k →
      (decode buf data s).1.length ≤ data.length + buf.length ∧
      (subneg buf data s).1.length ≤ data.length + buf.length := by
  intro k
  induction k with
  | zero =>
    intro buf data s hk
    have : buf = [] := List.length_eq_zero.mp (by omega)
    subst this
    rw [decode_nil, subneg_short _ _ _ (by simp)]
    simp
  | succ k ih =>
    intro buf data s hk
    constructor
    · rcases buf with _ | ⟨b, rest⟩
      · rw [decode_nil]; simp
      · simp only [List.length_cons] at hk ⊢
        by_cases hb : b = IAC
        · subst hb
          rcases rest with _ | ⟨cmd, rest1⟩
          · rw [decode_iac_end]; simp
          · simp only [List.length_cons] at hk ⊢
            by_cases hiac : cmd = IAC
            · subst hiac
              rw [show IAC = 255 from rfl, decode_iac_iac]
              have := (ih rest1 (data ++ [255]) s (by omega)).1
              simp only [List.length_append, List.length_singleton] at this
              omega
            · by_cases hcmd : cmd = DO ∨ cmd = DONT ∨ cmd = WILL ∨ cmd = WONT
              · rcases rest1 with _ | ⟨opt, rest2⟩
                · rw [decode_option_truncated _ _ _ hcmd]; simp
                · rw [decode_option _ _ _ _ _ hcmd]
                  simp only [List.length_cons] at hk ⊢
                  have := (ih rest2 data (negotiate cmd opt s) (by omega)).1
                  omega
              · by_cases hsb : cmd = SB
                · subst hsb
                  rw [decode_subneg]
                  have := (ih rest1 data s (by omega)).2
                  omega
                · rw [decode_other _ _ _ _ hcmd hiac hsb]
                  have := (ih rest1 data s (by omega)).1
                  omega
        · rw [decode_data _ _ _ _ hb]
          have := (ih rest (data ++ [b]) s (by omega)).1
          simp only [List.length_append, List.length_singleton] at this
          omega
    · rcases buf with _ | ⟨b, _ | ⟨c, rest⟩⟩
      · rw [subneg_short _ _ _ (by simp)]; simp
      · rw [subneg_short _ _ _ (by simp)]; simp
      · simp only [List.length_cons] at hk ⊢
        rw [subneg_cons]
        split_ifs
        · have := (ih rest data s (by omega)).1
          omega
        · have := (ih (c :: rest) data s (by simp; omega)).2
          simp only [List.length_cons] at this
          omega

theorem process_line_line_buf (line : List Nat) (s : Session) :
    (process_line line s).line_buf = s.line_buf := by
  simp only [process_line, send]
  split_ifs <;> rfl

theorem extract_lines_length_le :
    ∀ (k : Nat) (s : Session), s.line_buf.length ≤ k →
      (extract_lines s).line_buf.length ≤ s.line_buf.length := by
  intro k
  induction k with
  | zero =>
    intro s hk
    have h0 : s.line_buf = [] := List.length_eq_zero.mp (by omega)
    rw [extract_lines_done s (by rw [h0, find_line_ending_nil]; decide)]
  | succ k ih =>
    intro s hk
    by_cases hpos : find_line_ending s.line_buf
        (s.line_len - check_incomplete_utf8 s.line_buf s.line_len) ≤ 0
    · rw [extract_lines_done s hpos]
    · obtain ⟨j, hj⟩ : ∃ j : Nat, find_line_ending s.line_buf
          (s.line_len - check_incomplete_utf8 s.line_buf s.line_len) = (j : Int) :=
        ⟨_, (Int.toNat_of_nonneg (by omega)).symm⟩
      have hj0 : 0 < j := by
        rw [hj] at hpos
        omega
      rw [extract_lines_step s j hj0 hj]
      split_ifs
      · rw [process_line_line_buf]
      · refine le_trans (ih _ (by simp only [List.length_drop]; omega)) ?_
        simp only [List.length_drop]
        omega

theorem handle_read_length (buffer : List Nat) (s : Session) (hb : buffer.length ≤ 1023)
    (hs : s.line_buf.length ≤ 2048) : (handle_read buffer s).line_buf.length ≤ 2048 := by
  unfold handle_read
  split_ifs
  · exact hs
  · exact hs
  · refine le_trans (extract_lines_length_le _ _ (le_refl _)) ?_
    have hd := (decode_data_length _ buffer [] s (le_refl _)).1
    have hl := (decode_line_buf buffer [] s).1
    simp only [List.length_nil, Nat.zero_add] at hd
    unfold append_data
    split_ifs with h1 h2
    · show (decode buffer [] s).1.length ≤ 2048
      omega
    · simp only [Session.line_len, BUFFER_SIZE] at h2
      show ((decode buffer [] s).2.line_buf ++ (decode buffer [] s).1).length ≤ 2048
      rw [List.length_append]
      omega
    · rw [hl]; exact hs

theorem handle_reads_length (reads : List (List Nat)) :
    ∀ s : Session, (∀ r ∈ reads, r.length ≤ 1023) → s.line_buf.length ≤ 2048 →
      (reads.foldl (fun s buffer => handle_read buffer s) s).line_buf.length ≤ 2048 := by
  induction reads with
  | nil => intro s _ hs; exact hs
  | cons r t ih =>
    intro s hr hs
    exact ih _ (fun x hx => hr x (List.mem_cons_of_mem _ hx))
      (handle_read_length r s (hr r (List.mem_cons_self _ _)) hs)

/-- C18 (amended): in the line-binary server, for every sequence of reads (each carrying at
most 1023 bytes), the number of bytes held in the LineBuffer never exceeds 2048, the size of
`line_buf`. -/
theorem C18_line_buffer_bound (reads : List (List Nat)) (hr : ∀ r ∈ reads, r.length ≤ 1023) :
    (handle_client reads).line_buf.length ≤ 2048 :=
  handle_reads_length reads start hr (by decide)

/-- Witness of C18: two reads without a line end. -/
theorem C18_line_buffer_bound_witness :
    (handle_client [[0x61, 0x62], [0x63]]).line_buf.length ≤ 2048 :=
  C18_line_buffer_bound [[0x61, 0x62], [0x63]] (by decide)

theorem negotiate_with_line_buf (cmd opt : Nat) (s : Session) (l : List Nat) :
    negotiate cmd opt { s with line_buf := l } = { negotiate cmd opt s with line_buf := l } := by
  have hr : respond cmd opt { s with line_buf := l } =
      { respond cmd opt s with line_buf := l } := by
    by_cases hcmd : cmd = DO ∨ cmd = DONT ∨ cmd = WILL ∨ cmd = WONT
    · rw [lb_respond_eq _ _ _ hcmd, lb_respond_eq _ _ _ hcmd]
    · rw [lb_respond_other _ _ _ hcmd, lb_respond_other _ _ _ hcmd]
  have hc : ∀ t : Session, check_ready { t with line_buf := l } =
      { check_ready t with line_buf := l } := by
    intro t
    simp only [check_ready, send]
    split_ifs <;> rfl
  unfold negotiate
  rw [hr, hc]

theorem decode_with_line_buf (l : List Nat) :
    ∀ (k : Nat) (buf data : List Nat) (s : Session), buf.length ≤ k →
      decode buf data { s with line_buf := l } =
        ((decode buf data s).1, { (decode buf data s).2 with line_buf := l }) ∧
      subneg buf data { s with line_buf := l } =
        ((subneg buf data s).1, { (subneg buf data s).2 with line_buf := l }) := by
  intro k
  induction k with
  | zero =>
    intro buf data s hk
    have : buf = [] := List.length_eq_zero.mp (by omega)
    subst this
    rw [decode_nil, decode_nil, subneg_short _ _ _ (show ([] : List Nat).length ≤ 1 by simp),
      subneg_short _ _ _ (show ([] : List Nat).length ≤ 1 by simp)]
    exact ⟨rfl, rfl⟩
  | succ k ih =>
    intro buf data s hk
    constructor
    · rcases buf with _ | ⟨b, rest⟩
      · simp only [decode_nil]
      · simp only [List.length_cons] at hk
        by_cases hb : b = IAC
        · subst hb
          rcases rest with _ | ⟨cmd, rest1⟩
          · simp only [decode_iac_end]
          · simp only [List.length_cons] at hk
            by_cases hiac : cmd = IAC
            · subst hiac
              rw [show IAC = 255 from rfl, decode_iac_iac, decode_iac_iac]
              exact (ih rest1 _ s (by omega)).1
            · by_cases hcmd : cmd = DO ∨ cmd = DONT ∨ cmd = WILL ∨ cmd = WONT
              · rcases rest1 with _ | ⟨opt, rest2⟩
                · simp only [decode_option_truncated _ _ _ hcmd]
                · rw [decode_option _ _ _ _ _ hcmd, decode_option _ _ _ _ _ hcmd,
                    negotiate_with_line_buf]
                  simp only [List.length_cons] at hk
                  exact (ih rest2 _ _ (by omega)).1
              · by_cases hsb : cmd = SB
                · subst hsb
                  rw [decode_subneg, decode_subneg]
                  exact (ih rest1 _ s (by omega)).2
                · rw [decode_other _ _ _ _ hcmd hiac hsb, decode_other _ _ _ _ hcmd hiac hsb]
                  exact (ih rest1 _ s (by omega)).1
        · rw [decode_data _ _ _ _ hb, decode_data _ _ _ _ hb]
          exact (ih rest _ s (by omega)).1
    · rcases buf with _ | ⟨b, _ | ⟨c, rest⟩⟩
      · simp only [subneg_short _ _ _ (show ([] : List Nat).length ≤ 1 by simp)]
      · simp only [subneg_short _ _ _ (show [b].length ≤ 1 by simp)]
      · simp only [List.length_cons] at hk
        rw [subneg_cons, subneg_cons]
        split_ifs
        · exact (ih rest _ s (by omega)).1
        · exact (ih (c :: rest) _ s (by simp; omega)).2

/-- C19: in the line-binary server, when the application bytes `data` extracted from a read do
not fit on top of the bytes already accumulated (`line_len + data_len > 2048`), the append
discards the accumulated bytes: the LineBuffer then holds exactly `data`, nothing else of the
session changes and the session stays open; the read is then processed, and leaves the session,
exactly as if the LineBuffer had been empty when the read arrived, so the following reads are
processed as usual. -/
theorem C19_overflow_discards_accumulated (buffer : List Nat) (s : Session)
    (hopen : s.closed = false) (hb : buffer ≠ []) (hlen : buffer.length ≤ 1023)
    (hs : s.line_buf.length ≤ 2048)
    (hov : s.line_buf.length + (decode buffer [] s).1.length > 2048) :
    append_data (decode buffer [] s).1 (decode buffer [] s).2 =
      { (decode buffer [] s).2 with line_buf := (decode buffer [] s).1 } ∧
    (append_data (decode buffer [] s).1 (decode buffer [] s).2).closed = false ∧
    handle_read buffer s = handle_read buffer { s with line_buf := [] } := by
  have hl := decode_line_buf buffer [] s
  have hd := (decode_data_length _ buffer [] s (le_refl _)).1
  simp only [List.length_nil, Nat.zero_add] at hd
  have hpos : (decode buffer [] s).1.length > 0 := by omega
  have h1 : append_data (decode buffer [] s).1 (decode buffer [] s).2 =
      { (decode buffer [] s).2 with line_buf := (decode buffer [] s).1 } := by
    have hov' : (decode buffer [] s).2.line_buf.length + (decode buffer [] s).1.length
        > 2 * 1024 := by rw [hl.1]; omega
    simp [append_data, Session.line_len, BUFFER_SIZE, hpos, hov']
  refine ⟨h1, ?_, ?_⟩
  · rw [h1]
    exact hl.2.trans hopen
  · rw [handle_read_open _ _ hopen hb, h1, handle_read_open _ _ (by exact hopen) hb,
      (decode_with_line_buf [] _ buffer [] s (le_refl _)).1]
    simp only []
    rw [append_data_fits _ _ (List.length_pos.mp hpos) (by simp; omega)]
    simp

/-- Witness of C19: 2047 bytes `a` are accumulated and a read of the two bytes `bc` arrives. -/
theorem C19_overflow_discards_accumulated_witness :
    append_data (decode [0x62, 0x63] [] { start with line_buf := List.replicate 2047 0x61 }).1
        (decode [0x62, 0x63] [] { start with line_buf := List.replicate 2047 0x61 }).2 =
      { (decode [0x62, 0x63] [] { start with line_buf := List.replicate 2047 0x61 }).2 with
        line_buf := (decode [0x62, 0x63] [] { start with line_buf := List.replicate 2047 0x61 }).1 } ∧
    (append_data (decode [0x62, 0x63] [] { start with line_buf := List.replicate 2047 0x61 }).1
        (decode [0x62, 0x63] [] { start with line_buf := List.replicate 2047 0x61 }).2).closed
      = false ∧
    handle_read [0x62, 0x63] { start with line_buf := List.replicate 2047 0x61 } =
      handle_read [0x62, 0x63]
        { ({ start with line_buf := List.replicate 2047 0x61 } : Session) with line_buf := [] } :=
  C19_overflow_discards_accumulated [0x62, 0x63]
    { start with line_buf := List.replicate 2047 0x61 } rfl (by decide) (by decide)
    (by
      have e : ({ start with line_buf := List.replicate 2047 0x61 } : Session).line_buf =
          List.replicate 2047 0x61 := rfl
      rw [e, List.length_replicate]
      omega)
    (by
      have e : ({ start with line_buf := List.replicate 2047 0x61 } : Session).line_buf =
          List.replicate 2047 0x61 := rfl
      rw [decode_all_plain _ _ (by decide), e, List.length_replicate]
      simp)

theorem find_line_ending_loop_skip (pre rest : List Nat)
    (hpre : ∀ b ∈ pre, b ≠ 13 ∧ b ≠ 10) :
    ∀ i0 : Nat, find_line_ending_loop (pre ++ rest) i0 =
      find_line_ending_loop rest (i0 + pre.length) := by
  induction pre with
  | nil => intro i0; simp
  | cons a t ih =>
    intro i0
    have ha := hpre a (List.mem_cons_self _ _)
    rw [List.cons_append, find_line_ending_loop_other _ _ _ ha.1 ha.2,
      ih (fun b hb => hpre b (List.mem_cons_of_mem _ hb))]
    simp only [List.length_cons]
    congr 1
    omega

theorem find_line_ending_loop_at (L : List Nat) (i : Nat) (hi : i < L.length)
    (hbefore : ∀ j, j < i → L.getD j 0 ≠ 13 ∧ L.getD j 0 ≠ 10) :
    find_line_ending_loop L 0 =
      find_line_ending_loop (L.getD i 0 :: L.drop (i + 1)) i := by
  have hsplit : L = L.take i ++ (L.getD i 0 :: L.drop (i + 1)) := by
    rw [List.getD_eq_getElem _ _ hi, ← List.drop_eq_getElem_cons hi, List.take_append_drop]
  have hpre : ∀ b ∈ L.take i, b ≠ 13 ∧ b ≠ 10 := by
    intro b hb
    obtain ⟨j, hj, rfl⟩ := List.getElem_of_mem hb
    have hj' : j < i := by
      rw [List.length_take] at hj
      omega
    have := hbefore j hj'
    rw [List.getD_eq_getElem _ _ (by omega)] at this
    rw [List.getElem_take]
    exact this
  conv_lhs => rw [hsplit]
  rw [find_line_ending_loop_skip _ _ hpre, List.length_take]
  congr 1
  omega

theorem find_line_ending_list (L : List Nat) :
    ((∀ i, i < L.length → L.getD i 0 ≠ 13 ∧ L.getD i 0 ≠ 10) →
      find_line_ending_loop L 0 = -1) ∧
    (∀ i, i < L.length → (∀ j, j < i → L.getD j 0 ≠ 13 ∧ L.getD j 0 ≠ 10) →
      (L.getD i 0 = 10 → find_line_ending_loop L 0 = (i : Int) + 1) ∧
      (L.getD i 0 = 13 → i + 1 = L.length → find_line_ending_loop L 0 = -1) ∧
      (L.getD i 0 = 13 → i + 1 < L.length → (L.getD (i + 1) 0 = 10 ∨ L.getD (i + 1) 0 = 0) →
        find_line_ending_loop L 0 = (i : Int) + 2) ∧
      (L.getD i 0 = 13 → i + 1 < L.length → L.getD (i + 1) 0 ≠ 10 → L.getD (i + 1) 0 ≠ 0 →
        find_line_ending_loop L 0 = (i : Int) + 1)) := by
  constructor
  · intro h
    apply find_line_ending_loop_none
    intro b hb
    obtain ⟨j, hj, rfl⟩ := List.getElem_of_mem hb
    have := h j hj
    rw [List.getD_eq_getElem _ _ hj] at this
    exact this
  · intro i hi hbefore
    have hat := find_line_ending_loop_at L i hi hbefore
    refine ⟨?_, ?_, ?_, ?_⟩
    · intro h10
      rw [hat, h10]
      cases L.drop (i + 1) <;> simp [find_line_ending_loop]
    · intro h13 hend
      have hd : L.drop (i + 1) = [] := List.drop_eq_nil_of_le (by omega)
      rw [hat, h13, hd]
      simp [find_line_ending_loop]
    · intro h13 hlt hnext
      have hd : L.drop (i + 1) = L.getD (i + 1) 0 :: L.drop (i + 2) := by
        rw [List.getD_eq_getElem _ _ hlt, ← List.drop_eq_getElem_cons hlt]
      rw [hat, h13, hd]
      generalize L.getD (i + 1) 0 = x at hnext
      simp [find_line_ending_loop, hnext]
    · intro h13 hlt hn10 hn0
      have hd : L.drop (i + 1) = L.getD (i + 1) 0 :: L.drop (i + 2) := by
        rw [List.getD_eq_getElem _ _ hlt, ← List.drop_eq_getElem_cons hlt]
      rw [hat, h13, hd]
      generalize L.getD (i + 1) 0 = x at hn10 hn0
      simp [find_line_ending_loop, hn10, hn0]

theorem getD_take (buf : List Nat) (len i : Nat) (hi : i < len) :
    (buf.take len).getD i 0 = buf.getD i 0 := by
  simp only [List.getD_eq_getElem?_getD, List.getElem?_take, hi, if_true]

/-- C20: for every buffer `buf` holding at least `len` bytes, `find_line_ending(buf, len)` is
-1 when no index `i < len` has `buf[i]` in {CR, LF}; otherwise, with `i` the least such index,
it is `i + 1` when `buf[i]` is LF; -1 when `buf[i]` is CR and `i + 1 = len`; `i + 2` when
`buf[i]` is CR and `buf[i+1]` is LF or NUL; and `i + 1` when `buf[i]` is CR and `buf[i+1]` is
any other byte. -/
theorem C20_find_line_ending_cases (buf : List Nat) (len : Nat) (hlen : len ≤ buf.length) :
    ((∀ i, i < len → buf.getD i 0 ≠ 13 ∧ buf.getD i 0 ≠ 10) →
      find_line_ending buf len = -1) ∧
    (∀ i, i < len → (∀ j, j < i → buf.getD j 0 ≠ 13 ∧ buf.getD j 0 ≠ 10) →
      (buf.getD i 0 = 10 → find_line_ending buf len = (i : Int) + 1) ∧
      (buf.getD i 0 = 13 → i + 1 = len → find_line_ending buf len = -1) ∧
      (buf.getD i 0 = 13 → i + 1 < len → (buf.getD (i + 1) 0 = 10 ∨ buf.getD (i + 1) 0 = 0) →
        find_line_ending buf len = (i : Int) + 2) ∧
      (buf.getD i 0 = 13 → i + 1 < len → buf.getD (i + 1) 0 ≠ 10 → buf.getD (i + 1) 0 ≠ 0 →
        find_line_ending buf len = (i : Int) + 1)) := by
  have hL : (buf.take len).length = len := by
    rw [List.length_take]; omega
  obtain ⟨h1, h2⟩ := find_line_ending_list (buf.take len)
  rw [hL] at h1 h2
  unfold find_line_ending
  constructor
  · intro h
    exact h1 (fun i hi => by rw [getD_take _ _ _ hi]; exact h i hi)
  · intro i hi hbefore
    obtain ⟨a, b, c, d⟩ := h2 i hi (fun j hj => by
      rw [getD_take _ _ _ (by omega)]; exact hbefore j hj)
    rw [getD_take _ _ _ hi] at a b c d
    refine ⟨a, b, ?_, ?_⟩
    · intro h13 hlt hnext
      have := c h13 hlt
      rw [getD_take _ _ _ hlt] at this
      exact this hnext
    · intro h13 hlt hn10 hn0
      have := d h13 hlt
      rw [getD_take _ _ _ hlt] at this
      exact this hn10 hn0

/-- Witness of C20: the buffer `ab\r\nc` with `len = 5`, where the least index is 2. -/
theorem C20_find_line_ending_cases_witness :
    find_line_ending [0x61, 0x62, 13, 10, 0x63] 5 = (2 : Int) + 2 :=
  ((C20_find_line_ending_cases [0x61, 0x62, 13, 10, 0x63] 5 (by decide)).2 2 (by decide)
    (by decide)).2.2.1 (by decide) (by decide) (by decide)

/-! ## The incomplete UTF-8 tail -/

theorem getD_byte (buf : List Nat) (hbytes : ∀ b ∈ buf, b < 256) (i : Nat) :
    buf.getD i 0 < 256 := by
  by_cases hi : i < buf.length
  · rw [List.getD_eq_getElem _ _ hi]
    exact hbytes _ (List.getElem_mem _)
  · rw [List.getD_eq_default _ _ (by omega)]
    decide

theorem continuation_test (b : Nat) (hb : b < 256) :
    b &&& 0xC0 = 0x80 ↔ is_continuation b := by
  have := continuation_byte b hb
  unfold is_continuation
  rw [this]
  omega

theorem check_incomplete_utf8_loop_sound (buf : List Nat) (len : Nat)
    (hbytes : ∀ b ∈ buf, b < 256) :
    ∀ n i : Nat, 1 ≤ i →
      check_incomplete_utf8_loop buf len n i = 0 ∨
      (i ≤ check_incomplete_utf8_loop buf len n i ∧
        check_incomplete_utf8_loop buf len n i ≤ len ∧
        check_incomplete_utf8_loop buf len n i <
          utf8_sequence_length (buf.getD (len - check_incomplete_utf8_loop buf len n i) 0) ∧
        ∀ j, i ≤ j → j < check_incomplete_utf8_loop buf len n i →
          is_continuation (buf.getD (len - j) 0)) := by
  intro n
  induction n with
  | zero => intro i _; left; rfl
  | succ n ih =>
    intro i hi
    rw [check_incomplete_utf8_loop]
    by_cases hg : i ≤ 4 ∧ i ≤ len
    · rw [if_pos hg]
      have hsub : len - (len - i) = i := by omega
      simp only [hsub]
      by_cases hlead : utf8_sequence_length (buf.getD (len - i) 0) > 0
      · rw [if_pos hlead]
        by_cases hlt : i < utf8_sequence_length (buf.getD (len - i) 0)
        · rw [if_pos hlt]
          right
          exact ⟨le_refl _, hg.2, hlt, fun j h1 h2 => absurd h2 (by omega)⟩
        · rw [if_neg hlt]; left; rfl
      · rw [if_neg hlead]
        by_cases hc : buf.getD (len - i) 0 &&& 0xC0 ≠ 0x80
        · rw [if_pos hc]; left; rfl
        · rw [if_neg hc]
          have hcont : is_continuation (buf.getD (len - i) 0) :=
            (continuation_test _ (getD_byte buf hbytes _)).mp (not_not.mp hc)
          rcases ih (i + 1) (by omega) with h0 | ⟨h1, h2, h3, h4⟩
          · left; exact h0
          · right
            refine ⟨by omega, h2, h3, ?_⟩
            intro j hj1 hj2
            by_cases hji : j = i
            · rw [hji]; exact hcont
            · exact h4 j (by omega) hj2
    · rw [if_neg hg]; left; rfl

theorem check_incomplete_utf8_loop_complete (buf : List Nat) (len r : Nat)
    (hr : r ≤ len) (hlead : r < utf8_sequence_length (buf.getD (len - r) 0)) :
    ∀ n i : Nat, 1 ≤ i → i ≤ r → i + n = 5 →
      (∀ j, i ≤ j → j < r → is_continuation (buf.getD (len - j) 0)) →
      check_incomplete_utf8_loop buf len n i = r := by
  have h4 := utf8_sequence_length_le (buf.getD (len - r) 0)
  intro n
  induction n with
  | zero => intro i _ h2 h3 _; omega
  | succ n ih =>
    intro i hi hir hn hrun
    rw [check_incomplete_utf8_loop]
    have hg : i ≤ 4 ∧ i ≤ len := by omega
    rw [if_pos hg]
    have hsub : len - (len - i) = i := by omega
    simp only [hsub]
    by_cases he : i = r
    · subst he
      rw [if_pos (by omega), if_pos hlead]
    · obtain ⟨e1, e2⟩ := continuation_facts _ (hrun i (le_refl _) (by omega))
      rw [if_neg (by omega), if_neg (not_not.mpr e2)]
      exact ih (i + 1) (by omega) (by omega) (by omega) (fun j h1 h2 => hrun j (by omega) h2)

theorem check_incomplete_utf8_sound (buf : List Nat) (len : Nat)
    (hbytes : ∀ b ∈ buf, b < 256) (h : 0 < check_incomplete_utf8 buf len) :
    incomplete_tail buf len (check_incomplete_utf8 buf len) := by
  unfold check_incomplete_utf8 at h ⊢
  by_cases h0 : len = 0
  · simp [h0] at h
  · rw [if_neg h0] at h ⊢
    rcases check_incomplete_utf8_loop_sound buf len hbytes 4 1 (le_refl _) with e | ⟨h1, h2, h3, h4⟩
    · omega
    · exact ⟨h, h2, h3, fun j hj1 hj2 => h4 j hj1 hj2⟩

theorem check_incomplete_utf8_complete (buf : List Nat) (len r : Nat)
    (h : incomplete_tail buf len r) : check_incomplete_utf8 buf len = r := by
  obtain ⟨h1, h2, h3, h4⟩ := h
  unfold check_incomplete_utf8
  rw [if_neg (by omega)]
  exact check_incomplete_utf8_loop_complete buf len r h2 h3 4 1 (le_refl _) h1 rfl
    (fun j hj1 hj2 => h4 j hj1 hj2)

/-- C27: for every buffer of bytes `buf` and every `len`, the value
`r = check_incomplete_utf8(buf, len)` is at most `min(3, len)`; when `r > 0` the last `r` bytes
of `buf[0 .. len)` are one lead byte whose expected sequence length per `utf8_sequence_length`
is greater than `r`, followed by `r - 1` continuation bytes; conversely, whenever the last `r`
bytes (`r > 0`) have this shape the function returns `r`; in every other case it returns 0. -/
theorem C27_check_incomplete_utf8_characterised (buf : List Nat) (len : Nat)
    (hbytes : ∀ b ∈ buf, b < 256) :
    check_incomplete_utf8 buf len ≤ min 3 len ∧
    (0 < check_incomplete_utf8 buf len →
      incomplete_tail buf len (check_incomplete_utf8 buf len)) ∧
    (∀ r, incomplete_tail buf len r → check_incomplete_utf8 buf len = r) ∧
    ((¬ ∃ r, incomplete_tail buf len r) → check_incomplete_utf8 buf len = 0) ∧
    (∀ r, incomplete_tail buf len r →
      2 ≤ utf8_sequence_length (buf.getD (len - r) 0) ∧
      utf8_sequence_length (buf.getD (len - r) 0) ≤ 4) := by
  have hsound := check_incomplete_utf8_sound buf len hbytes
  refine ⟨?_, hsound, check_incomplete_utf8_complete buf len, ?_, ?_⟩
  · by_cases h : 0 < check_incomplete_utf8 buf len
    · obtain ⟨_, h2, h3, _⟩ := hsound h
      have := utf8_sequence_length_le (buf.getD (len - check_incomplete_utf8 buf len) 0)
      exact le_min (by omega) h2
    · have : check_incomplete_utf8 buf len = 0 := by omega
      rw [this]; exact Nat.zero_le _
  · intro hno
    by_contra h
    exact hno ⟨_, hsound (Nat.pos_of_ne_zero h)⟩
  · intro r hr
    have := utf8_sequence_length_le (buf.getD (len - r) 0)
    obtain ⟨h1, _, h3, _⟩ := hr
    omega

/-- Witness of C27: the buffer `a E0 80`, whose tail `E0 80` is an incomplete 3-byte sequence. -/
theorem C27_check_incomplete_utf8_characterised_witness :
    check_incomplete_utf8 [0x61, 0xE0, 0x80] 3 ≤ min 3 3 ∧
    (0 < check_incomplete_utf8 [0x61, 0xE0, 0x80] 3 →
      incomplete_tail [0x61, 0xE0, 0x80] 3 (check_incomplete_utf8 [0x61, 0xE0, 0x80] 3)) ∧
    check_incomplete_utf8 [0x61, 0xE0, 0x80] 3 = 2 := by
  have h := C27_check_incomplete_utf8_characterised [0x61, 0xE0, 0x80] 3 (by decide)
  exact ⟨h.1, h.2.1, by decide⟩

/-- C21 as stated fails: for the buffer holding the single continuation byte 0x80 (and for the
tails `a 80`, `80 80` and `80 80 80`) `check_incomplete_utf8` returns 0, not the length of the
run, so the run is inside the scan region: the read `a CR 80` is scanned up to and including
the 0x80, the CR is taken as a bare CR followed by another byte, and `ECHO: a` is written at
once, with the 0x80 left in the LineBuffer. -/
theorem C21_counterexample :
    check_incomplete_utf8 [0x80] 1 = 0 ∧ check_incomplete_utf8 [0x80] 1 ≠ 1 ∧
    check_incomplete_utf8 [0x61, 0x80] 2 = 0 ∧
    check_incomplete_utf8 [0x80, 0x80] 2 = 0 ∧
    check_incomplete_utf8 [0x80, 0x80, 0x80] 3 = 0 ∧
    (handle_client [[0x61, 0x0D, 0x80]]).sent = start.sent ++ [bytes "ECHO: a\r\n"] ∧
    (handle_client [[0x61, 0x0D, 0x80]]).line_buf = [0x80] := by
  rw [handle_client_bounded_eq]
  decide

/-- C21 (amended): when the tail of `buf[0 .. len)` is a run of `k` continuation bytes,
`1 ≤ k ≤ 3`, whose lead byte has not arrived (the run starts the buffer, or the byte before it
is neither a continuation byte nor the lead byte of a multi-byte sequence),
`check_incomplete_utf8` returns 0: the run is not reported as an incomplete tail, and the scan
region `buf[0 .. len - 0)` includes it. -/
theorem C21_orphan_continuation_not_held (buf : List Nat) (len k : Nat)
    (hbytes : ∀ b ∈ buf, b < 256) (hk : 1 ≤ k) (hk3 : k ≤ 3)
    (hrun : ∀ j, j < k → is_continuation (buf.getD (len - (j + 1)) 0))
    (hprev : len = k ∨ (k < len ∧ ¬ is_continuation (buf.getD (len - (k + 1)) 0) ∧
      utf8_sequence_length (buf.getD (len - (k + 1)) 0) ≤ 1)) :
    check_incomplete_utf8 buf len = 0 ∧
    len - check_incomplete_utf8 buf len = len := by
  have h0 : check_incomplete_utf8 buf len = 0 := by
    by_contra hne
    obtain ⟨_, h2, h3, h4⟩ := check_incomplete_utf8_sound buf len hbytes (Nat.pos_of_ne_zero hne)
    generalize check_incomplete_utf8 buf len = r at hne h2 h3 h4
    have hrk : k < r := by
      by_contra hle
      have e := hrun (r - 1) (by omega)
      rw [show r - 1 + 1 = r by omega] at e
      have := (continuation_facts _ e).1
      omega
    rcases hprev with he | ⟨_, hnc, hn⟩
    · omega
    · by_cases hr1 : r = k + 1
      · subst hr1
        omega
      · exact hnc (h4 (k + 1) (by omega) (by omega))
  exact ⟨h0, by rw [h0]; rfl⟩

/-- Witness of C21: the buffer `a 80 80`, a run of two continuation bytes after an ASCII
byte. -/
theorem C21_orphan_continuation_not_held_witness :
    check_incomplete_utf8 [0x61, 0x80, 0x80] 3 = 0 ∧
    3 - check_incomplete_utf8 [0x61, 0x80, 0x80] 3 = 3 :=
  C21_orphan_continuation_not_held [0x61, 0x80, 0x80] 3 2 (by decide) (by decide) (by decide)
    (by decide) (by decide)

/-- C22: `setup_linemode`, run on a negotiation state with all flags 0, makes seven writes that
together are exactly the 25 bytes `FF FD 00`, `FF FB 00`, `FF FD 22`, `FF FC 01`, `FF FB 03`,
`FF FD 03`, `FF FA 22 01 01 FF F0` in this order (DO BINARY, WILL BINARY, DO LINEMODE,
WONT ECHO, WILL SGA, DO SGA, the LINEMODE MODE=EDIT subnegotiation), and leaves
`binary_acked = 1`, `echo_acked = 1`, `linemode_acked = 0`, `sga_acked = 0`, `ready_sent = 0`;
the line buffer and the open/closed state are untouched. -/
theorem C22_setup_linemode_prelude (l : List Nat) (w : List (List Nat)) (c : Bool) :
    setup_linemode
        { line_buf := l,
          negotiation := { binary_acked := 0, linemode_acked := 0, echo_acked := 0,
                           sga_acked := 0, ready_sent := 0 },
          sent := w, closed := c } =
      { line_buf := l,
        negotiation := { binary_acked := 1, linemode_acked := 0, echo_acked := 1,
                         sga_acked := 0, ready_sent := 0 },
        sent := w ++ [[0xFF, 0xFD, 0x00], [0xFF, 0xFB, 0x00], [0xFF, 0xFD, 0x22],
                      [0xFF, 0xFC, 0x01], [0xFF, 0xFB, 0x03], [0xFF, 0xFD, 0x03],
                      [0xFF, 0xFA, 0x22, 0x01, 0x01, 0xFF, 0xF0]],
        closed := c } ∧
    (setup_linemode fresh).sent.flatten =
      [0xFF, 0xFD, 0x00, 0xFF, 0xFB, 0x00, 0xFF, 0xFD, 0x22, 0xFF, 0xFC, 0x01,
       0xFF, 0xFB, 0x03, 0xFF, 0xFD, 0x03, 0xFF, 0xFA, 0x22, 0x01, 0x01, 0xFF, 0xF0] ∧
    (setup_linemode fresh).sent.flatten.length = 25 ∧
    (setup_linemode fresh).negotiation =
      { binary_acked := 1, linemode_acked := 0, echo_acked := 1, sga_acked := 0,
        ready_sent := 0 } := by
  refine ⟨?_, by decide, by decide, by decide⟩
  simp [setup_linemode, send_telnet_option, send, IAC, DO, WILL, WONT, SB, SE, BINARY, ECHO,
    SUPPRESS_GO_AHEAD, LINEMODE, LM_MODE, MODE_EDIT]

/-! ## Several lines in one read -/

theorem lines_end_with_lf (ls : List (List Nat)) (hne : ls ≠ []) :
    ∃ X, (ls.map (fun l => l ++ [10])).flatten = X ++ [10] := by
  induction ls with
  | nil => exact absurd rfl hne
  | cons l t ih =>
    by_cases ht : t = []
    · subst ht
      exact ⟨l, by simp⟩
    · obtain ⟨X, hX⟩ := ih ht
      exact ⟨l ++ [10] ++ X, by simp [hX]⟩

theorem find_line_ending_first_lf (l rest : List Nat) (hl : ∀ b ∈ l, b ≠ 13 ∧ b ≠ 10) :
    find_line_ending (l ++ 10 :: rest) (l ++ 10 :: rest).length = ((l.length + 1 : Nat) : Int) := by
  unfold find_line_ending
  rw [List.take_length, find_line_ending_loop_skip l _ hl 0]
  cases rest <;> simp [find_line_ending_loop]

theorem extract_lines_all (ls : List (List Nat)) (n : telnet_negotiation_t) :
    ∀ (w : List (List Nat)),
      (∀ l ∈ ls, l ≠ [] ∧ l ≠ bytes "quit" ∧ l.length ≤ 2048 ∧
        ∀ b ∈ l, b ≠ 13 ∧ b ≠ 10 ∧ b ≠ 0 ∧ b ≠ 255) →
      extract_lines { line_buf := (ls.map (fun l => l ++ [10])).flatten, negotiation := n,
                      sent := w, closed := false } =
        { line_buf := [], negotiation := n,
          sent := w ++ ls.map (fun l => bytes "ECHO: " ++ l ++ bytes "\r\n"),
          closed := false } := by
  induction ls with
  | nil =>
    intro w _
    rw [extract_lines_done _ (by simp [find_line_ending_nil])]
    simp
  | cons l t ih =>
    intro w h
    obtain ⟨hne, hq, hlen, hb⟩ := h l (List.mem_cons_self _ _)
    have ht := fun x hx => h x (List.mem_cons_of_mem _ hx)
    obtain ⟨X, hX⟩ := lines_end_with_lf (l :: t) (by simp)
    have hbuf : ((l :: t).map (fun l => l ++ [10])).flatten =
        l ++ 10 :: (t.map (fun l => l ++ [10])).flatten := by simp
    have hinc : check_incomplete_utf8 ((l :: t).map (fun l => l ++ [10])).flatten
        ((l :: t).map (fun l => l ++ [10])).flatten.length = 0 := by
      rw [hX, List.length_append, List.length_singleton]
      exact check_incomplete_ascii_last X 10 (by decide)
    have hfind : find_line_ending ((l :: t).map (fun l => l ++ [10])).flatten
        (((l :: t).map (fun l => l ++ [10])).flatten.length -
          check_incomplete_utf8 ((l :: t).map (fun l => l ++ [10])).flatten
            ((l :: t).map (fun l => l ++ [10])).flatten.length) = ((l.length + 1 : Nat) : Int) := by
      rw [hinc, Nat.sub_zero, hbuf]
      exact find_line_ending_first_lf l _ (fun b hb' => ⟨(hb b hb').1, (hb b hb').2.1⟩)
    rw [extract_lines_step _ (l.length + 1) (by omega) hfind]
    have htake : (((l :: t).map (fun l => l ++ [10])).flatten).take (l.length + 1) = l ++ [10] := by
      rw [hbuf, show l ++ 10 :: (t.map (fun l => l ++ [10])).flatten =
        (l ++ [10]) ++ (t.map (fun l => l ++ [10])).flatten by simp]
      rw [List.take_left' (by simp)]
    have hdrop : (((l :: t).map (fun l => l ++ [10])).flatten).drop (l.length + 1) =
        (t.map (fun l => l ++ [10])).flatten := by
      rw [hbuf, show l ++ 10 :: (t.map (fun l => l ++ [10])).flatten =
        (l ++ [10]) ++ (t.map (fun l => l ++ [10])).flatten by simp]
      rw [List.drop_left' (by simp)]
    have hstrip : strip_line (l ++ [10]) = l :=
      strip_line_lf l hne (fun b hl => by
        have := hb b (List.mem_of_mem_getLast? hl)
        exact ⟨this.1, this.2.1, this.2.2.1⟩)
    simp only [htake, hdrop]
    rw [process_line_echo _ l _ hstrip hne (fun b hb' => (hb b hb').2.2.1) hq hlen]
    simp only [send]
    rw [if_neg (by simp)]
    rw [ih _ ht]
    simp

theorem length_le_lines (ls : List (List Nat)) (l : List Nat) (hl : l ∈ ls) :
    l.length ≤ (ls.map (fun l => l ++ [10])).flatten.length := by
  induction ls with
  | nil => simp at hl
  | cons a t ih =>
    simp only [List.map_cons, List.flatten_cons, List.length_append, List.length_singleton]
    rcases List.mem_cons.mp hl with h | h
    · subst h; omega
    · have := ih h; omega

/-- C23: in the line-binary server, starting from an empty LineBuffer, for every list of lines
`l1 .. ln` where each line is non-empty, contains none of the bytes CR, LF, NUL, IAC, is not
`quit`, and the total length of `l1 ++ "\n" ++ ... ++ ln ++ "\n"` is at most 1023: one read
holding that concatenation makes the server write exactly `"ECHO: " ++ l1 ++ "\r\n"`, ...,
`"ECHO: " ++ ln ++ "\r\n"`, one write per line and in order, and leaves the LineBuffer empty;
the negotiation state is unchanged, and the session stays open when there is at least one
line (the read of no bytes at all is the peer's disconnect). -/
theorem C23_lines_of_one_read (ls : List (List Nat)) (n : telnet_negotiation_t)
    (w : List (List Nat))
    (hne : ∀ l ∈ ls, l ≠ [])
    (hplain : ∀ l ∈ ls, ∀ b ∈ l, b ≠ 13 ∧ b ≠ 10 ∧ b ≠ 0 ∧ b ≠ 255)
    (hq : ∀ l ∈ ls, l ≠ bytes "quit")
    (hlen : (ls.map (fun l => l ++ [10])).flatten.length ≤ 1023) :
    (handle_read (ls.map (fun l => l ++ [10])).flatten
        { line_buf := [], negotiation := n, sent := w, closed := false }).sent =
      w ++ ls.map (fun l => bytes "ECHO: " ++ l ++ bytes "\r\n") ∧
    (handle_read (ls.map (fun l => l ++ [10])).flatten
        { line_buf := [], negotiation := n, sent := w, closed := false }).line_buf = [] ∧
    (handle_read (ls.map (fun l => l ++ [10])).flatten
        { line_buf := [], negotiation := n, sent := w, closed := false }).negotiation = n ∧
    (ls ≠ [] →
      (handle_read (ls.map (fun l => l ++ [10])).flatten
        { line_buf := [], negotiation := n, sent := w, closed := false }).closed = false) := by
  by_cases hls : ls = []
  · subst hls
    simp [handle_read]
  · have hbne : (ls.map (fun l => l ++ [10])).flatten ≠ [] := by
      obtain ⟨X, hX⟩ := lines_end_with_lf ls hls
      rw [hX]; simp
    have hno : ∀ b ∈ (ls.map (fun l => l ++ [10])).flatten, b ≠ 255 := by
      intro b hb
      obtain ⟨m, hm, hbm⟩ := List.mem_flatten.mp hb
      obtain ⟨l, hl, rfl⟩ := List.mem_map.mp hm
      rcases List.mem_append.mp hbm with h | h
      · exact (hplain l hl b h).2.2.2
      · simp only [List.mem_singleton] at h
        omega
    rw [handle_read_of_decode _ _ n w hbne (by omega) (decode_all_plain _ _ hno)]
    rw [extract_lines_all ls n w (fun l hl =>
      ⟨hne l hl, hq l hl, by have := length_le_lines ls l hl; omega, hplain l hl⟩)]
    exact ⟨rfl, rfl, rfl, fun _ => rfl⟩

/-- Witness of C23: the single line `café` in UTF-8, `63 61 66 C3 A9`, followed by `0A`. -/
theorem C23_lines_of_one_read_witness :
    (handle_read [0x63, 0x61, 0x66, 0xC3, 0xA9, 0x0A] start).sent =
      start.sent ++ [bytes "ECHO: " ++ [0x63, 0x61, 0x66, 0xC3, 0xA9] ++ bytes "\r\n"] ∧
    (handle_read [0x63, 0x61, 0x66, 0xC3, 0xA9, 0x0A] start).line_buf = [] := by
  have h := C23_lines_of_one_read [[0x63, 0x61, 0x66, 0xC3, 0xA9]] start.negotiation start.sent
    (by decide) (by decide) (by decide) (by decide)
  exact ⟨h.1, h.2.1⟩

end LineBinary

/-! ## Truncated sequences and subnegotiation frames in the character-mode loop -/

/-- C24, the code at the failing input. In the character-mode server an option command cut off
by the end of the read (`IAC cmd` as the last two bytes, `cmd` one of DO, DONT, WILL, WONT) is
not discarded: the test `i + 2 < bytes_read` fails and control leaves the IAC block with `ch`
still 0xFF, so 0xFF is stored in the edit buffer and echoed, and the next iteration stores and
echoes `cmd` as well. A lone `IAC` as the last byte is discarded, and the line-binary server
discards both kinds of truncated sequence. The reads `a IAC DO` and `CR` make the
character-mode server echo `a`, `FF`, `FD` and answer `ECHO: a FF FD`. -/
theorem C24_truncated_option_is_data (cmd : Nat) (c : List Nat)
    (n : CharMode.telnet_negotiation_t) (w : List (List Nat)) (data : List Nat)
    (ls : LineBinary.Session)
    (hcmd : cmd = DO ∨ cmd = DONT ∨ cmd = WILL ∨ cmd = WONT) (hlen : c.length + 2 ≤ 1023) :
    CharMode.process_buffer [IAC, cmd] (CharMode.editing c n w) =
      CharMode.editing (c ++ [0xFF, cmd]) n (w ++ [[0xFF], [cmd]]) ∧
    CharMode.process_buffer [IAC] (CharMode.editing c n w) = CharMode.editing c n w ∧
    LineBinary.decode [IAC, cmd] data ls = (data, ls) ∧
    LineBinary.decode [IAC] data ls = (data, ls) ∧
    (CharMode.handle_client [[0x61, 0xFF, 0xFD], [0x0D]]).sent =
      CharMode.start.sent ++ [[0x61], [0xFF], [0xFD], bytes "\r\n",
        bytes "ECHO: " ++ [0x61, 0xFF, 0xFD] ++ bytes "\r\n"] ∧
    (LineBinary.handle_client [[0x61, 0xFF, 0xFD], [0x0A]]).sent =
      LineBinary.start.sent ++ [bytes "ECHO: a\r\n"] := by
  have hne : cmd ≠ IAC := by
    rcases hcmd with rfl | rfl | rfl | rfl <;> decide
  have h32 : 32 ≤ cmd ∧ cmd ≠ 127 := by
    rcases hcmd with rfl | rfl | rfl | rfl <;> decide
  refine ⟨?_, CharMode.process_buffer_iac_end _, LineBinary.decode_option_truncated cmd data ls hcmd,
    LineBinary.decode_iac_end data ls, by decide, ?_⟩
  · rw [CharMode.process_buffer_option_truncated cmd _ hcmd,
      CharMode.handle_char_append IAC c n w (by decide) (by decide) (by omega)]
    rw [if_neg (by simp [CharMode.editing])]
    rw [CharMode.process_buffer_data cmd [] _ hne,
      CharMode.handle_char_append cmd (c ++ [IAC]) n _ h32.1 h32.2 (by simp; omega)]
    rw [if_neg (by simp [CharMode.editing]), CharMode.process_buffer_nil]
    simp [IAC]
  · rw [LineBinary.handle_client_bounded_eq]
    decide

/-- Witness of C24: `IAC DO` cut off by the end of the read, with `ab` in the edit buffer. -/
theorem C24_truncated_option_is_data_witness :
    CharMode.process_buffer [IAC, DO] (CharMode.editing [0x61, 0x62] CharMode.start.negotiation []) =
      CharMode.editing ([0x61, 0x62] ++ [0xFF, DO]) CharMode.start.negotiation
        ([] ++ [[0xFF], [DO]]) :=
  (C24_truncated_option_is_data DO [0x61, 0x62] CharMode.start.negotiation [] []
    LineBinary.start (by decide) (by decide)).1

/-- C25, the code at the failing input. The character-mode loop has no branch for `SB`: the
pair `IAC SB` is skipped as a two-byte command and the loop goes on with the option byte, so
the option byte and the payload of a subnegotiation frame are handled as application bytes.
When they are printable (32 or more, other than DEL and IAC) and fit in the edit buffer, each
is stored and echoed; the closing `IAC SE` is then skipped as a two-byte command. The frame
`FF FA 22 01 01 FF F0` followed by CR is answered with the echo of `"` (0x22) and the line
`ECHO: "`; the terminal-type frame `FF FA 18 00 78 74 65 72 6D FF F0` echoes `xterm`; the
payload byte 04 of `FF FA 22 01 04 FF F0` is taken as Ctrl+D and ends the session. -/
theorem C25_subnegotiation_is_data (opt : Nat) (p rest c : List Nat)
    (n : CharMode.telnet_negotiation_t) (w : List (List Nat)) (s : CharMode.Session)
    (hopt : 32 ≤ opt ∧ opt ≠ 127 ∧ opt ≠ 255) (hp : ∀ b ∈ p, 32 ≤ b ∧ b ≠ 127 ∧ b ≠ 255)
    (hlen : c.length + (1 + p.length) ≤ 1023) :
    CharMode.process_buffer (IAC :: SB :: rest) s = CharMode.process_buffer rest s ∧
    CharMode.process_buffer ([IAC, SB, opt] ++ p ++ [IAC, SE] ++ rest) (CharMode.editing c n w) =
      CharMode.process_buffer rest
        (CharMode.editing (c ++ opt :: p) n (w ++ (opt :: p).map (fun b => [b]))) ∧
    (CharMode.handle_client [[0xFF, 0xFA, 0x22, 0x01, 0x01, 0xFF, 0xF0, 0x0D]]).sent =
      CharMode.start.sent ++ [[0x22], bytes "\r\n", bytes "ECHO: \"\r\n"] ∧
    (CharMode.handle_client
        [[0xFF, 0xFA, 0x18, 0x00, 0x78, 0x74, 0x65, 0x72, 0x6D, 0xFF, 0xF0]]).sent =
      CharMode.start.sent ++ [[0x78], [0x74], [0x65], [0x72], [0x6D]] ∧
    (CharMode.handle_client [[0xFF, 0xFA, 0x22, 0x01, 0x04, 0xFF, 0xF0]]).sent =
      CharMode.start.sent ++ [[0x22], bytes "\r\nGoodbye!\r\n"] ∧
    (CharMode.handle_client [[0xFF, 0xFA, 0x22, 0x01, 0x04, 0xFF, 0xF0]]).closed = true := by
  have hsb : CharMode.process_buffer (IAC :: SB :: rest) s = CharMode.process_buffer rest s :=
    CharMode.process_buffer_other SB rest s (by decide) (by decide)
  refine ⟨hsb, ?_, by decide, by decide, by decide, by decide⟩
  have hall : ∀ b ∈ opt :: p, 32 ≤ b ∧ b ≠ 127 ∧ b ≠ 255 := by
    intro b hb
    rcases List.mem_cons.mp hb with h | h
    · subst h; exact hopt
    · exact hp b h
  have hshape : [IAC, SB, opt] ++ p ++ [IAC, SE] ++ rest =
      IAC :: SB :: ((opt :: p) ++ (IAC :: SE :: rest)) := by simp
  rw [hshape, CharMode.process_buffer_other SB _ _ (by decide) (by decide),
    CharMode.process_buffer_printables (opt :: p) _ c n w hall (by simp only [List.length_cons]; omega),
    CharMode.process_buffer_other SE rest _ (by decide) (by decide)]

/-- Witness of C25: the frame `IAC SB 0x22 "ab" IAC SE` on an empty edit buffer. -/
theorem C25_subnegotiation_is_data_witness :
    CharMode.process_buffer ([IAC, SB, 0x22] ++ [0x61, 0x62] ++ [IAC, SE] ++ [])
        (CharMode.editing [] CharMode.start.negotiation []) =
      CharMode.process_buffer []
        (CharMode.editing ([] ++ 0x22 :: [0x61, 0x62]) CharMode.start.negotiation
          ([] ++ (0x22 :: [0x61, 0x62]).map (fun b => [b]))) :=
  (C25_subnegotiation_is_data 0x22 [0x61, 0x62] [] [] CharMode.start.negotiation []
    CharMode.start (by decide) (by decide) (by decide)).2.1

namespace CharMode

theorem handle_char_after_reset (x : Nat) (t : Session) (hx : x = 10 ∨ x = 0)
    (hpos : t.input_pos = 0) (hline : t.input_line = List.replicate BUFFER_SIZE 0) :
    handle_char x t = t := by
  cases t with
  | mk il ip n w cl =>
    simp only at hpos hline
    subst hpos hline
    rcases hx with rfl | rfl <;> simp [handle_char, CTRL_D, CTRL_C, BACKSPACE, DEL]

/-- C28: in the character-mode server, for every open session whose edit buffer has the shape
of the reachable states (`edit_inv`) and does not hold `quit`, the application bytes CR LF and
CR NUL produce the same output and the same resulting state as CR alone: the LF or NUL after
the CR writes nothing and changes nothing, whether it comes in the same read (followed by any
further bytes `rest`) or as the next read, and the CR itself writes `"\r\n"` and at most one
`ECHO:` line. -/
theorem C28_lf_or_nul_after_cr (x : Nat) (s : Session) (rest : List Nat)
    (hx : x = 10 ∨ x = 0) (hinv : edit_inv s) (hopen : s.closed = false)
    (hq : s.input_line.take s.input_pos ≠ bytes "quit") :
    handle_char x (handle_char 13 s) = handle_char 13 s ∧
    process_buffer [13, x] s = process_buffer [13] s ∧
    process_buffer (13 :: x :: rest) s = process_buffer (13 :: rest) s ∧
    handle_read [x] (handle_read [13] s) = handle_read [13] s ∧
    (handle_read [13, x] s).sent =
      s.sent ++ [bytes "\r\n"] ++
        (if s.input_pos > 0 then
          [bytes "ECHO: " ++ s.input_line.take s.input_pos ++ bytes "\r\n"] else []) := by
  have hn := handle_char_newline 13 s (Or.inl rfl) hinv
  rw [if_neg hq] at hn
  have hxi : x ≠ IAC := by
    rcases hx with rfl | rfl <;> decide
  have hclosed : (handle_char 13 s).closed = false := by rw [hn]; exact hopen
  have hsame : handle_char x (handle_char 13 s) = handle_char 13 s :=
    handle_char_after_reset x _ hx (by rw [hn]) (by rw [hn])
  have hstep : ∀ r : List Nat, process_buffer (13 :: x :: r) s = process_buffer (13 :: r) s := by
    intro r
    rw [process_buffer_data 13 _ s (by decide), process_buffer_data 13 r s (by decide),
      process_buffer_data x r _ hxi, hsame]
    simp [hclosed]
  have h13 : handle_read [13] s = handle_char 13 s := by
    simp [handle_read, hopen, process_buffer_data 13 [] s (by decide), process_buffer_nil]
  refine ⟨hsame, hstep [], hstep rest, ?_, ?_⟩
  · rw [h13]
    simp [handle_read, hclosed, process_buffer_data x [] _ hxi, hsame, process_buffer_nil]
  · have : handle_read [13, x] s = handle_char 13 s := by
      have e : handle_read [13, x] s = process_buffer [13, x] s := by simp [handle_read, hopen]
      rw [e, hstep [], process_buffer_data 13 [] s (by decide), process_buffer_nil]
      simp
    rw [this, hn]
    simp

/-- Witness of C28: the edit buffer `hi`, then CR LF. -/
theorem C28_lf_or_nul_after_cr_witness :
    process_buffer (13 :: 10 :: [0x61]) (handle_client [[0x68, 0x69]]) =
      process_buffer (13 :: [0x61]) (handle_client [[0x68, 0x69]]) :=
  (C28_lf_or_nul_after_cr 10 (handle_client [[0x68, 0x69]]) [0x61] (Or.inl rfl)
    (edit_inv_handle_client _) (by decide) (by decide)).2.2.1

end CharMode

namespace LineBinary

/-! ## The extraction loop: progress, exit condition and buffer bounds -/

theorem find_line_ending_loop_range (L : List Nat) :
    ∀ i : Nat, find_line_ending_loop L i = -1 ∨
      ((i : Int) + 1 ≤ find_line_ending_loop L i ∧
        find_line_ending_loop L i ≤ (i : Int) + L.length) := by
  induction L with
  | nil => intro i; left; simp [find_line_ending_loop]
  | cons b rest ih =>
    intro i
    by_cases h13 : b = 13
    · subst h13
      rcases rest with _ | ⟨next, t⟩
      · left; simp [find_line_ending_loop]
      · right
        by_cases hn : next = 10 ∨ next = 0
        · simp only [find_line_ending_loop, if_true, hn, List.length_cons]
          push_cast
          omega
        · simp only [find_line_ending_loop, if_true, hn, if_false, List.length_cons]
          push_cast
          omega
    · by_cases h10 : b = 10
      · subst h10
        right
        cases rest <;> simp [find_line_ending_loop]
        omega
      · rw [find_line_ending_loop_other _ _ _ h13 h10]
        rcases ih (i + 1) with h | ⟨h1, h2⟩
        · left; exact h
        · right
          simp only [List.length_cons]
          push_cast at h1 h2 ⊢
          omega

theorem find_line_ending_loop_exit (L : List Nat) :
    ∀ i : Nat, find_line_ending_loop L i = -1 →
      ∀ j, j < L.length → L.getD j 0 ≠ 10 ∧ (L.getD j 0 = 13 → j + 1 = L.length) := by
  induction L with
  | nil => intro i _ j hj; simp at hj
  | cons b rest ih =>
    intro i h j hj
    by_cases h13 : b = 13
    · subst h13
      rcases rest with _ | ⟨next, t⟩
      · have : j = 0 := by simpa using hj
        subst this
        simp
      · exfalso
        by_cases hn : next = 10 ∨ next = 0
        · simp only [find_line_ending_loop, if_true, hn] at h
          omega
        · simp only [find_line_ending_loop, if_true, hn, if_false] at h
          omega
    · by_cases h10 : b = 10
      · subst h10
        exfalso
        cases rest <;> simp [find_line_ending_loop] at h <;> omega
      · rw [find_line_ending_loop_other _ _ _ h13 h10] at h
        rcases j with _ | k
        · simp [h13, h10]
        · have := ih (i + 1) h k (by simpa using hj)
          simpa using this

theorem find_line_ending_range (buf : List Nat) (len : Nat) :
    find_line_ending buf len = -1 ∨
      (1 ≤ find_line_ending buf len ∧ find_line_ending buf len ≤ (len : Int)) := by
  unfold find_line_ending
  rcases find_line_ending_loop_range (buf.take len) 0 with h | ⟨h1, h2⟩
  · left; exact h
  · right
    have : (buf.take len).length ≤ len := by rw [List.length_take]; omega
    push_cast at h1 h2
    omega

theorem extract_lines_exit :
    ∀ (k : Nat) (s : Session), s.line_buf.length ≤ k → (extract_lines s).closed = false →
      find_line_ending (extract_lines s).line_buf
        ((extract_lines s).line_len -
          check_incomplete_utf8 (extract_lines s).line_buf (extract_lines s).line_len) ≤ 0 := by
  intro k
  induction k with
  | zero =>
    intro s hk _
    have h0 : s.line_buf = [] := List.length_eq_zero.mp (by omega)
    rw [extract_lines_done s (by rw [h0, find_line_ending_nil]; decide)]
    rw [h0, find_line_ending_nil]
    decide
  | succ k ih =>
    intro s hk hopen
    by_cases hpos : find_line_ending s.line_buf
        (s.line_len - check_incomplete_utf8 s.line_buf s.line_len) ≤ 0
    · rw [extract_lines_done s hpos]; exact hpos
    · obtain ⟨j, hj⟩ : ∃ j : Nat, find_line_ending s.line_buf
          (s.line_len - check_incomplete_utf8 s.line_buf s.line_len) = (j : Int) :=
        ⟨_, (Int.toNat_of_nonneg (by omega)).symm⟩
      have hj0 : 0 < j := by
        rw [hj] at hpos
        omega
      rw [extract_lines_step s j hj0 hj] at hopen ⊢
      by_cases hc : (process_line (s.line_buf.take j) s).closed = true
      · rw [if_pos hc] at hopen
        rw [hc] at hopen
        exact absurd hopen (by decide)
      · rw [if_neg hc] at hopen ⊢
        exact ih _ (by simp only [List.length_drop]; omega) hopen

/-- C29: for every `buf` and `len`, `find_line_ending(buf, len)` is either -1 or a value `r`
with `1 ≤ r ≤ len`, never 0. Consequently every iteration of the line-extraction loop (entered
when `line_end_pos > 0`) removes `line_end_pos ≥ 1` bytes, with `line_end_pos ≤ line_len`, so
`line_len` decreases and stays non-negative; the loop ends after at most `line_len` iterations
for every buffer content (the loop cut off after `line_len` iterations gives the result of the
loop); and when it ends without `quit`, `find_line_ending` is -1 on the scan region
`line_buf[0 .. line_len - incomplete)`, which then holds no LF and no CR other than possibly as
its last byte. -/
theorem C29_extraction_loop_terminates :
    (∀ (buf : List Nat) (len : Nat), find_line_ending buf len = -1 ∨
      (1 ≤ find_line_ending buf len ∧ find_line_ending buf len ≤ (len : Int))) ∧
    (∀ s : Session, 0 < find_line_ending s.line_buf (process_len s) →
      1 ≤ (find_line_ending s.line_buf (process_len s)).toNat ∧
      (find_line_ending s.line_buf (process_len s)).toNat ≤ s.line_len ∧
      (s.line_buf.drop (find_line_ending s.line_buf (process_len s)).toNat).length +
        (find_line_ending s.line_buf (process_len s)).toNat = s.line_len) ∧
    (∀ s : Session, extract_lines_bounded s.line_len s = extract_lines s) ∧
    (∀ s : Session, (extract_lines s).closed = false →
      find_line_ending (extract_lines s).line_buf (process_len (extract_lines s)) = -1 ∧
      ∀ j, j < (scan_region (extract_lines s)).length →
        (scan_region (extract_lines s)).getD j 0 ≠ 10 ∧
        ((scan_region (extract_lines s)).getD j 0 = 13 →
          j + 1 = (scan_region (extract_lines s)).length)) := by
  refine ⟨find_line_ending_range, ?_, fun s => extract_lines_bounded_eq _ s (le_refl _), ?_⟩
  · intro s hpos
    have hle : process_len s ≤ s.line_len := Nat.sub_le _ _
    rcases find_line_ending_range s.line_buf (process_len s) with h | ⟨h1, h2⟩
    · omega
    · have h3 : (find_line_ending s.line_buf (process_len s)).toNat ≤ s.line_len := by omega
      refine ⟨by omega, h3, ?_⟩
      rw [List.length_drop]
      unfold Session.line_len at h3 ⊢
      omega
  · intro s hopen
    have hexit := extract_lines_exit _ s (le_refl _) hopen
    have hm1 : find_line_ending (extract_lines s).line_buf (process_len (extract_lines s)) = -1 := by
      rcases find_line_ending_range (extract_lines s).line_buf (process_len (extract_lines s))
        with h | ⟨h1, _⟩
      · exact h
      · unfold process_len at h1
        omega
    exact ⟨hm1, find_line_ending_loop_exit _ 0 hm1⟩

/-- Witness of C29: the buffer `ab LF c CR` of an open session: one line is extracted and the
loop ends with `c CR` in the buffer, a CR as the last byte of the scan region. -/
theorem C29_extraction_loop_terminates_witness :
    (extract_lines { start with line_buf := [0x61, 0x62, 10, 0x63, 13] }).line_buf = [0x63, 13] ∧
    find_line_ending
      (extract_lines { start with line_buf := [0x61, 0x62, 10, 0x63, 13] }).line_buf
      (process_len (extract_lines { start with line_buf := [0x61, 0x62, 10, 0x63, 13] })) = -1 := by
  have hb := C29_extraction_loop_terminates.2.2.1 { start with line_buf := [0x61, 0x62, 10, 0x63, 13] }
  have hopen : (extract_lines { start with line_buf := [0x61, 0x62, 10, 0x63, 13] }).closed = false := by
    rw [← hb]; decide
  refine ⟨?_, (C29_extraction_loop_terminates.2.2.2 _ hopen).1⟩
  rw [← hb]; decide

theorem check_incomplete_utf8_traced_loop_spec (buf : List Nat) (len : Nat) :
    ∀ n i : Nat, 1 ≤ i →
      (check_incomplete_utf8_traced_loop buf len n i).1 = check_incomplete_utf8_loop buf len n i ∧
      ∀ p ∈ (check_incomplete_utf8_traced_loop buf len n i).2, 0 ≤ p ∧ p < (len : Int) := by
  intro n
  induction n with
  | zero => intro i _; simp [check_incomplete_utf8_traced_loop, check_incomplete_utf8_loop]
  | succ n ih =>
    intro i hi
    rw [check_incomplete_utf8_traced_loop, check_incomplete_utf8_loop]
    by_cases hg : i ≤ 4 ∧ i ≤ len
    · have h1 : ((len : Int) - (i : Int)).toNat = len - i := by omega
      have h2 : ((len : Int) - ((len : Int) - (i : Int))).toNat = len - (len - i) := by omega
      have hp : (0 : Int) ≤ (len : Int) - (i : Int) ∧ (len : Int) - (i : Int) < (len : Int) := by
        omega
      obtain ⟨e1, e2⟩ := ih (i + 1) (by omega)
      simp only [if_pos hg, h1, h2]
      split_ifs
      · exact ⟨rfl, by simpa using hp⟩
      · exact ⟨rfl, by simpa using hp⟩
      · exact ⟨rfl, by simpa using hp⟩
      · refine ⟨e1, ?_⟩
        intro p hp'
        rcases List.mem_cons.mp hp' with h | h
        · rw [h]; exact hp
        · exact e2 p h
    · simp [if_neg hg]

theorem find_line_ending_traced_spec (buf : List Nat) (len : Nat) (hlen : len ≤ buf.length) :
    ∀ n i : Nat, len ≤ i + n → i ≤ len →
      (find_line_ending_traced buf len n i).1 = find_line_ending_loop ((buf.take len).drop i) i ∧
      ∀ p ∈ (find_line_ending_traced buf len n i).2, 0 ≤ p ∧ p < (len : Int) := by
  have hL : (buf.take len).length = len := by rw [List.length_take]; omega
  have hsplit : ∀ i, i < len →
      (buf.take len).drop i = buf.getD i 0 :: (buf.take len).drop (i + 1) := by
    intro i hi
    rw [← getD_take buf len i hi, List.getD_eq_getElem _ _ (by omega),
      ← List.drop_eq_getElem_cons]
  intro n
  induction n with
  | zero =>
    intro i h1 h2
    have : (buf.take len).drop i = [] := List.drop_eq_nil_of_le (by omega)
    simp [find_line_ending_traced, this, find_line_ending_loop]
  | succ n ih =>
    intro i h1 h2
    rw [find_line_ending_traced]
    by_cases hi : i < len
    · rw [if_pos hi, hsplit i hi]
      by_cases h13 : buf.getD i 0 = 13
      · rw [if_pos h13, h13]
        by_cases hi1 : i + 1 < len
        · rw [if_pos hi1, hsplit (i + 1) hi1]
          generalize buf.getD (i + 1) 0 = x
          by_cases hx : x = 10 ∨ x = 0
          · simp only [if_pos hx, find_line_ending_loop, if_true]
            refine ⟨trivial, ?_⟩
            intro p hp
            simp only [List.mem_cons, List.mem_singleton, List.not_mem_nil, or_false] at hp
            omega
          · simp only [if_neg hx, find_line_ending_loop, if_true, if_false]
            refine ⟨trivial, ?_⟩
            intro p hp
            simp only [List.mem_cons, List.mem_singleton, List.not_mem_nil, or_false] at hp
            omega
        · have hd : (buf.take len).drop (i + 1) = [] := List.drop_eq_nil_of_le (by omega)
          rw [if_neg hi1, hd]
          simp only [find_line_ending_loop, if_true]
          refine ⟨trivial, ?_⟩
          intro p hp
          simp only [List.mem_singleton] at hp
          omega
      · rw [if_neg h13]
        by_cases h10 : buf.getD i 0 = 10
        · rw [if_pos h10, h10]
          refine ⟨by cases (buf.take len).drop (i + 1) <;> simp [find_line_ending_loop], ?_⟩
          intro p hp
          simp only [List.mem_singleton] at hp
          omega
        · rw [if_neg h10, find_line_ending_loop_other _ _ _ h13 h10]
          obtain ⟨e1, e2⟩ := ih (i + 1) (by omega) (by omega)
          refine ⟨e1, ?_⟩
          intro p hp
          rcases List.mem_cons.mp hp with h | h
          · omega
          · exact e2 p h
    · have : (buf.take len).drop i = [] := List.drop_eq_nil_of_le (by omega)
      simp [if_neg hi, this, find_line_ending_loop]

theorem find_line_ending_loop_last (L : List Nat) :
    ∀ i : Nat, find_line_ending_loop L i ≠ -1 →
      ∃ m : Nat, 1 ≤ m ∧ m ≤ L.length ∧ find_line_ending_loop L i = (i : Int) + (m : Int) ∧
        (L.getD (m - 1) 0 = 13 ∨ L.getD (m - 1) 0 = 10 ∨ L.getD (m - 1) 0 = 0) := by
  induction L with
  | nil => intro i h; simp [find_line_ending_loop] at h
  | cons b rest ih =>
    intro i h
    by_cases h13 : b = 13
    · subst h13
      rcases rest with _ | ⟨next, t⟩
      · simp [find_line_ending_loop] at h
      · by_cases hn : next = 10 ∨ next = 0
        · refine ⟨2, by omega, by simp, by simp [find_line_ending_loop, hn], ?_⟩
          rcases hn with h' | h' <;> simp [h']
        · exact ⟨1, by omega, by simp, by simp [find_line_ending_loop, hn], by simp⟩
    · by_cases h10 : b = 10
      · subst h10
        exact ⟨1, by omega, by simp,
          by cases rest <;> simp [find_line_ending_loop], by simp⟩
      · rw [find_line_ending_loop_other _ _ _ h13 h10] at h ⊢
        obtain ⟨m, h1, h2, h3, h4⟩ := ih (i + 1) h
        refine ⟨m + 1, by omega, by simp; omega, by rw [h3]; push_cast; omega, ?_⟩
        obtain ⟨k, rfl⟩ : ∃ k, m = k + 1 := ⟨m - 1, by omega⟩
        simpa using h4

theorem strip_line_terminated (line : List Nat) (m : Nat) (hm : 1 ≤ m) (hml : m ≤ line.length)
    (hlast : line.getD (m - 1) 0 = 13 ∨ line.getD (m - 1) 0 = 10 ∨ line.getD (m - 1) 0 = 0) :
    (strip_line (line.take m)).length + 1 ≤ m := by
  obtain ⟨k, rfl⟩ : ∃ k, m = k + 1 := ⟨m - 1, by omega⟩
  have hk : k < line.length := by omega
  simp only [Nat.add_sub_cancel] at hlast
  have htake : line.take (k + 1) = line.take k ++ [line.getD k 0] := by
    rw [List.take_succ, List.getD_eq_getElem?_getD, List.getElem?_eq_getElem hk]
    rfl
  generalize line.getD k 0 = x at hlast htake
  have hp : (x == 13 || x == 10 || x == 0) = true := by
    rcases hlast with h | h | h <;> simp [h]
  have e : strip_line (line.take (k + 1)) = strip_line (line.take k) := by
    unfold strip_line
    rw [htake]
    exact List.rdropWhile_concat_pos _ _ x hp
  rw [e]
  have h1 := strip_line_length_le (line.take k)
  have h2 : (line.take k).length ≤ k := by rw [List.length_take]; omega
  omega

theorem extracted_line_bound (s : Session) (hs : s.line_len ≤ 2048)
    (hpos : 0 < find_line_ending s.line_buf (process_len s)) :
    (strip_line (s.line_buf.take (find_line_ending s.line_buf (process_len s)).toNat)).length + 1
      ≤ (find_line_ending s.line_buf (process_len s)).toNat ∧
    (find_line_ending s.line_buf (process_len s)).toNat ≤ 2048 := by
  have hple : process_len s ≤ s.line_len := Nat.sub_le _ _
  have hne : find_line_ending_loop (s.line_buf.take (process_len s)) 0 ≠ -1 := by
    unfold find_line_ending at hpos
    omega
  obtain ⟨m, h1, h2, h3, h4⟩ := find_line_ending_loop_last _ 0 hne
  have hfl : find_line_ending s.line_buf (process_len s) = (m : Int) := by
    unfold find_line_ending
    rw [h3]; simp
  have hmlen : m ≤ process_len s := by
    rw [List.length_take] at h2; omega
  rw [hfl, Int.toNat_ofNat]
  rw [getD_take _ _ _ (by omega)] at h4
  unfold Session.line_len at hs hple
  exact ⟨strip_line_terminated s.line_buf m h1 (by omega) h4, by omega⟩

theorem append_data_length (data : List Nat) (s : Session) (hd : data.length ≤ 1023)
    (hs : s.line_len ≤ 2048) : (append_data data s).line_len ≤ 2048 := by
  unfold append_data
  split_ifs with h1 h2
  · show data.length ≤ 2048
    omega
  · simp only [Session.line_len, BUFFER_SIZE] at h2 hs ⊢
    rw [List.length_append]
    omega
  · exact hs

/-- C30: in the line-binary server, for every sequence of reads of at most 1023 bytes each,
the buffer indices stay in bounds. The decoder (a total function) ends the next read with
`data_len ≤ bytes_read ≤ 1023`, below the 1024 slots of `data`; `line_len` is at most 2048, the
size of `line_buf`, before the read, after the append and after the read. In every state of
the extraction loop (`line_len ≤ 2048`) with `line_end_pos > 0`, the extracted line has
`line_content_len ≤ line_end_pos - 1 ≤ 2047`, so the NUL written at
`line_content[line_content_len]` lies inside the 2048 bytes of `line_content`, and the
remaining buffer is again at most 2048 bytes. `check_incomplete_utf8` and `find_line_ending`,
run with a record of the positions they read, give their results and read only positions `p`
with `0 ≤ p < len`. -/
theorem C30_buffer_indices_in_bounds (reads : List (List Nat)) (buffer : List Nat)
    (hr : ∀ r ∈ reads, r.length ≤ 1023) (hb : buffer.length ≤ 1023) :
    (decode buffer [] (handle_client reads)).1.length ≤ buffer.length ∧
    (decode buffer [] (handle_client reads)).1.length < 1024 ∧
    (handle_client reads).line_len ≤ 2048 ∧
    (append_data (decode buffer [] (handle_client reads)).1
      (decode buffer [] (handle_client reads)).2).line_len ≤ 2048 ∧
    (handle_client (reads ++ [buffer])).line_len ≤ 2048 ∧
    (∀ s : Session, s.line_len ≤ 2048 → 0 < find_line_ending s.line_buf (process_len s) →
      (strip_line (s.line_buf.take (find_line_ending s.line_buf (process_len s)).toNat)).length
        + 1 ≤ (find_line_ending s.line_buf (process_len s)).toNat ∧
      (find_line_ending s.line_buf (process_len s)).toNat - 1 ≤ 2047 ∧
      (strip_line (s.line_buf.take (find_line_ending s.line_buf (process_len s)).toNat)).length
        < 2048 ∧
      (s.line_buf.drop (find_line_ending s.line_buf (process_len s)).toNat).length ≤ 2048) ∧
    (∀ (buf : List Nat) (len : Nat),
      (check_incomplete_utf8_traced buf len).1 = check_incomplete_utf8 buf len ∧
      ∀ p ∈ (check_incomplete_utf8_traced buf len).2, 0 ≤ p ∧ p < (len : Int)) ∧
    (∀ (buf : List Nat) (len : Nat), len ≤ buf.length →
      (find_line_ending_traced buf len len 0).1 = find_line_ending buf len ∧
      ∀ p ∈ (find_line_ending_traced buf len len 0).2, 0 ≤ p ∧ p < (len : Int)) := by
  have hd := (decode_data_length _ buffer [] (handle_client reads) (le_refl _)).1
  simp only [List.length_nil, Nat.zero_add] at hd
  have hs : (handle_client reads).line_len ≤ 2048 := handle_reads_length reads start hr (by decide)
  have hl := (decode_line_buf buffer [] (handle_client reads)).1
  refine ⟨hd, by omega, hs, ?_, ?_, ?_, ?_, ?_⟩
  · exact append_data_length _ _ (by omega) (by unfold Session.line_len at hs ⊢; rw [hl]; exact hs)
  · refine handle_reads_length (reads ++ [buffer]) start ?_ (by decide)
    intro r hmem
    rcases List.mem_append.mp hmem with h | h
    · exact hr r h
    · simp only [List.mem_singleton] at h
      rw [h]; exact hb
  · intro s hs' hpos
    obtain ⟨h1, h2⟩ := extracted_line_bound s hs' hpos
    refine ⟨h1, by omega, by omega, ?_⟩
    rw [List.length_drop]
    unfold Session.line_len at hs'
    omega
  · intro buf len
    unfold check_incomplete_utf8_traced check_incomplete_utf8
    by_cases h0 : len = 0
    · simp [h0]
    · rw [if_neg h0, if_neg h0]
      exact check_incomplete_utf8_traced_loop_spec buf len 4 1 (le_refl _)
  · intro buf len hlen
    have := find_line_ending_traced_spec buf len hlen len 0 (by omega) (by omega)
    simpa [find_line_ending] using this

/-- Witness of C30: the reads `ab` and `c LF`. -/
theorem C30_buffer_indices_in_bounds_witness :
    (decode [0x63, 0x0A] [] (handle_client [[0x61, 0x62]])).1.length ≤ [0x63, 0x0A].length ∧
    (handle_client ([[0x61, 0x62]] ++ [[0x63, 0x0A]])).line_len ≤ 2048 := by
  have h := C30_buffer_indices_in_bounds [[0x61, 0x62]] [0x63, 0x0A] (by decide) (by decide)
  exact ⟨h.1, h.2.2.2.2.1⟩

end LineBinary

/-! ## The write lock -/

theorem sends_of_append (a b : List SocketAction) : sends_of (a ++ b) = sends_of a ++ sends_of b := by
  induction a with
  | nil => rfl
  | cons x t ih => cases x <;> simp [sends_of, ih]

theorem sends_of_locked_send (msg : List Nat) : sends_of (locked_send msg) = [msg] := rfl

theorem sends_under_lock_locked_send (msg : List Nat) (rest : List SocketAction) (held : Bool) :
    sends_under_lock held (locked_send msg ++ rest) = sends_under_lock false rest := by
  simp [locked_send, sends_under_lock]

theorem CharMode.respond_actions_eq (cmd opt : Nat)
    (hcmd : cmd = DO ∨ cmd = DONT ∨ cmd = WILL ∨ cmd = WONT) :
    CharMode.respond_actions cmd opt = [SocketAction.send [IAC, CharMode.table_reply cmd opt, opt]] := by
  unfold CharMode.respond_actions CharMode.table_reply send_telnet_option_actions
  rcases hcmd with rfl | rfl | rfl | rfl <;> simp [DO, DONT, WILL, WONT] <;> split_ifs <;> simp_all

theorem LineBinary.lb_respond_actions_eq (cmd opt : Nat)
    (hcmd : cmd = DO ∨ cmd = DONT ∨ cmd = WILL ∨ cmd = WONT) :
    LineBinary.respond_actions cmd opt =
      [SocketAction.send [IAC, LineBinary.table_reply cmd opt, opt]] := by
  unfold LineBinary.respond_actions LineBinary.table_reply send_telnet_option_actions
  rcases hcmd with rfl | rfl | rfl | rfl <;> simp [DO, DONT, WILL, WONT] <;> split_ifs <;> simp_all

theorem CharMode.check_ready_sends (s : CharMode.Session) :
    (CharMode.check_ready s).sent = s.sent ++ sends_of (CharMode.check_ready_actions s) := by
  unfold CharMode.check_ready CharMode.check_ready_actions
  split_ifs <;> simp [CharMode.send, sends_of_locked_send, sends_of]

theorem LineBinary.lb_check_ready_sends (s : LineBinary.Session) :
    (LineBinary.check_ready s).sent = s.sent ++ sends_of (LineBinary.check_ready_actions s) := by
  unfold LineBinary.check_ready LineBinary.check_ready_actions
  split_ifs <;> simp [LineBinary.send, sends_of_locked_send, sends_of]

theorem CharMode.handle_char_sends (ch : Nat) (s : CharMode.Session) :
    (CharMode.handle_char ch s).sent = s.sent ++ sends_of (CharMode.handle_char_actions ch s) ∧
    sends_under_lock false (CharMode.handle_char_actions ch s) = true := by
  unfold CharMode.handle_char CharMode.handle_char_actions
  split_ifs <;>
    simp [CharMode.send, sends_of_locked_send, sends_of, sends_of_append, locked_send,
      sends_under_lock] <;> simp_all

theorem LineBinary.process_line_sends (line : List Nat) (s : LineBinary.Session) :
    (LineBinary.process_line line s).sent =
      s.sent ++ sends_of (LineBinary.process_line_actions line) ∧
    sends_under_lock false (LineBinary.process_line_actions line) = true := by
  by_cases h1 : (strip_line line).length > 0
  · by_cases h2 : cstr (strip_line line ++ [0]) = bytes "quit"
    · simp [LineBinary.process_line, LineBinary.process_line_actions, h1, h2, LineBinary.send,
        sends_of, locked_send, sends_under_lock]
    · simp [LineBinary.process_line, LineBinary.process_line_actions, h1, h2, LineBinary.send,
        sends_of, locked_send, sends_under_lock]
  · simp [LineBinary.process_line, LineBinary.process_line_actions, h1, sends_of,
      sends_under_lock]

/-- C26, the code at the failing input. After the timestamp task has been started the reader
answers every complete option triple `IAC cmd opt` (`cmd` one of DO, DONT, WILL, WONT) through
`send_telnet_option`, which calls `send` without taking `socket_mutex`: in both servers the
first action for the triple is the write of the 3-byte reply with the lock not held, so the
writes of the reader are not all made under the lock. The other writes of the reader are: the
ready banner, the echoed bytes and the composed strings of the character-mode server, and the
`ECHO:` / `Goodbye!` messages of the line-binary server are each sent between
`pthread_mutex_lock` and `pthread_mutex_unlock`. The actions account for exactly the messages
the servers write. For the read `IAC DO SGA` after the character-mode prelude the actions are
the unlocked reply `FF FB 03` followed by the locked ready banner. -/
theorem C26_option_replies_sent_unlocked (cmd opt : Nat) (cs : CharMode.Session)
    (ls : LineBinary.Session) (hcmd : cmd = DO ∨ cmd = DONT ∨ cmd = WILL ∨ cmd = WONT) :
    (CharMode.negotiate cmd opt cs).sent =
      cs.sent ++ sends_of (CharMode.negotiate_actions cmd opt cs) ∧
    (LineBinary.negotiate cmd opt ls).sent =
      ls.sent ++ sends_of (LineBinary.negotiate_actions cmd opt ls) ∧
    CharMode.negotiate_actions cmd opt cs =
      SocketAction.send [IAC, CharMode.table_reply cmd opt, opt] ::
        CharMode.check_ready_actions (CharMode.respond cmd opt cs) ∧
    LineBinary.negotiate_actions cmd opt ls =
      SocketAction.send [IAC, LineBinary.table_reply cmd opt, opt] ::
        LineBinary.check_ready_actions (LineBinary.respond cmd opt ls) ∧
    sends_under_lock false (CharMode.negotiate_actions cmd opt cs) = false ∧
    sends_under_lock false (LineBinary.negotiate_actions cmd opt ls) = false ∧
    (∀ (ch : Nat) (s : CharMode.Session),
      (CharMode.handle_char ch s).sent = s.sent ++ sends_of (CharMode.handle_char_actions ch s) ∧
      sends_under_lock false (CharMode.handle_char_actions ch s) = true) ∧
    (∀ s : CharMode.Session, sends_under_lock false (CharMode.check_ready_actions s) = true) ∧
    (∀ (line : List Nat) (s : LineBinary.Session),
      (LineBinary.process_line line s).sent =
        s.sent ++ sends_of (LineBinary.process_line_actions line) ∧
      sends_under_lock false (LineBinary.process_line_actions line) = true) ∧
    (∀ s : LineBinary.Session,
      sends_under_lock false (LineBinary.check_ready_actions s) = true) ∧
    CharMode.negotiate_actions DO SUPPRESS_GO_AHEAD CharMode.start =
      [SocketAction.send [0xFF, 0xFB, 0x03], SocketAction.lock,
       SocketAction.send CharMode.ready_msg, SocketAction.unlock] := by
  have hc := CharMode.respond_actions_eq cmd opt hcmd
  have hl := LineBinary.lb_respond_actions_eq cmd opt hcmd
  have hcr : (CharMode.respond cmd opt cs).sent =
      cs.sent ++ [[IAC, CharMode.table_reply cmd opt, opt]] := by
    rw [CharMode.respond_eq cmd opt cs hcmd]
  have hlr : (LineBinary.respond cmd opt ls).sent =
      ls.sent ++ [[IAC, LineBinary.table_reply cmd opt, opt]] := by
    rw [LineBinary.lb_respond_eq cmd opt ls hcmd]
  refine ⟨?_, ?_, ?_, ?_, ?_, ?_, CharMode.handle_char_sends, ?_, LineBinary.process_line_sends,
    ?_, by decide⟩
  · unfold CharMode.negotiate CharMode.negotiate_actions
    rw [CharMode.check_ready_sends, hcr, sends_of_append, hc]
    simp [sends_of]
  · unfold LineBinary.negotiate LineBinary.negotiate_actions
    rw [LineBinary.lb_check_ready_sends, hlr, sends_of_append, hl]
    simp [sends_of]
  · unfold CharMode.negotiate_actions
    rw [hc]; rfl
  · unfold LineBinary.negotiate_actions
    rw [hl]; rfl
  · unfold CharMode.negotiate_actions
    rw [hc]
    simp [sends_under_lock]
  · unfold LineBinary.negotiate_actions
    rw [hl]
    simp [sends_under_lock]
  · intro s
    unfold CharMode.check_ready_actions
    split_ifs <;> simp [locked_send, sends_under_lock]
  · intro s
    unfold LineBinary.check_ready_actions
    split_ifs <;> simp [locked_send, sends_under_lock]

/-- Witness of C26: the triple `IAC DO ECHO` after the prelude of either server. -/
theorem C26_option_replies_sent_unlocked_witness :
    sends_under_lock false (CharMode.negotiate_actions DO ECHO CharMode.start) = false ∧
    sends_under_lock false (LineBinary.negotiate_actions DO ECHO LineBinary.start) = false := by
  have h := C26_option_replies_sent_unlocked DO ECHO CharMode.start LineBinary.start (by decide)
  exact ⟨h.2.2.2.2.1, h.2.2.2.2.2.1⟩
